import Mathlib

/-!
# vlscheduler: scheduled playlist playback (`src/scheduler.c`)

A shallow embedding of the scheduler module and theorems about it.

Conventions of the embedding

* A C string is a `List Char`; every `Char` stands for one byte of the file.
* The host (file system, VLC core) is a record of functions, `Host`; calls made to
  the host and log messages are recorded, in order, as a list of `Event`s.
* `struct intf_sys_t` keeps the array `entries[SCHED_MAX_ENTRIES]` together with
  `entry_count` as one list, whose length is `entry_count`.
* Heap allocation in `LoadM3U` (`realloc`, `strdup`) is taken to succeed; the `malloc` of
  `Open`, which has a result code of its own, may fail.
* Log messages are recorded with their severity and format string. The arguments of
  the format are not recorded, with one exception: the warnings of `ParseConfig` about a
  line are recorded with their argument `lineno` (`Event.msgLine`).
-/


namespace VLScheduler

/-! ## Constants -/

/-- `#define SCHED_MAX_ENTRIES 64` -/
def SCHED_MAX_ENTRIES : Nat := 64

/-- `#define SCHED_MAX_PATH 512` -/
def SCHED_MAX_PATH : Nat := 512

/-- `#define SCHED_POLL_SEC 30` -/
def SCHED_POLL_SEC : Nat := 30

/-- `#define VLC_SUCCESS 0` (vlc_common.h) -/
def VLC_SUCCESS : Int := 0

/-- `#define VLC_EGENERIC (-1)` (vlc_common.h) -/
def VLC_EGENERIC : Int := -1

/-- `#define VLC_ENOMEM (-2)` (vlc_common.h) -/
def VLC_ENOMEM : Int := -2

/-! ## Data structures -/

/-- `struct sched_entry` -/
structure sched_entry where
  day : Int
  hour : Int
  minute : Int
  path : List Char
deriving DecidableEq

/-- `struct intf_sys_t`, without the opaque handles `playlist` and `timer`.
`entries` holds `entries[0 .. entry_count-1]`. -/
structure intf_sys_t where
  fullscreen : Bool
  entries : List sched_entry
  last_triggered_day : Int
  last_triggered_hour : Int
  last_triggered_minute : Int
deriving DecidableEq

/-- The field `entry_count`. -/
def intf_sys_t.entry_count (sys : intf_sys_t) : Nat := sys.entries.length

/-- The fields of `struct tm` that `TimerCallback` reads. -/
structure tm where
  tm_wday : Int
  tm_hour : Int
  tm_min : Int
deriving DecidableEq

/-- `input_item_t`: an item remembers the URI it was made from. -/
structure input_item_t where
  psz_uri : List Char
deriving DecidableEq

/-- Severity of a log message: `msg_Err`, `msg_Warn`, `msg_Info`, `msg_Dbg`. -/
inductive Severity where
  | Err
  | Warn
  | Info
  | Dbg
deriving DecidableEq

/-- The objects `var_SetBool` is called on. -/
inductive VlcObject where
  | playlist
  | vout
deriving DecidableEq

/-- What the module does to the outside world, one constructor per host call. `msgLine`
is a log message whose format ends in `line %d`, with the line number it is given. -/
inductive Event where
  | msg (sev : Severity) (fmt : String)
  | msgLine (sev : Severity) (fmt : String) (lineno : Nat)
  | fopen (path : List Char)
  | playlist_Stop
  | playlist_Clear
  | vlc_path2uri (path : List Char)
  | input_item_New (uri : List Char)
  | playlist_AddInput (item : input_item_t)
  | playlist_Play
  | var_SetBool (obj : VlcObject) (name : String) (val : Bool)
  | vlc_timer_create
  | vlc_timer_schedule (value : Int) (interval : Int)
deriving DecidableEq

/-- The host as the module sees it during one call.
`fopen path` is the content of the file, `none` when it cannot be opened;
`vlc_path2uri` is `none` when the conversion returns `NULL`;
`input_item_New uri` and `playlist_AddInput item` tell whether the call succeeds;
`playlist_CurrentInput` and `input_GetVout` tell whether the object returned is
non-`NULL`. -/
structure Host where
  fopen : List Char → Option (List Char)
  vlc_path2uri : List Char → Option (List Char)
  input_item_New : List Char → Bool
  playlist_AddInput : input_item_t → Bool
  playlist_CurrentInput : Bool
  input_GetVout : Bool

/-! ## C library -/

/-- `isspace` in the C locale: space, `\t`, `\n`, `\v`, `\f`, `\r`. -/
def isspace (c : Char) : Bool :=
  c == ' ' || c == '\t' || c == '\n' || c == Char.ofNat 11 || c == Char.ofNat 12 || c == '\r'

/-- `isdigit` -/
def isdigit (c : Char) : Bool :=
  decide ('0'.toNat ≤ c.toNat ∧ c.toNat ≤ '9'.toNat)

/-- `tolower` in the C locale. -/
def tolower (c : Char) : Char :=
  if 'A'.toNat ≤ c.toNat ∧ c.toNat ≤ 'Z'.toNat then Char.ofNat (c.toNat + 32) else c

/-- The test `*p == ' ' || *p == '\t'` of the source's own skipping loops. -/
def isBlank (c : Char) : Bool :=
  c == ' ' || c == '\t'

/-- A buffer read as a C string: it ends at the first NUL byte. -/
def cstr (buf : List Char) : List Char :=
  buf.takeWhile (fun c => c != Char.ofNat 0)

/-- `strncasecmp(s1, s2, n)`: zero exactly when the first `n` characters agree up to case. -/
def strncasecmp : List Char → List Char → Nat → Int
  | _, _, 0 => 0
  | [], [], _ + 1 => 0
  | [], b :: _, _ + 1 => - ((tolower b).toNat : Int)
  | a :: _, [], _ + 1 => ((tolower a).toNat : Int)
  | a :: as, b :: bs, n + 1 =>
    if tolower a = tolower b then strncasecmp as bs n
    else ((tolower a).toNat : Int) - ((tolower b).toNat : Int)

/-- Does `hay` start with `needle`? -/
def startsWith : List Char → List Char → Bool
  | _, [] => true
  | [], _ :: _ => false
  | h :: hs, n :: ns => h == n && startsWith hs ns

/-- `strstr(hay, needle) != NULL` -/
def strstr : List Char → List Char → Bool
  | [], needle => startsWith [] needle
  | h :: hs, needle => startsWith (h :: hs) needle || strstr hs needle

/-- The loop of `fgets`: at most `n` characters, stopping after a newline.
Returns the characters stored and the rest of the stream. -/
def fgetsAux : Nat → List Char → List Char × List Char
  | 0, rest => ([], rest)
  | _ + 1, [] => ([], [])
  | k + 1, c :: rest =>
    if c = '\n' then ([c], rest)
    else (c :: (fgetsAux k rest).1, (fgetsAux k rest).2)

/-- `fgets(buf, size, fp)`: `none` at end of file, else the buffer and the rest of the
stream. At most `size - 1` characters are stored. -/
def fgets (size : Nat) (fp : List Char) : Option (List Char × List Char) :=
  match fp with
  | [] => none
  | _ :: _ => some (fgetsAux (size - 1) fp)

/-- The buffers that successive calls `fgets(buf, size, fp)` return, until `NULL`. -/
def fgetsAll (size : Nat) : Nat → List Char → List (List Char)
  | 0, _ => []
  | fuel + 1, fp =>
    match fgets size fp with
    | none => []
    | some r => r.1 :: fgetsAll size fuel r.2

/-- The buffers of `while (fgets(buf, size, fp) != NULL)` over a whole file. Each call
consumes at least one character when `size ≥ 2`, so the length of the file is enough
fuel (`readLines_join`). -/
def readLines (size : Nat) (content : List Char) : List (List Char) :=
  fgetsAll size content.length content

/-! ### `sscanf(p, "%7s %d:%d %511[^\n]", ...)` -/

/-- White space skipped by a white-space directive and before `%s` and `%d`. -/
def skipSpace (s : List Char) : List Char :=
  s.dropWhile isspace

/-- `%Ns`: skip white space, then at most `width` characters that are not white space.
Fails when there is none. -/
def scanWord (width : Nat) (s : List Char) : Option (List Char × List Char) :=
  let w := ((skipSpace s).takeWhile (fun c => !isspace c)).take width
  if w = [] then none else some (w, (skipSpace s).drop w.length)

/-- Value of a run of decimal digits. -/
def digitsValue (ds : List Char) : Nat :=
  ds.foldl (fun acc c => 10 * acc + (c.toNat - '0'.toNat)) 0

/-- The value `%d` stores for the mathematical value `v`: as glibc does on LP64, the
value is clamped to the range of `long` (`strtol`) and then truncated to 32 bits. -/
def storeInt (v : Int) : Int :=
  let l : Int := max (-(2 ^ 63)) (min v (2 ^ 63 - 1))
  let m : Int := l % 2 ^ 32
  if m < 2 ^ 31 then m else m - 2 ^ 32

/-- `%d`: skip white space, an optional sign, then at least one decimal digit. -/
def scanInt (s : List Char) : Option (Int × List Char) :=
  let neg : Bool := match skipSpace s with
    | '-' :: _ => true
    | _ => false
  let body : List Char := match skipSpace s with
    | '-' :: r => r
    | '+' :: r => r
    | r => r
  let ds := body.takeWhile isdigit
  if ds = [] then none
  else some (storeInt (if neg then - (digitsValue ds : Int) else (digitsValue ds : Int)),
             body.drop ds.length)

/-- `%N[^\n]`: at most `width` characters other than newline, at least one. -/
def scanSet (width : Nat) (s : List Char) : Option (List Char × List Char) :=
  let w := (s.takeWhile (fun c => c != '\n')).take width
  if w = [] then none else some (w, s.drop w.length)

/-- Result of the `sscanf` call: its return value and the four output arguments
(an argument that was not assigned is never read by the caller). -/
structure ScanResult where
  matched : Int
  day_str : List Char
  hour : Int
  minute : Int
  m3u_path : List Char
deriving DecidableEq

/-- `sscanf(p, "%7s %d:%d %511[^\n]", day_str, &hour, &minute, m3u_path)`.
Returns `EOF` (-1) when the input ends before the first conversion. -/
def sscanf (p : List Char) : ScanResult :=
  match scanWord 7 p with
  | none => ⟨-1, [], 0, 0, []⟩
  | some (day_str, s1) =>
    match scanInt (skipSpace s1) with
    | none => ⟨1, day_str, 0, 0, []⟩
    | some (hour, s2) =>
      match s2 with
      | ':' :: s3 =>
        match scanInt s3 with
        | none => ⟨2, day_str, hour, 0, []⟩
        | some (minute, s4) =>
          match scanSet 511 (skipSpace s4) with
          | none => ⟨3, day_str, hour, minute, []⟩
          | some (m3u_path, _) => ⟨4, day_str, hour, minute, m3u_path⟩
      | _ => ⟨2, day_str, hour, 0, []⟩

/-! ## DayFromString -/

/-- `static const char *days[]` -/
def days : List (List Char) :=
  [['S', 'U', 'N'], ['M', 'O', 'N'], ['T', 'U', 'E'], ['W', 'E', 'D'],
   ['T', 'H', 'U'], ['F', 'R', 'I'], ['S', 'A', 'T']]

/-- The `for` loop of `DayFromString`, from index `i` over the remaining names. -/
def DayFromString.loop (str : List Char) : List (List Char) → Int → Int
  | [], _ => -1
  | d :: ds, i => if strncasecmp str d 3 = 0 then i else DayFromString.loop str ds (i + 1)

/-- `DayFromString`: convert a 3-letter day abbreviation to a `tm_wday` value. -/
def DayFromString (str : List Char) : Int :=
  DayFromString.loop str days 0

/-! ## ParseConfig -/

/-- `strchr(line, '\n')`, `*nl = '\0'`, then the same for `'\r'`: the string is cut at
its first newline and then at its first carriage return. -/
def stripNewline (line : List Char) : List Char :=
  (line.takeWhile (fun c => c != '\n')).takeWhile (fun c => c != '\r')

/-- The `while (*p == ' ' || *p == '\t') p++` loops. -/
def skipBlank (s : List Char) : List Char :=
  s.dropWhile isBlank

/-- The loop `while (len > 0 && (path[len-1] == ' ' || path[len-1] == '\t'))
path[--len] = '\0'`. -/
def trimTrailing (s : List Char) : List Char :=
  (s.reverse.dropWhile isBlank).reverse

/-- Lines 194-203: the path stored in the entry, from the `m3u_path` that `sscanf`
filled: leading blanks skipped, `strncpy` of at most `SCHED_MAX_PATH - 1` characters,
trailing blanks removed. -/
def storePath (m3u_path : List Char) : List Char :=
  trimTrailing ((skipBlank m3u_path).take (SCHED_MAX_PATH - 1))

/-- How one iteration of the parsing loop leaves the checks of lines 140-180. -/
inductive LineResult where
  | skip
  | malformed
  | unknown_day
  | invalid_time
  | data (day : Int) (hour : Int) (minute : Int) (m3u_path : List Char)
deriving DecidableEq

/-- Lines 140-180 of `ParseConfig` on the buffer that `fgets` filled. -/
def parseLine (buf : List Char) : LineResult :=
  match skipBlank (stripNewline (cstr buf)) with
  | [] => .skip
  | c :: p =>
    if c = '#' then .skip
    else if (sscanf (c :: p)).matched ≠ 4 then .malformed
    else if DayFromString (sscanf (c :: p)).day_str < 0 then .unknown_day
    else if (sscanf (c :: p)).hour < 0 ∨ (sscanf (c :: p)).hour > 23
            ∨ (sscanf (c :: p)).minute < 0 ∨ (sscanf (c :: p)).minute > 59 then .invalid_time
    else .data (DayFromString (sscanf (c :: p)).day_str) (sscanf (c :: p)).hour
           (sscanf (c :: p)).minute (sscanf (c :: p)).m3u_path

/-- The `while` loop of `ParseConfig` over the buffers that the successive `fgets` calls
return, with the value of `lineno` so far (the number of buffers read), the entries stored
so far and the messages logged so far. Every iteration starts with `lineno++`. The `break`
of line 186 ends the loop; the buffers left are never read. -/
def ParseConfig.loop : List (List Char) → Nat → List sched_entry → List Event →
    List sched_entry × List Event
  | [], _, entries, log => (entries, log)
  | buf :: rest, lineno, entries, log =>
    match parseLine buf with
    | .skip => ParseConfig.loop rest (lineno + 1) entries log
    | .malformed =>
      ParseConfig.loop rest (lineno + 1) entries
        (log ++ [.msgLine .Warn "scheduler: skipping malformed line %d" (lineno + 1)])
    | .unknown_day =>
      ParseConfig.loop rest (lineno + 1) entries
        (log ++ [.msgLine .Warn "scheduler: unknown day '%s' on line %d" (lineno + 1)])
    | .invalid_time =>
      ParseConfig.loop rest (lineno + 1) entries
        (log ++ [.msgLine .Warn "scheduler: invalid time %d:%02d on line %d" (lineno + 1)])
    | .data day hour minute m3u_path =>
      if entries.length ≥ SCHED_MAX_ENTRIES then
        (entries, log ++ [.msg .Warn "scheduler: max entries (%d) reached, ignoring rest"])
      else
        ParseConfig.loop rest (lineno + 1)
          (entries ++ [⟨day, hour, minute, storePath m3u_path⟩])
          (log ++ [.msg .Dbg "scheduler: entry %d: day=%d time=%02d:%02d path=%s"])

/-- `ParseConfig`: read and parse the schedule configuration file. Returns the result
code, the new `intf_sys_t` and the events. -/
def ParseConfig (host : Host) (sys : intf_sys_t) (path : List Char) :
    Int × intf_sys_t × List Event :=
  match host.fopen path with
  | none =>
    (VLC_EGENERIC, { sys with entries := [] },
      [.fopen path, .msg .Err "scheduler: cannot open config file '%s'"])
  | some content =>
    let r := ParseConfig.loop (readLines 1024 content) 0 [] [.fopen path]
    if r.1.length = 0 then
      (VLC_EGENERIC, { sys with entries := r.1 },
        r.2 ++ [.msg .Warn "scheduler: no valid entries found in '%s'"])
    else
      (VLC_SUCCESS, { sys with entries := r.1 },
        r.2 ++ [.msg .Info "scheduler: loaded %d schedule entries"])

/-! ## LoadM3U -/

/-- One iteration of the first loop of `LoadM3U` (lines 247-279): the string that is
duplicated into `lines[]`, `none` when the buffer is skipped. -/
def usableLine (buf : List Char) : Option (List Char) :=
  match skipBlank (stripNewline (cstr buf)) with
  | [] => none
  | c :: p => if c = '#' then none else some (c :: p)

/-- Lines 305-308: the URI of a line, with the event of the conversion call. -/
def LoadM3U.uri (host : Host) (line : List Char) : Option (List Char) × List Event :=
  if strstr line [':', '/', '/'] then (some line, [])
  else (host.vlc_path2uri line, [.vlc_path2uri line])

/-- One iteration of the second loop of `LoadM3U` (lines 302-336): whether `count` is
incremented, and the events. -/
def LoadM3U.item (host : Host) (line : List Char) : Bool × List Event :=
  match (LoadM3U.uri host line).1 with
  | none =>
    (false, (LoadM3U.uri host line).2 ++
      [.msg .Warn "scheduler: failed to convert '%s' to URI"])
  | some uri =>
    if host.input_item_New uri then
      if host.playlist_AddInput ⟨uri⟩ then
        (true, (LoadM3U.uri host line).2 ++ [.input_item_New uri, .playlist_AddInput ⟨uri⟩])
      else
        (false, (LoadM3U.uri host line).2 ++ [.input_item_New uri, .playlist_AddInput ⟨uri⟩,
          .msg .Warn "scheduler: failed to insert '%s'"])
    else
      (false, (LoadM3U.uri host line).2 ++ [.input_item_New uri,
        .msg .Warn "scheduler: failed to create input item for '%s'"])

/-- The second loop of `LoadM3U` over `lines[]`: the final `count` and the events. -/
def LoadM3U.items (host : Host) : List (List Char) → Nat × List Event
  | [] => (0, [])
  | line :: rest =>
    ((if (LoadM3U.item host line).1 then 1 else 0) + (LoadM3U.items host rest).1,
     (LoadM3U.item host line).2 ++ (LoadM3U.items host rest).2)

/-- `LoadM3U`: parse an M3U file and load its entries into the VLC playlist. Returns
the result code and the events. -/
def LoadM3U (host : Host) (path : List Char) : Int × List Event :=
  match host.fopen path with
  | none => (VLC_EGENERIC, [.fopen path, .msg .Err "scheduler: cannot open M3U file '%s'"])
  | some content =>
    let lines := (readLines SCHED_MAX_PATH content).filterMap usableLine
    if lines.length = 0 then
      (VLC_EGENERIC, [.fopen path, .msg .Warn "scheduler: M3U file '%s' contains no entries"])
    else if (LoadM3U.items host lines).1 > 0 then
      (VLC_SUCCESS, [.fopen path, .playlist_Stop, .playlist_Clear]
        ++ (LoadM3U.items host lines).2
        ++ [.playlist_Play, .msg .Info "scheduler: started playback with %d items from '%s'"])
    else
      (VLC_EGENERIC, [.fopen path, .playlist_Stop, .playlist_Clear]
        ++ (LoadM3U.items host lines).2
        ++ [.msg .Warn "scheduler: no items were loaded from '%s'"])

/-! ## TimerCallback -/

/-- Lines 405-425: the fullscreen request made after a successful load. -/
def requestFullscreen (host : Host) : List Event :=
  .var_SetBool .playlist "fullscreen" true ::
    (if host.playlist_CurrentInput && host.input_GetVout then
      [.var_SetBool .vout "fullscreen" true]
    else [])

/-- Lines 395-427 of `TimerCallback`: the matching entry `e` fires. The trigger state is
recorded, then the playlist is loaded, then fullscreen is requested when the load
succeeded and the option is set. -/
def TimerCallback.fire (host : Host) (sys : intf_sys_t) (tm_now : tm) (e : sched_entry) :
    intf_sys_t × List Event :=
  ({ sys with last_triggered_day := tm_now.tm_wday,
              last_triggered_hour := tm_now.tm_hour,
              last_triggered_minute := tm_now.tm_min },
    .msg .Info "scheduler: trigger! day=%d time=%02d:%02d -> %s" ::
    (LoadM3U host e.path).2 ++
    (if (LoadM3U host e.path).1 = VLC_SUCCESS ∧ sys.fullscreen = true then
      requestFullscreen host
    else []))

/-- The `for` loop of `TimerCallback` over the entries not yet examined. -/
def TimerCallback.loop (host : Host) (sys : intf_sys_t) (tm_now : tm) :
    List sched_entry → intf_sys_t × List Event
  | [] => (sys, [])
  | e :: rest =>
    if e.day ≠ tm_now.tm_wday ∨ e.hour ≠ tm_now.tm_hour ∨ e.minute ≠ tm_now.tm_min then
      TimerCallback.loop host sys tm_now rest
    else if sys.last_triggered_day = tm_now.tm_wday ∧ sys.last_triggered_hour = tm_now.tm_hour
        ∧ sys.last_triggered_minute = tm_now.tm_min then
      (sys, [])
    else
      TimerCallback.fire host sys tm_now e

/-- `TimerCallback`, called every `SCHED_POLL_SEC` seconds; `tm_now` is the local time
that `localtime_r` returned. -/
def TimerCallback (host : Host) (sys : intf_sys_t) (tm_now : tm) : intf_sys_t × List Event :=
  TimerCallback.loop host sys tm_now sys.entries

/-! ## Open -/

/-- `#define VLC_TICK_FROM_SEC(s) ((vlc_tick_t)(s) * INT64_C(1000000))` (vlc_common.h) -/
def VLC_TICK_FROM_SEC (s : Int) : Int := s * 1000000

/-- What `Open` gets from the VLC core: the result of
`var_InheritString(intf, "scheduler-config")` (`none` for `NULL`), the result of
`var_InheritBool(intf, "scheduler-fullscreen")`, whether `malloc(sizeof(*sys))` succeeds,
and the value `vlc_timer_create` returns. -/
structure Core where
  scheduler_config : Option (List Char)
  scheduler_fullscreen : Bool
  malloc : Bool
  vlc_timer_create : Int

/-- `Open`: module activation. Returns the result code, `intf->p_sys` (`none` for `NULL`)
and the events. -/
def Open (core : Core) (host : Host) : Int × Option intf_sys_t × List Event :=
  match core.scheduler_config with
  | none =>
    (VLC_EGENERIC, none,
      [.msg .Err "scheduler: no config file specified (set --scheduler-config)"])
  | some config_path =>
    if config_path = [] then
      (VLC_EGENERIC, none,
        [.msg .Err "scheduler: no config file specified (set --scheduler-config)"])
    else if core.malloc = false then
      (VLC_ENOMEM, none, [])
    else if (ParseConfig host ⟨core.scheduler_fullscreen, [], -1, -1, -1⟩ config_path).1
        ≠ VLC_SUCCESS then
      (VLC_EGENERIC, none,
        (ParseConfig host ⟨core.scheduler_fullscreen, [], -1, -1, -1⟩ config_path).2.2
          ++ [.msg .Err "scheduler: failed to parse config '%s'"])
    else if core.vlc_timer_create ≠ 0 then
      (VLC_EGENERIC, none,
        (ParseConfig host ⟨core.scheduler_fullscreen, [], -1, -1, -1⟩ config_path).2.2
          ++ [.vlc_timer_create, .msg .Err "scheduler: failed to create timer"])
    else
      (VLC_SUCCESS,
        some (ParseConfig host ⟨core.scheduler_fullscreen, [], -1, -1, -1⟩ config_path).2.1,
        (ParseConfig host ⟨core.scheduler_fullscreen, [], -1, -1, -1⟩ config_path).2.2
          ++ [.vlc_timer_create, .vlc_timer_schedule 1 (VLC_TICK_FROM_SEC SCHED_POLL_SEC),
              .msg .Info "scheduler: started with %d entries, polling every %ds"])

/-! ## Vocabulary of the specification -/

/-- The lines of a file: the text between newlines. A final line need not be
terminated; a terminating newline does not start a further line. -/
def fileLines : List Char → List (List Char)
  | [] => []
  | c :: cs =>
    if c = '\n' then [] :: fileLines cs
    else match fileLines cs with
      | [] => [[c]]
      | l :: ls => (c :: l) :: ls

/-- The entry `ParseConfig` stores for a buffer that passes the checks of lines 140-180
(lines 189-203), `none` for a buffer that does not pass them. -/
def lineEntry (buf : List Char) : Option sched_entry :=
  match parseLine buf with
  | .data day hour minute m3u_path => some ⟨day, hour, minute, storePath m3u_path⟩
  | _ => none

/-- A line without the carriage return that ends it. -/
def dropCR : List Char → List Char
  | [] => []
  | [c] => if c = '\r' then [] else [c]
  | c :: c2 :: cs => c :: dropCR (c2 :: cs)

/-- A comment line or a blank line: after the trailing carriage return is stripped and
leading blanks are skipped, the line is empty or starts with `#`. -/
def commentOrBlank (line : List Char) : Bool :=
  match skipBlank (dropCR line) with
  | [] => true
  | c :: _ => c == '#'

/-- The playlist files a run tried to open, in order. -/
def loads : List Event → List (List Char)
  | [] => []
  | .fopen path :: rest => path :: loads rest
  | _ :: rest => loads rest

/-- The items a run passed to `playlist_AddInput`, in order. -/
def handedItems : List Event → List input_item_t
  | [] => []
  | .playlist_AddInput item :: rest => item :: handedItems rest
  | _ :: rest => handedItems rest

/-- The operations on the player: stop, clear, insert, play and the fullscreen request. -/
def isPlayerOp : Event → Bool
  | .playlist_Stop => true
  | .playlist_Clear => true
  | .playlist_AddInput _ => true
  | .playlist_Play => true
  | .var_SetBool _ _ _ => true
  | _ => false

/-- The events of the second loop of `LoadM3U`: messages, URI conversions, item
constructions and insertions. -/
def isItemEvent : Event → Bool
  | .msg _ _ => true
  | .vlc_path2uri _ => true
  | .input_item_New _ => true
  | .playlist_AddInput _ => true
  | _ => false

/-- The operations on the player of a run, in order. -/
def playerOps (trace : List Event) : List Event :=
  trace.filter isPlayerOp

/-- The test of line 384, negated: the entry is scheduled for the current minute. -/
def entryMatches (tm_now : tm) (e : sched_entry) : Bool :=
  decide (e.day = tm_now.tm_wday ∧ e.hour = tm_now.tm_hour ∧ e.minute = tm_now.tm_min)

/-- The test of lines 388-390: the trigger state records the current minute. -/
def alreadyTriggered (sys : intf_sys_t) (tm_now : tm) : Bool :=
  decide (sys.last_triggered_day = tm_now.tm_wday ∧ sys.last_triggered_hour = tm_now.tm_hour
    ∧ sys.last_triggered_minute = tm_now.tm_min)

/-- The item `LoadM3U` constructs for a usable line, `none` when the URI conversion or
the item construction fails. -/
def itemOf (host : Host) (line : List Char) : Option input_item_t :=
  match (LoadM3U.uri host line).1 with
  | none => none
  | some uri => if host.input_item_New uri then some ⟨uri⟩ else none

/-- The state `Open` sets up before parsing, with no entries yet. -/
def initialSys (fullscreen : Bool) : intf_sys_t :=
  ⟨fullscreen, [], -1, -1, -1⟩

/-- A host with files `files` (path and content), in which every conversion, item
construction and insertion succeeds. -/
def hostWithFiles (files : List (List Char × List Char)) : Host where
  fopen := fun path => (files.find? (fun f => f.1 == path)).map (fun f => f.2)
  vlc_path2uri := fun path => some ("file://".toList ++ path)
  input_item_New := fun _ => true
  playlist_AddInput := fun _ => true
  playlist_CurrentInput := true
  input_GetVout := true

/-- The path of the schedule file in the examples. -/
def configPath : List Char := "/etc/schedule.conf".toList

/-- A schedule file with comments, blank lines, well-formed lines and malformed lines. -/
def exampleConfig : List Char :=
  ("# weekly schedule\r\n" ++ "MON 22:30 /x.m3u\n" ++ "\n" ++ "  mon 22:30\t/y.m3u  \n"
    ++ "XXX 10:00 /z.m3u\n" ++ "TUE 24:00 /q.m3u\n" ++ "WED 10:00\n"
    ++ "Fri 7:05   /my lists/a b.m3u").toList

/-- A schedule file made of one comment line: 1023 characters `#`, then the text
`MON 10:00 /x.m3u`. -/
def longCommentFile : List Char :=
  List.replicate 1023 '#' ++ "MON 10:00 /x.m3u\n".toList

/-- A schedule file made of comment lines and a blank line; its last comment line is a
rule of 1023 characters followed by the text `SUN 8:00 /s.m3u`. -/
def longRuleFile : List Char :=
  "# schedule\n\n".toList ++ ('#' :: List.replicate 1022 '=') ++ "SUN 8:00 /s.m3u\n".toList

/-- A malformed line (its day token is `XXXXXXX`, no time follows) of 1023 characters
`X` followed by the text `MON 10:00 /x.m3u`. -/
def longBadLine : List Char :=
  List.replicate 1023 'X' ++ "MON 10:00 /x.m3u".toList

/-- A host whose only file is the schedule file, with the given content. -/
def configHost (content : List Char) : Host :=
  hostWithFiles [(configPath, content)]

/-- A schedule file of comment lines and blank lines only. -/
def commentsOnlyConfig : List Char :=
  ("# nothing scheduled yet\n" ++ "\n" ++ "   \t\n" ++ "  # MON 22:30 /x.m3u\r\n" ++ "#").toList

/-- A schedule file with one well-formed line. -/
def oneLineConfig : List Char := "TUE 09:00 /a.m3u\n".toList

/-- The file `exampleConfig` without its malformed fifth line `XXX 10:00 /z.m3u`. -/
def exampleConfigWithoutBadLine : List Char :=
  ("# weekly schedule\r\n" ++ "MON 22:30 /x.m3u\n" ++ "\n" ++ "  mon 22:30\t/y.m3u  \n"
    ++ "TUE 24:00 /q.m3u\n" ++ "WED 10:00\n"
    ++ "Fri 7:05   /my lists/a b.m3u").toList

/-- The schedule file of the scenario with two entries for Monday 22:30. -/
def twoEntriesConfig : List Char := "MON 22:30 /x.m3u\nMON 22:30 /y.m3u\n".toList

/-- A playlist with two valid lines and one comment. -/
def examplePlaylist : List Char := "#EXTM3U\n/music/a.mp3\nhttp://host/b.ogg\n".toList

/-- A host with the schedule `twoEntriesConfig` and the playlists `/x.m3u` and `/y.m3u`. -/
def exampleHost : Host :=
  hostWithFiles [(configPath, twoEntriesConfig), ("/x.m3u".toList, examplePlaylist),
    ("/y.m3u".toList, "/music/c.mp3\n".toList)]

/-- The state after `ParseConfig` on `exampleHost`, as `Open` leaves it. -/
def exampleSys : intf_sys_t :=
  (ParseConfig exampleHost (initialSys true) configPath).2.1

/-- Monday 22:30. -/
def monday2230 : tm := ⟨1, 22, 30⟩

/-- Wednesday 10:00. -/
def wednesday1000 : tm := ⟨3, 10, 0⟩

/-- A host with the schedule `oneLineConfig` (`TUE 09:00 /a.m3u`) and the playlist
`/a.m3u`, in which every conversion, item construction and insertion succeeds. -/
def weeklyHost : Host :=
  hostWithFiles [(configPath, oneLineConfig), ("/a.m3u".toList, examplePlaylist)]

/-- The state after `ParseConfig` on `weeklyHost`, as `Open` leaves it. -/
def weeklySys : intf_sys_t :=
  (ParseConfig weeklyHost (initialSys false) configPath).2.1

/-- Tuesday 09:00, of any week. -/
def tuesday0900 : tm := ⟨2, 9, 0⟩

/-- Tuesday 09:01. -/
def tuesday0901 : tm := ⟨2, 9, 1⟩

/-- The host `weeklyHost` with the VLC core of the stub headers under `src/vlc3/include`:
`vlc_path2uri` and `input_item_New` return `NULL`, `playlist_AddInput` returns
`VLC_SUCCESS`, `playlist_CurrentInput` and `input_GetVout` return `NULL`. -/
def stubHost : Host :=
  { weeklyHost with
    vlc_path2uri := fun _ => none
    input_item_New := fun _ => false
    playlist_AddInput := fun _ => true
    playlist_CurrentInput := false
    input_GetVout := false }

/-- The path of the playlist in the examples. -/
def playlistPath : List Char := "/a.m3u".toList

/-- A host whose only file is the playlist `examplePlaylist`, in which every conversion,
item construction and insertion succeeds. -/
def playlistHost : Host :=
  hostWithFiles [(playlistPath, examplePlaylist)]

/-- A playlist made of one comment line: 511 characters `#`, then the text
`/music/a.mp3`. -/
def longCommentPlaylist : List Char :=
  List.replicate 511 '#' ++ "/music/a.mp3\n".toList

/-- `toupper` in the C locale. -/
def toupper (c : Char) : Char :=
  if 'a'.toNat ≤ c.toNat ∧ c.toNat ≤ 'z'.toNat then Char.ofNat (c.toNat - 32) else c

/-- The first three characters of a token, ignoring ASCII case: in upper case. -/
def dayKey (token : List Char) : List Char :=
  (token.take 3).map toupper

/-- A data line as `ParseConfig` scans it: the buffer up to its first NUL, newline or
carriage return, leading blanks skipped. -/
def dataLine (buf : List Char) : List Char :=
  skipBlank (stripNewline (cstr buf))

/-- What follows the time token of a data line: the text after the day token, the hour,
the colon and the minute. Empty when the line has no day and time. -/
def afterTime (p : List Char) : List Char :=
  match scanWord 7 p with
  | none => []
  | some (_, s1) =>
    match scanInt (skipSpace s1) with
    | none => []
    | some (_, s2) =>
      match s2 with
      | ':' :: s3 =>
        match scanInt s3 with
        | none => []
        | some (_, s4) => s4
      | _ => []

/-- A well-formed line whose path has 512 characters. -/
def longPathLine : List Char :=
  "MON 22:30 /".toList ++ List.replicate 511 'a'

/-- A comment line of more than 1023 characters: `#`, 1022 spaces, then the text
`see the manual`. -/
def longCommentLine : List Char :=
  '#' :: List.replicate 1022 ' ' ++ "see the manual".toList

/-- The file `oneLineConfig` followed by the comment line `longCommentLine`. -/
def oneLineConfigWithLongComment : List Char :=
  oneLineConfig ++ longCommentLine ++ ['\n']

/-- The file `exampleConfig` without its first line, the comment `# weekly schedule`. -/
def exampleConfigWithoutComment : List Char :=
  ("MON 22:30 /x.m3u\n" ++ "\n" ++ "  mon 22:30\t/y.m3u  \n"
    ++ "XXX 10:00 /z.m3u\n" ++ "TUE 24:00 /q.m3u\n" ++ "WED 10:00\n"
    ++ "Fri 7:05   /my lists/a b.m3u").toList

/-- The calls of `var_SetBool`. -/
def isSetBool : Event → Bool
  | .var_SetBool _ _ _ => true
  | _ => false

/-- The fullscreen requests of a run: its calls of `var_SetBool`, in order. -/
def fullscreenRequests (trace : List Event) : List Event :=
  trace.filter isSetBool

/-- The trigger state of `sys` set to the minute `tm_now`, the rest of `sys` kept. -/
def triggeredAt (sys : intf_sys_t) (tm_now : tm) : intf_sys_t :=
  { sys with last_triggered_day := tm_now.tm_wday,
             last_triggered_hour := tm_now.tm_hour,
             last_triggered_minute := tm_now.tm_min }

/-- The host `exampleHost` without a current input. -/
def noInputHost : Host :=
  { exampleHost with playlist_CurrentInput := false }

/-- A playlist of comment lines and blank lines only. -/
def commentsOnlyPlaylist : List Char :=
  ("#EXTM3U\n" ++ "#EXTINF:123,Artist - Title\r\n" ++ "\n" ++ "  # /music/a.mp3\n").toList

/-- A host with the schedule `oneLineConfig` (`TUE 09:00 /a.m3u`) whose playlist `/a.m3u`
is `commentsOnlyPlaylist`. -/
def commentsOnlyHost : Host :=
  hostWithFiles [(configPath, oneLineConfig), (playlistPath, commentsOnlyPlaylist)]

/-- A host with the schedule `oneLineConfig` (`TUE 09:00 /a.m3u`) whose playlist `/a.m3u`
is `longCommentPlaylist`. -/
def longCommentHost : Host :=
  hostWithFiles [(configPath, oneLineConfig), (playlistPath, longCommentPlaylist)]

/-- The calls that create or arm the timer. -/
def isTimerEvent : Event → Bool
  | .vlc_timer_create => true
  | .vlc_timer_schedule _ _ => true
  | _ => false

/-- The timer calls of a run, in order. -/
def timerEvents (trace : List Event) : List Event :=
  trace.filter isTimerEvent

/-- A VLC core with the given `scheduler-config` setting, fullscreen off, in which
`malloc` and `vlc_timer_create` succeed. -/
def coreWith (scheduler_config : Option (List Char)) : Core :=
  ⟨scheduler_config, false, true, 0⟩

/-- The time, in seconds, of the `n`-th tick of a timer whose first tick is at `t0` and
whose interval is `SCHED_POLL_SEC` seconds. -/
def tickTime (t0 : ℚ) (n : ℕ) : ℚ :=
  t0 + n * SCHED_POLL_SEC

/-- The state after a sequence of ticks, each with the host and the local time of its
moment. -/
def runTicks : intf_sys_t → List (Host × tm) → intf_sys_t
  | sys, [] => sys
  | sys, t :: ts => runTicks (TimerCallback t.1 sys t.2).1 ts

/-- The trigger state as a time. -/
def triggerTime (sys : intf_sys_t) : tm :=
  ⟨sys.last_triggered_day, sys.last_triggered_hour, sys.last_triggered_minute⟩

/-- The trigger state is the sentinel (-1, -1, -1) or the (day, hour, minute) of some
entry of the schedule store. -/
def triggerValid (sys : intf_sys_t) : Bool :=
  alreadyTriggered sys ⟨-1, -1, -1⟩ || sys.entries.any (entryMatches (triggerTime sys))

/-- The state `Open` hands to the timer on a host whose schedule file is at `configPath`,
with fullscreen off. -/
def initialSysOf (host : Host) : intf_sys_t :=
  (ParseConfig host (initialSys false) configPath).2.1

/-- The line has a day and a time: the day token, the hour, the colon and the minute are
scanned. -/
def hasDayAndTime (p : List Char) : Bool :=
  match scanWord 7 p with
  | none => false
  | some (_, s1) =>
    match scanInt (skipSpace s1) with
    | none => false
    | some (_, s2) =>
      match s2 with
      | ':' :: s3 =>
        match scanInt s3 with
        | none => false
        | some _ => true
      | _ => false

/-! ## The config line as the specification describes it -/

/-- The value of a run of decimal digits, most significant digit first. -/
def decimalValue : List Char → Nat
  | [] => 0
  | c :: cs => (c.toNat - '0'.toNat) * 10 ^ cs.length + decimalValue cs

/-- A decimal integer at the start of a text, in the notation the C library reads:
optional white space, an optional sign, then decimal digits, at least one. Gives the
integer, as a mathematical integer, and the text that follows it. -/
def specInteger (s : List Char) : Option (Int × List Char) :=
  match s.dropWhile isspace with
  | '-' :: r =>
    if r.takeWhile isdigit = [] then none
    else some (- (decimalValue (r.takeWhile isdigit) : Int), r.dropWhile isdigit)
  | '+' :: r =>
    if r.takeWhile isdigit = [] then none
    else some ((decimalValue (r.takeWhile isdigit) : Int), r.dropWhile isdigit)
  | r =>
    if r.takeWhile isdigit = [] then none
    else some ((decimalValue (r.takeWhile isdigit) : Int), r.dropWhile isdigit)

/-- The time `<hour>:<minute>` at the start of a text: a decimal integer, a colon, a
decimal integer. Gives the hour, the minute and the text that follows the time. -/
def specTime (s : List Char) : Option (Int × Int × List Char) :=
  match specInteger s with
  | some (hour, ':' :: r) =>
    match specInteger r with
    | some (minute, rest) => some (hour, minute, rest)
    | none => none
  | _ => none

/-- The text of a line: the line without the carriage return that ends it and without its
leading white space. -/
def specText (line : List Char) : List Char :=
  (dropCR line).dropWhile isspace

/-- The first word of a text: its characters up to the first white space. -/
def firstWord (text : List Char) : List Char :=
  text.takeWhile (fun c => !isspace c)

/-- What follows the first word of a text. -/
def afterFirstWord (text : List Char) : List Char :=
  text.dropWhile (fun c => !isspace c)

/-- The four fields of a text `<day> <hour>:<minute> <path>`, read one after the other: the
day word, the hour, the minute, and the text after the minute, which holds the path. White
space ends the day word; it may precede the hour, the minute and the path. `none` for a
text that does not tokenize into the four fields: it has no word, no time after its first
word, or nothing but white space after the time. -/
def textFields (text : List Char) : Option (List Char × Int × Int × List Char) :=
  match specTime (afterFirstWord text) with
  | none => none
  | some (hour, minute, rest) =>
    if rest.dropWhile isspace = [] then none
    else some (firstWord text, hour, minute, rest)

/-- The four fields of a line, `none` for a line that does not tokenize into them. -/
def specFields (line : List Char) : Option (List Char × Int × Int × List Char) :=
  textFields (specText line)

/-- A line the specification skips silently: it is empty after trimming, or its first
character that is not white space is `#`. -/
def specSkipped (line : List Char) : Bool :=
  match specText line with
  | [] => true
  | c :: _ => c == '#'

/-- The day a word names: `i` when the first three characters of the word, ignoring
case, are the `i`-th of SUN, MON, TUE, WED, THU, FRI, SAT; `none` for any other word. -/
def specDay (word : List Char) : Option Int :=
  if dayKey word ∈ days then some (days.indexOf (dayKey word) : Nat) else none

/-- A well-formed data line: not blank, not a comment, tokenizing into day, hour, minute
and path, with a recognized day, an hour in 0..23 and a minute in 0..59. -/
def wellFormed (line : List Char) : Bool :=
  !specSkipped line &&
  match specFields line with
  | none => false
  | some (word, hour, minute, _) =>
    (specDay word).isSome && decide (0 ≤ hour ∧ hour ≤ 23) && decide (0 ≤ minute ∧ minute ≤ 59)

/-- A malformed line: a data line (not blank, not a comment) with a wrong token count,
an unrecognized day, or an hour or a minute out of range. -/
def specMalformed (line : List Char) : Bool :=
  !specSkipped line &&
  match specFields line with
  | none => true
  | some (word, hour, minute, _) =>
    (specDay word).isNone || decide (hour < 0 ∨ 23 < hour) || decide (minute < 0 ∨ 59 < minute)

/-- The path field as the claim C13 states it, from the text after the time: that text
with leading and trailing white space removed. -/
def specPath (rest : List Char) : List Char :=
  (rest.dropWhile isspace).rdropWhile isspace

/-- The path field within the bounds of `ParseConfig`, from the text after the time: that
text with leading white space removed, cut to its first `SCHED_MAX_PATH - 1` characters,
and trailing spaces and tabs removed. -/
def specStoredPath (rest : List Char) : List Char :=
  ((rest.dropWhile isspace).take (SCHED_MAX_PATH - 1)).rdropWhile isBlank

/-- The entry of a well-formed line: the index of its day, its hour, its minute and its
path field. `none` for a line that is not well-formed. -/
def specEntry (line : List Char) : Option sched_entry :=
  if wellFormed line then
    match specFields line with
    | none => none
    | some (word, hour, minute, rest) =>
      (specDay word).map (fun day => ⟨day, hour, minute, specStoredPath rest⟩)
  else none

/-- The well-formed lines of a file, in file order. -/
def wellFormedLines (content : List Char) : List (List Char) :=
  (fileLines content).filter wellFormed

/-- The schedule the specification describes for a file: the entries of its well-formed
lines, in file order, cut after the first `SCHED_MAX_ENTRIES`. -/
def specEntries (content : List Char) : List sched_entry :=
  ((fileLines content).filterMap specEntry).take SCHED_MAX_ENTRIES

/-- The hour and the minute of a line fit the type `int` of 32 bits; true of a line
without a time. -/
def numbersFit (line : List Char) : Bool :=
  match specTime (afterFirstWord (specText line)) with
  | none => true
  | some (hour, minute, _) =>
    decide (-(2 ^ 31) ≤ hour ∧ hour < 2 ^ 31 ∧ -(2 ^ 31) ≤ minute ∧ minute < 2 ^ 31)

/-- The day word of a line fits the buffer `day_str[8]`: a first word that names a day has
at most 7 characters. -/
def dayWordFits (line : List Char) : Bool :=
  (specDay (firstWord (specText line))).isNone
    || decide ((firstWord (specText line)).length ≤ 7)

/-- A message without the line number it may carry. -/
def eraseLine : Event → Event
  | .msgLine sev fmt _ => .msg sev fmt
  | ev => ev

/-- A schedule file of one line whose hour, 4294967306, is 10 modulo 2^32. -/
def overflowConfig : List Char := "MON 4294967306:00 /x.m3u\n".toList

/-- A schedule file of one line with a carriage return between the time and the path. -/
def innerCRConfig : List Char := "MON 22:30\r/x.m3u\n".toList

/-- A schedule file of one line with a NUL byte before the path. -/
def innerNULConfig : List Char :=
  "MON 22:30 ".toList ++ [Char.ofNat 0] ++ "/x.m3u\n".toList

/-- A schedule file of one line whose day is written in full, in 8 characters. -/
def longDayConfig : List Char := "THURSDAY 10:00 /x.m3u\n".toList

/-- A line whose hour, 4294967306, is out of range and is 10 modulo 2^32. -/
def overflowLine : List Char := "MON 4294967306:00 /x.m3u".toList

/-- A line of two words, `MONDAYS1:2` and `/x.m3u`: it has no time. -/
def gluedLine : List Char := "MONDAYS1:2 /x.m3u".toList

/-- A well-formed line whose path ends in a vertical tab. -/
def trailingVTLine : List Char := "MON 22:30 /x.m3u".toList ++ [Char.ofNat 11]

/-- A well-formed line with a carriage return inside its path. -/
def innerCRLine : List Char := "MON 22:30 /my\rlists.m3u".toList

/-- A well-formed line with a NUL byte inside its path. -/
def innerNULLine : List Char := "MON 22:30 /a".toList ++ [Char.ofNat 0] ++ "b.m3u".toList

/-- A line of three words: `FRIDAYS10:30`, the time `22:15` and the path `/x.m3u`. -/
def gluedTimeLine : List Char := "FRIDAYS10:30 22:15 /x.m3u".toList

/-- A well-formed line of 1110 characters: 600 spaces, `MON 22:30 ` and a path of 500
characters `a`. -/
def longIndentedLine : List Char :=
  List.replicate 600 ' ' ++ "MON 22:30 ".toList ++ List.replicate 500 'a'

/-- The path field of a line as the claim C13 states it, `none` for a line that does not
tokenize into the four fields. -/
def specLinePath (line : List Char) : Option (List Char) :=
  (specFields line).map (fun f => specPath f.2.2.2)

/-- The path `ParseConfig` stores for a buffer, `none` for a buffer it does not accept. -/
def storedPath (buf : List Char) : Option (List Char) :=
  (lineEntry buf).map (fun e => e.path)

/-- What `ParseConfig` makes of a buffer it does not skip silently, `none` for a buffer
that takes the `continue` of line 152. -/
def lineOutcome (buf : List Char) : Option LineResult :=
  match parseLine buf with
  | .skip => none
  | r => some r

/-- A space, a tab or a carriage return. -/
def spaceTabOrCR (c : Char) : Bool :=
  c == ' ' || c == '\t' || c == '\r'

/-- A line that is empty after trimming, or whose first character that is not white space
is `#`, where the white space before it is made of spaces, tabs and carriage returns. -/
def silentLine (line : List Char) : Bool :=
  match line.dropWhile spaceTabOrCR with
  | [] => true
  | c :: _ => c == '#'

/-- The file `oneLineConfig` followed by four lines: a form feed, a vertical tab, and the
comment `# note` after a form feed and after a vertical tab. -/
def oneLineConfigWithFeeds : List Char :=
  oneLineConfig ++ [Char.ofNat 12, '\n', Char.ofNat 11, '\n']
    ++ (Char.ofNat 12 :: "# note\n".toList) ++ (Char.ofNat 11 :: "# note\n".toList)

/-! ## Reading a file buffer by buffer -/

theorem fgetsAux_append (n : Nat) (s : List Char) :
    (fgetsAux n s).1 ++ (fgetsAux n s).2 = s := by
  induction n generalizing s with
  | zero => simp [fgetsAux]
  | succ k ih =>
    cases s with
    | nil => simp [fgetsAux]
    | cons c rest =>
      by_cases h : c = '\n'
      · simp [fgetsAux, h]
      · simp [fgetsAux, h, ih]

theorem fgetsAux_length_le (n : Nat) (c : Char) (s : List Char) :
    (fgetsAux (n + 1) (c :: s)).2.length ≤ s.length := by
  have h := congrArg List.length (fgetsAux_append (n + 1) (c :: s))
  have h1 : 1 ≤ (fgetsAux (n + 1) (c :: s)).1.length := by
    by_cases hc : c = '\n' <;> simp [fgetsAux, hc]
  simp only [List.length_append, List.length_cons] at h
  omega

theorem fgetsAll_fuel (size : Nat) (hsize : 2 ≤ size) (fuel : Nat) (s : List Char)
    (h : s.length ≤ fuel) : fgetsAll size fuel s = fgetsAll size s.length s := by
  induction fuel using Nat.strong_induction_on generalizing s with
  | _ fuel ih =>
    cases s with
    | nil => cases fuel <;> simp [fgetsAll, fgets]
    | cons c rest =>
      obtain ⟨k, rfl⟩ : ∃ k, size = k + 2 := ⟨size - 2, by omega⟩
      cases fuel with
      | zero => simp at h
      | succ f =>
        have hl := fgetsAux_length_le k c rest
        simp only [List.length_cons] at h
        simp only [fgetsAll, fgets, List.length_cons, Nat.add_sub_cancel]
        show _ :: _ = _ :: _
        congr 1
        rw [ih f (by omega) _ (by simpa using (by omega : _ ≤ f)),
            ih rest.length (by omega) _ (by simpa using hl)]

theorem readLines_nil (size : Nat) : readLines size [] = [] := by
  simp [readLines, fgetsAll]

theorem readLines_cons (size : Nat) (hsize : 2 ≤ size) (c : Char) (s : List Char) :
    readLines size (c :: s) =
      (fgetsAux (size - 1) (c :: s)).1 :: readLines size (fgetsAux (size - 1) (c :: s)).2 := by
  obtain ⟨k, rfl⟩ : ∃ k, size = k + 2 := ⟨size - 2, by omega⟩
  have hl := fgetsAux_length_le k c s
  simp only [readLines, fgetsAll, fgets, List.length_cons, Nat.add_sub_cancel]
  show _ :: _ = _ :: _
  congr 1
  exact fgetsAll_fuel (k + 2) (by omega) _ _ (by simpa using hl)


theorem readLines_of_ne_nil (size : Nat) (hsize : 2 ≤ size) (s : List Char) (hs : s ≠ []) :
    readLines size s =
      (fgetsAux (size - 1) s).1 :: readLines size (fgetsAux (size - 1) s).2 := by
  cases s with
  | nil => exact absurd rfl hs
  | cons c s => exact readLines_cons size hsize c s

theorem fgetsAux_line (n : Nat) (l rest : List Char) (hl : '\n' ∉ l) :
    fgetsAux n (l ++ '\n' :: rest) =
      if l.length < n then (l ++ ['\n'], rest) else (l.take n, l.drop n ++ '\n' :: rest) := by
  induction n generalizing l with
  | zero => simp [fgetsAux]
  | succ k ih =>
    cases l with
    | nil => simp [fgetsAux]
    | cons c l =>
      have hc : c ≠ '\n' := fun h => hl (by simp [h])
      have hl2 : '\n' ∉ l := fun h => hl (by simp [h])
      rw [List.cons_append, fgetsAux, if_neg hc, ih l hl2]
      by_cases hlt : l.length < k
      · simp [hlt]
      · simp [hlt]

theorem fgetsAux_last (n : Nat) (l : List Char) (hl : '\n' ∉ l) :
    fgetsAux n l = (l.take n, l.drop n) := by
  induction n generalizing l with
  | zero => simp [fgetsAux]
  | succ k ih =>
    cases l with
    | nil => simp [fgetsAux]
    | cons c l =>
      have hc : c ≠ '\n' := fun h => hl (by simp [h])
      have hl2 : '\n' ∉ l := fun h => hl (by simp [h])
      simp [fgetsAux, hc, ih l hl2]

theorem readLines_line_append (size : Nat) (hsize : 2 ≤ size) (l rest : List Char)
    (hl : '\n' ∉ l) :
    readLines size (l ++ '\n' :: rest) = readLines size (l ++ ['\n']) ++ readLines size rest := by
  generalize hm : l.length = m
  induction m using Nat.strong_induction_on generalizing l with
  | _ m ih =>
    rw [readLines_of_ne_nil size hsize (l ++ '\n' :: rest) (by simp),
        readLines_of_ne_nil size hsize (l ++ ['\n']) (by simp),
        fgetsAux_line _ l rest hl, fgetsAux_line _ l [] hl]
    by_cases hlt : l.length < size - 1
    · simp [hlt, readLines_nil]
    · simp only [hlt, if_false, List.cons_append]
      congr 1
      have hd : '\n' ∉ l.drop (size - 1) := fun hh => hl (List.mem_of_mem_drop hh)
      exact ih (l.drop (size - 1)).length (by simp; omega) _ hd rfl

theorem filterMap_readLines_line {β : Type} (size : Nat) (hsize : 2 ≤ size)
    (f : List Char → Option β) (hnil : f [] = none)
    (hf : ∀ l : List Char, '\n' ∉ l → f (l ++ ['\n']) = f l) (l : List Char) (hl : '\n' ∉ l) :
    (readLines size (l ++ ['\n'])).filterMap f = (readLines size l).filterMap f := by
  generalize hm : l.length = m
  induction m using Nat.strong_induction_on generalizing l with
  | _ m ih =>
    rw [readLines_of_ne_nil size hsize (l ++ ['\n']) (by simp), fgetsAux_line _ l [] hl]
    by_cases hlt : l.length < size - 1
    · by_cases hne : l = []
      · subst hne
        have := hf [] (by simp)
        simp only [List.nil_append] at this
        rw [if_pos hlt]
        simp only [List.nil_append, readLines_nil, List.filterMap_cons, List.filterMap_nil,
          this, hnil]
      · rw [readLines_of_ne_nil size hsize l hne, fgetsAux_last _ l hl]
        have h1 : l.take (size - 1) = l := List.take_of_length_le (by omega)
        have h2 : l.drop (size - 1) = [] := List.drop_of_length_le (by omega)
        rw [if_pos hlt]
        simp only [readLines_nil, List.filterMap_cons, List.filterMap_nil, h1, h2, hf l hl]
    · have hne : l ≠ [] := by
        intro h0; subst h0; simp at hlt; omega
      rw [readLines_of_ne_nil size hsize l hne, fgetsAux_last _ l hl]
      simp only [hlt, if_false, List.filterMap_cons]
      have hd : '\n' ∉ l.drop (size - 1) := fun hh => hl (List.mem_of_mem_drop hh)
      have := ih (l.drop (size - 1)).length (by simp; omega) _ hd rfl
      rw [this]

theorem readLines_short (size : Nat) (hsize : 2 ≤ size) (l : List Char) (hl : '\n' ∉ l)
    (hne : l ≠ []) (hlen : l.length ≤ size - 1) : readLines size l = [l] := by
  rw [readLines_of_ne_nil size hsize l hne, fgetsAux_last _ l hl,
    List.take_of_length_le hlen, List.drop_of_length_le hlen, readLines_nil]

theorem fileLines_line_append (l rest : List Char) (hl : '\n' ∉ l) :
    fileLines (l ++ '\n' :: rest) = l :: fileLines rest := by
  induction l with
  | nil => simp [fileLines]
  | cons c l ih =>
    have hc : c ≠ '\n' := fun h => hl (by simp [h])
    have hl2 : '\n' ∉ l := fun h => hl (by simp [h])
    simp [fileLines, hc, ih hl2]

theorem fileLines_last (l : List Char) (hl : '\n' ∉ l) (hne : l ≠ []) :
    fileLines l = [l] := by
  induction l with
  | nil => exact absurd rfl hne
  | cons c l ih =>
    have hc : c ≠ '\n' := fun h => hl (by simp [h])
    have hl2 : '\n' ∉ l := fun h => hl (by simp [h])
    by_cases h0 : l = []
    · subst h0; simp [fileLines, hc]
    · simp [fileLines, hc, ih hl2 h0]

/-- Every file is empty, or one unterminated line, or a terminated line followed by the
rest of the file. -/
theorem content_cases (s : List Char) :
    s = [] ∨ (s ≠ [] ∧ '\n' ∉ s) ∨
      ∃ l rest, s = l ++ '\n' :: rest ∧ '\n' ∉ l := by
  induction s with
  | nil => exact Or.inl rfl
  | cons c s ih =>
    right
    by_cases hc : c = '\n'
    · exact Or.inr ⟨[], s, by simp [hc], by simp⟩
    · rcases ih with h | ⟨_, h⟩ | ⟨l, rest, h1, h2⟩
      · subst h
        exact Or.inl ⟨by simp, by simpa using fun h => hc h.symm⟩
      · exact Or.inl ⟨by simp, by
          intro hm
          rcases List.mem_cons.mp hm with h3 | h3
          · exact hc h3.symm
          · exact h h3⟩
      · refine Or.inr ⟨c :: l, rest, by simp [h1], ?_⟩
        intro hm
        rcases List.mem_cons.mp hm with h3 | h3
        · exact hc h3.symm
        · exact h2 h3

/-- What the reading loop makes of a file, line by line: the buffers of a file, filtered
through `f`, are those of its lines. -/
theorem filterMap_readLines {β : Type} (size : Nat) (hsize : 2 ≤ size)
    (f : List Char → Option β) (hnil : f [] = none)
    (hf : ∀ l : List Char, '\n' ∉ l → f (l ++ ['\n']) = f l) (content : List Char) :
    (readLines size content).filterMap f =
      (fileLines content).flatMap (fun l => (readLines size l).filterMap f) := by
  generalize hm : content.length = m
  induction m using Nat.strong_induction_on generalizing content with
  | _ m ih =>
    rcases content_cases content with h | ⟨hne, hno⟩ | ⟨l, rest, h, hl⟩
    · subst h; simp [readLines_nil, fileLines]
    · rw [fileLines_last content hno hne]; simp
    · subst h
      rw [readLines_line_append size hsize l rest hl, fileLines_line_append l rest hl,
        List.filterMap_append, filterMap_readLines_line size hsize f hnil hf l hl,
        ih rest.length (by rw [← hm]; simp; omega) rest rfl]
      simp

/-- The reading loop runs to the end of the file: the buffers read, put end to end, are
the whole file, so the fuel of `readLines` is enough. -/
theorem readLines_join (size : Nat) (hsize : 2 ≤ size) (content : List Char) :
    (readLines size content).flatten = content := by
  generalize hm : content.length = m
  induction m using Nat.strong_induction_on generalizing content with
  | _ m ih =>
    cases content with
    | nil => simp [readLines_nil]
    | cons c s =>
      obtain ⟨k, rfl⟩ : ∃ k, size = k + 2 := ⟨size - 2, by omega⟩
      have hl := fgetsAux_length_le k c s
      have hk : k + 2 - 1 = k + 1 := by omega
      rw [readLines_cons (k + 2) hsize c s, List.flatten_cons, hk,
        ih _ (by rw [← hm]; simp only [List.length_cons]; omega) _ rfl]
      exact fgetsAux_append _ _

/-! ## ParseConfig: what the loop stores -/

theorem stripNewline_cstr_append_newline (l : List Char) :
    stripNewline (cstr (l ++ ['\n'])) = stripNewline (cstr l) := by
  unfold stripNewline cstr
  congr 1
  induction l with
  | nil => decide
  | cons c l ih =>
    by_cases h0 : c = Char.ofNat 0
    · simp [h0]
    · by_cases hn : c = '\n'
      · simp [h0, hn]
      · simpa [h0, hn] using ih

theorem parseLine_append_newline (l : List Char) : parseLine (l ++ ['\n']) = parseLine l := by
  unfold parseLine
  rw [stripNewline_cstr_append_newline]

theorem lineEntry_append_newline (l : List Char) : lineEntry (l ++ ['\n']) = lineEntry l := by
  unfold lineEntry
  rw [parseLine_append_newline]

theorem usableLine_append_newline (l : List Char) :
    usableLine (l ++ ['\n']) = usableLine l := by
  unfold usableLine
  rw [stripNewline_cstr_append_newline]

theorem lineEntry_nil : lineEntry [] = none := by decide

theorem usableLine_nil : usableLine [] = none := by decide

theorem ParseConfig_loop_entries (bufs : List (List Char)) (lineno : Nat)
    (entries : List sched_entry) (log : List Event) :
    (ParseConfig.loop bufs lineno entries log).1 =
      entries ++ (bufs.filterMap lineEntry).take (SCHED_MAX_ENTRIES - entries.length) := by
  induction bufs generalizing lineno entries log with
  | nil => simp [ParseConfig.loop]
  | cons buf rest ih =>
    unfold ParseConfig.loop
    cases hp : parseLine buf with
    | skip => simp [ih, lineEntry, hp]
    | malformed => simp [ih, lineEntry, hp]
    | unknown_day => simp [ih, lineEntry, hp]
    | invalid_time => simp [ih, lineEntry, hp]
    | data day hour minute m3u_path =>
      by_cases hfull : entries.length ≥ SCHED_MAX_ENTRIES
      · have h0 : SCHED_MAX_ENTRIES - entries.length = 0 := by omega
        simp [hfull, h0]
      · obtain ⟨k, hk⟩ : ∃ k, SCHED_MAX_ENTRIES - entries.length = k + 1 :=
          ⟨SCHED_MAX_ENTRIES - entries.length - 1, by omega⟩
        have hk2 : SCHED_MAX_ENTRIES - (entries.length + 1) = k := by omega
        simp [hfull, ih, lineEntry, hp, hk, hk2]

/-- The entries `ParseConfig` stores for an openable file: those of the buffers read,
in order, cut after `SCHED_MAX_ENTRIES`. -/
theorem ParseConfig_entries (host : Host) (sys : intf_sys_t) (path content : List Char)
    (hopen : host.fopen path = some content) :
    (ParseConfig host sys path).2.1.entries =
      ((readLines 1024 content).filterMap lineEntry).take SCHED_MAX_ENTRIES := by
  unfold ParseConfig
  rw [hopen]
  simp only [ParseConfig_loop_entries, List.nil_append, List.length_nil, Nat.sub_zero]
  split <;> rfl

/-- The result code of `ParseConfig` for an openable file. -/
theorem ParseConfig_code (host : Host) (sys : intf_sys_t) (path content : List Char)
    (hopen : host.fopen path = some content) :
    (ParseConfig host sys path).1 =
      if (ParseConfig host sys path).2.1.entries.length = 0 then VLC_EGENERIC
      else VLC_SUCCESS := by
  unfold ParseConfig
  rw [hopen]
  simp only
  split <;> simp_all

/-- The buffers of a file hold the entries of its lines: each line contributes what its
own buffers hold. -/
theorem filterMap_lineEntry_readLines (content : List Char) :
    (readLines 1024 content).filterMap lineEntry =
      (fileLines content).flatMap (fun l => (readLines 1024 l).filterMap lineEntry) :=
  filterMap_readLines 1024 (by omega) lineEntry lineEntry_nil
    (fun l _ => lineEntry_append_newline l) content

theorem fileLines_no_newline (content l : List Char) (h : l ∈ fileLines content) :
    '\n' ∉ l := by
  induction content generalizing l with
  | nil => simp [fileLines] at h
  | cons c cs ih =>
    by_cases hc : c = '\n'
    · simp only [fileLines, hc, if_true, List.mem_cons] at h
      rcases h with h | h
      · subst h; simp
      · exact ih l h
    · simp only [fileLines, hc, if_false] at h
      cases hf : fileLines cs with
      | nil =>
        rw [hf] at h
        simp at h
        subst h
        simpa using fun h => hc h.symm
      | cons l0 ls =>
        rw [hf] at h ih
        simp only [List.mem_cons] at h
        rcases h with h | h
        · subst h
          intro hm
          rcases List.mem_cons.mp hm with h3 | h3
          · exact hc h3.symm
          · exact ih l0 (by simp) h3
        · exact ih l (by simp [h])

/-- A line that fits the buffer is read as one buffer. -/
theorem filterMap_readLines_fit {β : Type} (size : Nat) (hsize : 2 ≤ size)
    (f : List Char → Option β) (hnil : f [] = none) (l : List Char) (hl : '\n' ∉ l)
    (hlen : l.length ≤ size - 1) :
    (readLines size l).filterMap f = (f l).toList := by
  by_cases hne : l = []
  · subst hne; simp [readLines_nil, hnil]
  · rw [readLines_short size hsize l hl hne hlen]
    cases h : f l <;> simp [List.filterMap_cons, h]

/-- For a file whose lines fit the buffer, filtering its buffers is filtering its lines. -/
theorem filterMap_readLines_of_fit {β : Type} (size : Nat) (hsize : 2 ≤ size)
    (f : List Char → Option β) (hnil : f [] = none)
    (hf : ∀ l : List Char, '\n' ∉ l → f (l ++ ['\n']) = f l) (content : List Char)
    (hfit : ∀ l ∈ fileLines content, l.length ≤ size - 1) :
    (readLines size content).filterMap f = (fileLines content).filterMap f := by
  rw [filterMap_readLines size hsize f hnil hf content]
  have hno := fileLines_no_newline content
  generalize fileLines content = ls at hfit hno
  induction ls with
  | nil => simp
  | cons l ls ih =>
    rw [List.flatMap_cons, filterMap_readLines_fit size hsize f hnil l (hno l (by simp))
      (hfit l (by simp)), ih (fun x hx => hfit x (by simp [hx])) (fun x hx => hno x (by simp [hx]))]
    cases h : f l <;> simp [List.filterMap_cons, h]

/-- The lines that give an entry are the well-formed data lines, check by check: not
blank, not a comment, four fields scanned, a recognized day, hour in 0..23 and minute in
0..59. -/
theorem lineEntry_eq_some_iff (line : List Char) (e : sched_entry) :
    lineEntry line = some e ↔
      ∃ c p, skipBlank (stripNewline (cstr line)) = c :: p ∧ c ≠ '#' ∧
        (sscanf (c :: p)).matched = 4 ∧
        0 ≤ DayFromString (sscanf (c :: p)).day_str ∧
        0 ≤ (sscanf (c :: p)).hour ∧ (sscanf (c :: p)).hour ≤ 23 ∧
        0 ≤ (sscanf (c :: p)).minute ∧ (sscanf (c :: p)).minute ≤ 59 ∧
        e = ⟨DayFromString (sscanf (c :: p)).day_str, (sscanf (c :: p)).hour,
              (sscanf (c :: p)).minute, storePath (sscanf (c :: p)).m3u_path⟩ := by
  constructor
  · intro h
    unfold lineEntry parseLine at h
    cases hs : skipBlank (stripNewline (cstr line)) with
    | nil => rw [hs] at h; simp at h
    | cons c p =>
      rw [hs] at h
      simp only at h
      by_cases h1 : c = '#'
      · simp [h1] at h
      · by_cases h2 : (sscanf (c :: p)).matched = 4
        · by_cases h3 : DayFromString (sscanf (c :: p)).day_str < 0
          · simp [h1, h2, h3] at h
          · by_cases h4 : (sscanf (c :: p)).hour < 0 ∨ (sscanf (c :: p)).hour > 23
                ∨ (sscanf (c :: p)).minute < 0 ∨ (sscanf (c :: p)).minute > 59
            · rw [if_neg h1, if_neg (by simpa using h2), if_neg h3, if_pos h4] at h
              simp at h
            · rw [if_neg h1, if_neg (by simpa using h2), if_neg h3, if_neg h4] at h
              simp only [Option.some.injEq] at h
              exact ⟨c, p, rfl, h1, h2, by omega, by omega, by omega, by omega, by omega,
                h.symm⟩
        · simp [h1, h2] at h
  · rintro ⟨c, p, hs, h1, h2, h3, h4, h5, h6, h7, he⟩
    unfold lineEntry parseLine
    rw [hs]
    simp only
    rw [if_neg h1, if_neg (by simpa using h2), if_neg (by omega), if_neg (by omega), he]

/-! ## ParseConfig: result code and comment lines -/

theorem parseLine_cons_blank (c : Char) (l : List Char) (hc : isBlank c = true) :
    parseLine (c :: l) = parseLine l := by
  have h : c = ' ' ∨ c = '\t' := by simpa [isBlank] using hc
  unfold parseLine stripNewline cstr skipBlank
  rcases h with h | h <;> subst h <;>
    rw [List.takeWhile_cons_of_pos (by decide), List.takeWhile_cons_of_pos (by decide),
      List.takeWhile_cons_of_pos (by decide), List.dropWhile_cons_of_pos (by decide)]

theorem parseLine_cons_hash (l : List Char) : parseLine ('#' :: l) = .skip := by
  unfold parseLine stripNewline cstr skipBlank
  rw [List.takeWhile_cons_of_pos (by decide), List.takeWhile_cons_of_pos (by decide),
    List.takeWhile_cons_of_pos (by decide), List.dropWhile_cons_of_neg (by decide)]
  simp

theorem parseLine_of_commentOrBlank (l : List Char) (h : commentOrBlank l = true) :
    parseLine l = .skip := by
  induction l with
  | nil => decide
  | cons c l ih =>
    by_cases hb : isBlank c = true
    · rw [parseLine_cons_blank c l hb]
      cases l with
      | nil => decide
      | cons c2 cs =>
        apply ih
        simpa [commentOrBlank, dropCR, skipBlank, hb] using h
    · cases l with
      | nil =>
        by_cases hr : c = '\r'
        · subst hr; decide
        · have : c = '#' := by simpa [commentOrBlank, dropCR, skipBlank, hb, hr] using h
          subst this; decide
      | cons c2 cs =>
        have : c = '#' := by simpa [commentOrBlank, dropCR, skipBlank, hb] using h
        subst this
        exact parseLine_cons_hash _

theorem lineEntry_of_commentOrBlank (l : List Char) (h : commentOrBlank l = true) :
    lineEntry l = none := by
  simp [lineEntry, parseLine_of_commentOrBlank l h]

/-- C8, as stated, fails on a comment line that does not fit the buffer of 1024 bytes:
`longRuleFile` consists of two comment lines and a blank line, yet `ParseConfig`
returns success with one entry, read from the tail of the long comment line. -/
theorem ParseConfig_long_comment_success :
    (∀ l ∈ fileLines longRuleFile, commentOrBlank l = true) ∧
    (ParseConfig (configHost longRuleFile) (initialSys false) configPath).1 = VLC_SUCCESS ∧
    (ParseConfig (configHost longRuleFile) (initialSys false) configPath).2.1.entries
      = [⟨0, 8, 0, "/s.m3u".toList⟩] := by
  decide!

/-- C8 (amended): `ParseConfig` on an openable file returns success if and only if at
least one entry was accepted; for every file consisting only of comment lines and blank
lines of at most 1023 characters each, it returns the failure `VLC_EGENERIC` with
`entry_count = 0`. -/
theorem ParseConfig_success_iff (host : Host) (sys : intf_sys_t)
    (path content : List Char) (hopen : host.fopen path = some content) :
    ((ParseConfig host sys path).1 = VLC_SUCCESS ↔
      1 ≤ (ParseConfig host sys path).2.1.entry_count) ∧
    ((∀ l ∈ fileLines content, l.length ≤ 1023 ∧ commentOrBlank l = true) →
      (ParseConfig host sys path).1 = VLC_EGENERIC ∧
      (ParseConfig host sys path).2.1.entry_count = 0) := by
  have hcode := ParseConfig_code host sys path content hopen
  have hiff : (ParseConfig host sys path).1 = VLC_SUCCESS ↔
      1 ≤ (ParseConfig host sys path).2.1.entry_count := by
    unfold intf_sys_t.entry_count
    rw [hcode]
    by_cases h0 : (ParseConfig host sys path).2.1.entries.length = 0
    · simp [h0, VLC_EGENERIC, VLC_SUCCESS]
    · simp only [h0, if_false, true_iff]; omega
  refine ⟨hiff, fun hall => ?_⟩
  have hent := ParseConfig_entries host sys path content hopen
  rw [filterMap_readLines_of_fit 1024 (by omega) lineEntry lineEntry_nil
    (fun l _ => lineEntry_append_newline l) content (fun l hl => (hall l hl).1)] at hent
  have hnone : (fileLines content).filterMap lineEntry = [] := by
    rw [List.filterMap_eq_nil_iff]
    exact fun l hl => lineEntry_of_commentOrBlank l (hall l hl).2
  rw [hnone] at hent
  have hc0 : (ParseConfig host sys path).2.1.entry_count = 0 := by
    unfold intf_sys_t.entry_count
    rw [hent]; rfl
  refine ⟨?_, hc0⟩
  rw [hcode]
  unfold intf_sys_t.entry_count at hc0
  simp [hc0]

/-- C8 (amended), on the file `commentsOnlyConfig`. -/
theorem ParseConfig_success_iff_example :
    (∀ l ∈ fileLines commentsOnlyConfig, l.length ≤ 1023 ∧ commentOrBlank l = true) ∧
    (ParseConfig (configHost commentsOnlyConfig) (initialSys false) configPath).1
      = VLC_EGENERIC ∧
    (ParseConfig (configHost commentsOnlyConfig) (initialSys false) configPath).2.1.entry_count
      = 0 :=
  ⟨by decide,
   (ParseConfig_success_iff (configHost commentsOnlyConfig) (initialSys false) configPath
     commentsOnlyConfig (by decide)).2 (by decide)⟩

/-! ## ParseConfig: the two failures -/

/-- C9, as stated, fails: the result `ParseConfig` returns for a file that opens but
holds no valid entry (`commentsOnlyConfig`) equals the result it returns for a file that
cannot be opened; both are `VLC_EGENERIC`. -/
theorem ParseConfig_failures_not_distinct :
    (ParseConfig (configHost commentsOnlyConfig) (initialSys false) configPath).2.1.entries = [] ∧
    (hostWithFiles []).fopen configPath = none ∧
    (ParseConfig (configHost commentsOnlyConfig) (initialSys false) configPath).1
      = (ParseConfig (hostWithFiles []) (initialSys false) configPath).1 := by
  decide

/-- C9 (amended): the failure `ParseConfig` returns when the file opened but yielded no
valid entry has the same result code, `VLC_EGENERIC`, as the failure it returns when the
file could not be opened; the two differ only in the message logged last, the warning
`no valid entries found` in the first case and the error `cannot open config file` in
the second. -/
theorem ParseConfig_failures_same_code (host host2 : Host) (sys : intf_sys_t)
    (path content : List Char) (hopen : host.fopen path = some content)
    (hempty : (ParseConfig host sys path).2.1.entry_count = 0)
    (hclosed : host2.fopen path = none) :
    (ParseConfig host sys path).1 = VLC_EGENERIC ∧
    (ParseConfig host2 sys path).1 = VLC_EGENERIC ∧
    (ParseConfig host sys path).1 = (ParseConfig host2 sys path).1 ∧
    (ParseConfig host sys path).2.2.getLast?
      = some (.msg .Warn "scheduler: no valid entries found in '%s'") ∧
    (ParseConfig host2 sys path).2.2.getLast?
      = some (.msg .Err "scheduler: cannot open config file '%s'") := by
  have h1 : (ParseConfig host sys path).1 = VLC_EGENERIC := by
    rw [ParseConfig_code host sys path content hopen]
    unfold intf_sys_t.entry_count at hempty
    simp [hempty]
  have h2 : (ParseConfig host2 sys path).1 = VLC_EGENERIC := by
    unfold ParseConfig; rw [hclosed]
  refine ⟨h1, h2, h1.trans h2.symm, ?_, ?_⟩
  · unfold intf_sys_t.entry_count at hempty
    unfold ParseConfig at hempty ⊢
    rw [hopen] at hempty ⊢
    simp only at hempty ⊢
    split
    · simp
    · rename_i hne
      split at hempty
      · exact absurd (by assumption) hne
      · exact absurd hempty hne
  · unfold ParseConfig; rw [hclosed]; rfl

/-- C9 (amended), on `commentsOnlyConfig` and on a host without the file. -/
theorem ParseConfig_failures_same_code_example :
    (ParseConfig (configHost commentsOnlyConfig) (initialSys false) configPath).1
      = VLC_EGENERIC ∧
    (ParseConfig (hostWithFiles []) (initialSys false) configPath).1 = VLC_EGENERIC ∧
    (ParseConfig (configHost commentsOnlyConfig) (initialSys false) configPath).1
      = (ParseConfig (hostWithFiles []) (initialSys false) configPath).1 ∧
    (ParseConfig (configHost commentsOnlyConfig) (initialSys false) configPath).2.2.getLast?
      = some (.msg .Warn "scheduler: no valid entries found in '%s'") ∧
    (ParseConfig (hostWithFiles []) (initialSys false) configPath).2.2.getLast?
      = some (.msg .Err "scheduler: cannot open config file '%s'") :=
  ParseConfig_failures_same_code (configHost commentsOnlyConfig) (hostWithFiles [])
    (initialSys false) configPath commentsOnlyConfig (by decide) (by decide) (by decide)

/-! ## TimerCallback -/

theorem loads_append (a b : List Event) : loads (a ++ b) = loads a ++ loads b := by
  induction a with
  | nil => rfl
  | cons ev a ih => cases ev <;> simp [loads, ih]

theorem loads_of_isItemEvent (tr : List Event) (h : ∀ ev ∈ tr, isItemEvent ev = true) :
    loads tr = [] := by
  induction tr with
  | nil => rfl
  | cons ev tr ih =>
    have h1 := h ev (by simp)
    have h2 := ih (fun x hx => h x (by simp [hx]))
    cases ev <;> simp_all [loads, isItemEvent]

theorem LoadM3U_item_events (host : Host) (line : List Char) :
    ∀ ev ∈ (LoadM3U.item host line).2, isItemEvent ev = true := by
  intro ev hev
  unfold LoadM3U.item LoadM3U.uri at hev
  by_cases hs : strstr line [':', '/', '/'] = true
  · simp only [hs, if_true] at hev
    by_cases hi : host.input_item_New line = true
    · by_cases ha : host.playlist_AddInput ⟨line⟩ = true
      · simp [hi, ha] at hev
        rcases hev with h | h <;> subst h <;> rfl
      · simp [hi, ha] at hev
        rcases hev with h | h | h <;> subst h <;> rfl
    · simp [hi] at hev
      rcases hev with h | h <;> subst h <;> rfl
  · simp only [hs] at hev
    cases hu : host.vlc_path2uri line with
    | none =>
      simp [hu] at hev
      rcases hev with h | h <;> subst h <;> rfl
    | some uri =>
      by_cases hi : host.input_item_New uri = true
      · by_cases ha : host.playlist_AddInput ⟨uri⟩ = true
        · simp [hu, hi, ha] at hev
          rcases hev with h | h | h <;> subst h <;> rfl
        · simp [hu, hi, ha] at hev
          rcases hev with h | h | h | h <;> subst h <;> rfl
      · simp [hu, hi] at hev
        rcases hev with h | h | h <;> subst h <;> rfl

theorem LoadM3U_items_events (host : Host) (lines : List (List Char)) :
    ∀ ev ∈ (LoadM3U.items host lines).2, isItemEvent ev = true := by
  induction lines with
  | nil => simp [LoadM3U.items]
  | cons line rest ih =>
    intro ev hev
    simp only [LoadM3U.items, List.mem_append] at hev
    rcases hev with h | h
    · exact LoadM3U_item_events host line ev h
    · exact ih ev h

/-- One call of `LoadM3U` tries to open one file, the one it is given. -/
theorem loads_LoadM3U (host : Host) (path : List Char) :
    loads (LoadM3U host path).2 = [path] := by
  have hi := fun lines => loads_of_isItemEvent _ (LoadM3U_items_events host lines)
  unfold LoadM3U
  cases host.fopen path with
  | none => rfl
  | some content =>
    simp only
    split
    · rfl
    · split
      · rw [loads_append, loads_append, hi]; rfl
      · rw [loads_append, loads_append, hi]; rfl

theorem loads_requestFullscreen (host : Host) : loads (requestFullscreen host) = [] := by
  unfold requestFullscreen
  split <;> rfl

/-- A firing tick tries to open one file, the playlist of the entry that fires. -/
theorem loads_fire (host : Host) (sys : intf_sys_t) (tm_now : tm) (e : sched_entry) :
    loads (TimerCallback.fire host sys tm_now e).2 = [e.path] := by
  unfold TimerCallback.fire
  show loads ((LoadM3U host e.path).2 ++ _) = _
  rw [loads_append, loads_LoadM3U]
  split
  · rw [loads_requestFullscreen]; rfl
  · rfl

/-- The loop of `TimerCallback` skips the entries that do not match. -/
theorem TimerCallback_loop_skip (host : Host) (sys : intf_sys_t) (tm_now : tm)
    (pre rest : List sched_entry) (hpre : ∀ x ∈ pre, entryMatches tm_now x = false) :
    TimerCallback.loop host sys tm_now (pre ++ rest) = TimerCallback.loop host sys tm_now rest := by
  induction pre with
  | nil => rfl
  | cons x pre ih =>
    have hx := hpre x (by simp)
    simp only [entryMatches, decide_eq_false_iff_not] at hx
    have hx2 : x.day ≠ tm_now.tm_wday ∨ x.hour ≠ tm_now.tm_hour ∨ x.minute ≠ tm_now.tm_min := by
      by_contra hc
      push_neg at hc
      exact hx hc
    rw [List.cons_append, TimerCallback.loop, if_pos hx2]
    exact ih (fun y hy => hpre y (by simp [hy]))

/-- The loop of `TimerCallback` at the first matching entry. -/
theorem TimerCallback_loop_match (host : Host) (sys : intf_sys_t) (tm_now : tm)
    (e : sched_entry) (rest : List sched_entry) (he : entryMatches tm_now e = true) :
    TimerCallback.loop host sys tm_now (e :: rest) =
      if alreadyTriggered sys tm_now = true then (sys, [])
      else TimerCallback.fire host sys tm_now e := by
  simp only [entryMatches, decide_eq_true_eq] at he
  have hn : ¬ (e.day ≠ tm_now.tm_wday ∨ e.hour ≠ tm_now.tm_hour ∨ e.minute ≠ tm_now.tm_min) := by
    push_neg
    exact he
  rw [TimerCallback.loop, if_neg hn]
  by_cases ht : sys.last_triggered_day = tm_now.tm_wday ∧
      sys.last_triggered_hour = tm_now.tm_hour ∧ sys.last_triggered_minute = tm_now.tm_min
  · simp [alreadyTriggered, ht]
  · simp [alreadyTriggered, ht]

/-- C4: for every schedule store, trigger state and current (day, hour, minute) that
equals no entry's (day, hour, minute), `TimerCallback` leaves the whole state (trigger
state and schedule store) unchanged and performs nothing: no playlist load, no player
operation, no event at all. -/
theorem TimerCallback_no_match (host : Host) (sys : intf_sys_t) (tm_now : tm)
    (hno : ∀ e ∈ sys.entries, entryMatches tm_now e = false) :
    TimerCallback host sys tm_now = (sys, []) := by
  unfold TimerCallback
  have h := TimerCallback_loop_skip host sys tm_now sys.entries [] hno
  rw [List.append_nil] at h
  rw [h]; rfl

/-- C4, on the scenario: a tick at Wednesday 10:00 with no entry for that slot. -/
theorem TimerCallback_no_match_example :
    (∀ e ∈ exampleSys.entries, entryMatches wednesday1000 e = false) ∧
    TimerCallback exampleHost exampleSys wednesday1000 = (exampleSys, []) :=
  ⟨by decide, TimerCallback_no_match exampleHost exampleSys wednesday1000 (by decide)⟩

/-- C3: when several entries share the current (day, hour, minute), a firing tick of
`TimerCallback` loads exactly one playlist, the path of the matching entry with the
lowest index: if `e` matches, no entry before it matches and the trigger state does not
record the current minute, the files the tick opens are `e.path` alone, whatever entries
follow `e`. -/
theorem TimerCallback_first_match_wins (host : Host) (sys : intf_sys_t) (tm_now : tm)
    (pre post : List sched_entry) (e : sched_entry)
    (hentries : sys.entries = pre ++ e :: post)
    (hpre : ∀ x ∈ pre, entryMatches tm_now x = false)
    (he : entryMatches tm_now e = true)
    (hfresh : alreadyTriggered sys tm_now = false) :
    loads (TimerCallback host sys tm_now).2 = [e.path] := by
  unfold TimerCallback
  rw [hentries, TimerCallback_loop_skip host sys tm_now pre _ hpre,
    TimerCallback_loop_match host sys tm_now e post he, hfresh]
  simp only [Bool.false_eq_true, if_false]
  exact loads_fire host sys tm_now e

/-- C3, on the scenario: with `MON 22:30 /x.m3u` then `MON 22:30 /y.m3u`, a tick at Monday
22:30 loads `/x.m3u` and not `/y.m3u`. -/
theorem TimerCallback_first_match_wins_example :
    exampleSys.entries
      = [] ++ (⟨1, 22, 30, "/x.m3u".toList⟩ : sched_entry) :: [⟨1, 22, 30, "/y.m3u".toList⟩] ∧
    loads (TimerCallback exampleHost exampleSys monday2230).2 = ["/x.m3u".toList] :=
  ⟨by decide,
   TimerCallback_first_match_wins exampleHost exampleSys monday2230 []
     [⟨1, 22, 30, "/y.m3u".toList⟩] ⟨1, 22, 30, "/x.m3u".toList⟩ (by decide) (by decide)
     (by decide) (by decide)⟩

theorem exists_first_match (tm_now : tm) (entries : List sched_entry)
    (h : ∃ e ∈ entries, entryMatches tm_now e = true) :
    ∃ pre e post, entries = pre ++ e :: post ∧ (∀ x ∈ pre, entryMatches tm_now x = false) ∧
      entryMatches tm_now e = true := by
  induction entries with
  | nil => simp at h
  | cons x xs ih =>
    by_cases hx : entryMatches tm_now x = true
    · exact ⟨[], x, xs, rfl, by simp, hx⟩
    · obtain ⟨e, he, hm⟩ := h
      have he2 : e ∈ xs := by
        rcases List.mem_cons.mp he with h1 | h1
        · subst h1; exact absurd hm hx
        · exact h1
      obtain ⟨pre, e2, post, h1, h2, h3⟩ := ih ⟨e, he2, hm⟩
      refine ⟨x :: pre, e2, post, by simp [h1], ?_, h3⟩
      intro y hy
      rcases List.mem_cons.mp hy with h4 | h4
      · subst h4; simpa using hx
      · exact h2 y h4

/-- What a tick does when some entry matches: nothing when the trigger state records the
current minute, else the first matching entry fires. -/
theorem TimerCallback_of_match (host : Host) (sys : intf_sys_t) (tm_now : tm)
    (h : ∃ e ∈ sys.entries, entryMatches tm_now e = true) :
    ∃ e ∈ sys.entries, TimerCallback host sys tm_now =
      if alreadyTriggered sys tm_now = true then (sys, [])
      else TimerCallback.fire host sys tm_now e := by
  obtain ⟨pre, e, post, h1, h2, h3⟩ := exists_first_match tm_now sys.entries h
  refine ⟨e, by rw [h1]; simp, ?_⟩
  unfold TimerCallback
  rw [h1, TimerCallback_loop_skip host sys tm_now pre _ h2,
    TimerCallback_loop_match host sys tm_now e post h3]

theorem count_of_isItemEvent (tr : List Event) (ev : Event) (hev : isItemEvent ev = false)
    (h : ∀ x ∈ tr, isItemEvent x = true) : tr.count ev = 0 := by
  rw [List.count_eq_zero]
  intro hm
  have := h ev hm
  rw [hev] at this
  exact Bool.false_ne_true this

/-- One call of `LoadM3U` stops the player at most once and starts it at most once. -/
theorem count_LoadM3U (host : Host) (path : List Char) :
    (LoadM3U host path).2.count .playlist_Stop ≤ 1 ∧
    (LoadM3U host path).2.count .playlist_Play ≤ 1 := by
  have hs := fun lines =>
    count_of_isItemEvent _ .playlist_Stop rfl (LoadM3U_items_events host lines)
  have hp := fun lines =>
    count_of_isItemEvent _ .playlist_Play rfl (LoadM3U_items_events host lines)
  unfold LoadM3U
  cases host.fopen path with
  | none => simp [List.count_cons]
  | some content =>
    simp only
    split
    · simp [List.count_cons]
    · split
      · rw [List.count_append, List.count_append, List.count_append, List.count_append, hs, hp]
        simp [List.count_cons]
      · rw [List.count_append, List.count_append, List.count_append, List.count_append, hs, hp]
        simp [List.count_cons]

theorem count_requestFullscreen (host : Host) :
    (requestFullscreen host).count .playlist_Stop = 0 ∧
    (requestFullscreen host).count .playlist_Play = 0 := by
  unfold requestFullscreen
  split <;> decide

theorem count_fire (host : Host) (sys : intf_sys_t) (tm_now : tm) (e : sched_entry) :
    (TimerCallback.fire host sys tm_now e).2.count .playlist_Stop ≤ 1 ∧
    (TimerCallback.fire host sys tm_now e).2.count .playlist_Play ≤ 1 := by
  have h1 := count_LoadM3U host e.path
  have h2 := count_requestFullscreen host
  unfold TimerCallback.fire
  by_cases hc : (LoadM3U host e.path).1 = VLC_SUCCESS ∧ sys.fullscreen = true
  · simp only [if_pos hc, List.count_cons, List.count_append, h2.1, h2.2]
    simpa using h1
  · simp only [if_neg hc, List.count_cons, List.count_append]
    simpa using h1

/-- C2: for every schedule store, trigger state and (day, hour, minute) that matches
some entry, running `TimerCallback` twice in a row at that (day, hour, minute) opens a
playlist at most once and stops and starts the player at most once, and the second run
is a no-op: it leaves the state as the first run left it and performs no event at all
(no load, no player operation). -/
theorem TimerCallback_twice (host host2 : Host) (sys : intf_sys_t) (tm_now : tm)
    (hmatch : ∃ e ∈ sys.entries, entryMatches tm_now e = true) :
    TimerCallback host2 (TimerCallback host sys tm_now).1 tm_now
      = ((TimerCallback host sys tm_now).1, []) ∧
    (loads ((TimerCallback host sys tm_now).2
      ++ (TimerCallback host2 (TimerCallback host sys tm_now).1 tm_now).2)).length ≤ 1 ∧
    ((TimerCallback host sys tm_now).2
      ++ (TimerCallback host2 (TimerCallback host sys tm_now).1 tm_now).2).count
        .playlist_Stop ≤ 1 ∧
    ((TimerCallback host sys tm_now).2
      ++ (TimerCallback host2 (TimerCallback host sys tm_now).1 tm_now).2).count
        .playlist_Play ≤ 1 := by
  obtain ⟨e, he, h1⟩ := TimerCallback_of_match host sys tm_now hmatch
  by_cases ht : alreadyTriggered sys tm_now = true
  · rw [if_pos ht] at h1
    obtain ⟨e2, _, h2⟩ := TimerCallback_of_match host2 sys tm_now hmatch
    rw [if_pos ht] at h2
    rw [h1]
    simp only
    rw [h2]
    exact ⟨rfl, by simp [loads], by simp, by simp⟩
  · rw [if_neg ht] at h1
    have hent : (TimerCallback.fire host sys tm_now e).1.entries = sys.entries := rfl
    have hrec : alreadyTriggered (TimerCallback.fire host sys tm_now e).1 tm_now = true := by
      simp [alreadyTriggered, TimerCallback.fire]
    obtain ⟨e2, _, h2⟩ := TimerCallback_of_match host2 (TimerCallback.fire host sys tm_now e).1
      tm_now (by rw [hent]; exact hmatch)
    rw [if_pos hrec] at h2
    rw [h1, h2]
    have hc := count_fire host sys tm_now e
    refine ⟨rfl, ?_, ?_, ?_⟩
    · rw [List.append_nil, loads_fire]; simp
    · rw [List.append_nil]; exact hc.1
    · rw [List.append_nil]; exact hc.2

/-- C2, on the scenario: two ticks at Monday 22:30; the first opens `/x.m3u`. -/
theorem TimerCallback_twice_example :
    (∃ e ∈ exampleSys.entries, entryMatches monday2230 e = true) ∧
    loads (TimerCallback exampleHost exampleSys monday2230).2 = ["/x.m3u".toList] ∧
    TimerCallback exampleHost (TimerCallback exampleHost exampleSys monday2230).1 monday2230
      = ((TimerCallback exampleHost exampleSys monday2230).1, []) :=
  ⟨by decide, by decide,
   (TimerCallback_twice exampleHost exampleHost exampleSys monday2230 (by decide)).1⟩

/-- C5, evaluated (the code does not do what the claim says): the schedule holds the one
entry `TUE 09:00 /a.m3u`. The tick at Tuesday 09:00 fires it; the tick at Tuesday 09:01
matches no entry; the tick at Tuesday 09:00 of the following week matches the entry
again but does nothing, because the trigger state still records Tuesday 09:00. -/
theorem TimerCallback_no_refire_next_week :
    weeklySys.entries = [⟨2, 9, 0, "/a.m3u".toList⟩] ∧
    loads (TimerCallback weeklyHost weeklySys tuesday0900).2 = ["/a.m3u".toList] ∧
    TimerCallback weeklyHost (TimerCallback weeklyHost weeklySys tuesday0900).1 tuesday0901
      = ((TimerCallback weeklyHost weeklySys tuesday0900).1, []) ∧
    TimerCallback weeklyHost
        (TimerCallback weeklyHost (TimerCallback weeklyHost weeklySys tuesday0900).1
          tuesday0901).1 tuesday0900
      = ((TimerCallback weeklyHost weeklySys tuesday0900).1, []) := by
  decide

/-- C6, evaluated (the code does not do what the claim says): on the host of the stub
headers no line of the playlist `/a.m3u` yields an item, so `LoadM3U` fails; by then the
firing tick has stopped the player and cleared its queue. -/
theorem TimerCallback_failed_load_stops_and_clears :
    entryMatches tuesday0900 ⟨2, 9, 0, "/a.m3u".toList⟩ = true ∧
    alreadyTriggered weeklySys tuesday0900 = false ∧
    (LoadM3U stubHost "/a.m3u".toList).1 = VLC_EGENERIC ∧
    playerOps (TimerCallback stubHost weeklySys tuesday0900).2
      = [.playlist_Stop, .playlist_Clear] := by
  decide

/-! ## LoadM3U: the items handed to the player -/

theorem handedItems_append (a b : List Event) :
    handedItems (a ++ b) = handedItems a ++ handedItems b := by
  induction a with
  | nil => rfl
  | cons ev a ih => cases ev <;> simp [handedItems, ih]

theorem handedItems_item (host : Host) (line : List Char) :
    handedItems (LoadM3U.item host line).2 = (itemOf host line).toList := by
  unfold LoadM3U.item itemOf LoadM3U.uri
  by_cases hs : strstr line [':', '/', '/'] = true
  · simp only [hs, if_true]
    by_cases hi : host.input_item_New line = true
    · by_cases ha : host.playlist_AddInput ⟨line⟩ = true
      · simp [hi, ha, handedItems]
      · simp [hi, ha, handedItems]
    · simp [hi, handedItems]
  · simp only [hs]
    cases hu : host.vlc_path2uri line with
    | none => simp [handedItems]
    | some uri =>
      by_cases hi : host.input_item_New uri = true
      · by_cases ha : host.playlist_AddInput ⟨uri⟩ = true
        · simp [hi, ha, handedItems]
        · simp [hi, ha, handedItems]
      · simp [hi, handedItems]

theorem item_counted_iff (host : Host) (line : List Char) :
    (LoadM3U.item host line).1 = true ↔
      ∃ item, itemOf host line = some item ∧ host.playlist_AddInput item = true := by
  unfold LoadM3U.item itemOf
  cases hu : (LoadM3U.uri host line).1 with
  | none => simp
  | some uri =>
    by_cases hi : host.input_item_New uri = true
    · by_cases ha : host.playlist_AddInput ⟨uri⟩ = true
      · simp [hi, ha]
      · simp [hi, ha]
    · simp [hi]

theorem handedItems_items (host : Host) (lines : List (List Char)) :
    handedItems (LoadM3U.items host lines).2 = lines.filterMap (itemOf host) := by
  induction lines with
  | nil => rfl
  | cons line rest ih =>
    simp only [LoadM3U.items, handedItems_append, handedItems_item, ih, List.filterMap_cons]
    cases itemOf host line <;> rfl

theorem items_count_pos_iff (host : Host) (lines : List (List Char)) :
    (LoadM3U.items host lines).1 > 0 ↔
      ∃ item ∈ lines.filterMap (itemOf host), host.playlist_AddInput item = true := by
  induction lines with
  | nil => simp [LoadM3U.items]
  | cons line rest ih =>
    have h1 := item_counted_iff host line
    simp only [LoadM3U.items, List.filterMap_cons]
    by_cases hc : (LoadM3U.item host line).1 = true
    · obtain ⟨item, hi, ha⟩ := h1.mp hc
      simp only [hc, if_true, hi]
      constructor
      · intro _
        exact ⟨item, by simp, ha⟩
      · intro _
        omega
    · have hno : ¬ ∃ item, itemOf host line = some item ∧ host.playlist_AddInput item = true :=
        fun h => hc (h1.mpr h)
      have hz : (if (LoadM3U.item host line).1 = true then 1 else 0) = 0 := by simp [hc]
      rw [hz, Nat.zero_add, ih]
      cases hio : itemOf host line with
      | none => rfl
      | some item =>
        simp only [List.mem_cons]
        constructor
        · rintro ⟨x, hx, hax⟩
          exact ⟨x, Or.inr hx, hax⟩
        · rintro ⟨x, hx | hx, hax⟩
          · subst hx
            exact absurd ⟨x, hio, hax⟩ hno
          · exact ⟨x, hx, hax⟩

/-- The items `LoadM3U` hands to the player and its result code, for an openable file,
in terms of the buffers read. -/
theorem LoadM3U_handed (host : Host) (path content : List Char)
    (hopen : host.fopen path = some content) :
    handedItems (LoadM3U host path).2
      = ((readLines SCHED_MAX_PATH content).filterMap usableLine).filterMap (itemOf host) ∧
    ((LoadM3U host path).1 = VLC_SUCCESS ↔
      ∃ item ∈ ((readLines SCHED_MAX_PATH content).filterMap usableLine).filterMap (itemOf host),
        host.playlist_AddInput item = true) := by
  have hh := handedItems_items host ((readLines SCHED_MAX_PATH content).filterMap usableLine)
  have hp := items_count_pos_iff host ((readLines SCHED_MAX_PATH content).filterMap usableLine)
  unfold LoadM3U
  rw [hopen]
  simp only
  by_cases h0 : ((readLines SCHED_MAX_PATH content).filterMap usableLine).length = 0
  · have hnil : (readLines SCHED_MAX_PATH content).filterMap usableLine = [] :=
      List.length_eq_zero.mp h0
    rw [if_pos h0, hnil]
    simp [handedItems, VLC_EGENERIC, VLC_SUCCESS]
  · rw [if_neg h0]
    by_cases hc : (LoadM3U.items host ((readLines SCHED_MAX_PATH content).filterMap usableLine)).1 > 0
    · rw [if_pos hc]
      refine ⟨?_, ?_⟩
      · rw [handedItems_append, handedItems_append, hh]
        simp [handedItems]
      · simp only [true_iff]
        exact hp.mp hc
    · rw [if_neg hc]
      refine ⟨?_, ?_⟩
      · rw [handedItems_append, handedItems_append, hh]
        simp [handedItems]
      · constructor
        · intro h
          have hne : VLC_EGENERIC ≠ VLC_SUCCESS := by decide
          exact absurd h hne
        · intro h
          exact absurd (hp.mpr h) hc

theorem Char_toNat_ofNat (n : Nat) (h : n < 55296) : (Char.ofNat n).toNat = n := by
  simp [Char.ofNat, Char.toNat, Nat.isValidChar, h, Char.ofNatAux, UInt32.toNat]

theorem Char_eq_of_toNat_eq (a b : Char) (h : a.toNat = b.toNat) : a = b := by
  rw [← Char.ofNat_toNat a, ← Char.ofNat_toNat b, h]

theorem toNat_tolower (c : Char) :
    (tolower c).toNat = if 65 ≤ c.toNat ∧ c.toNat ≤ 90 then c.toNat + 32 else c.toNat := by
  have hA : 'A'.toNat = 65 := rfl
  have hZ : 'Z'.toNat = 90 := rfl
  unfold tolower
  rw [hA, hZ]
  split
  · rename_i h
    exact Char_toNat_ofNat _ (by omega)
  · rfl

theorem toNat_toupper (c : Char) :
    (toupper c).toNat = if 97 ≤ c.toNat ∧ c.toNat ≤ 122 then c.toNat - 32 else c.toNat := by
  have ha : 'a'.toNat = 97 := rfl
  have hz : 'z'.toNat = 122 := rfl
  unfold toupper
  rw [ha, hz]
  split
  · rename_i h
    exact Char_toNat_ofNat _ (by omega)
  · rfl

/-- Against an upper-case letter, equality up to case is equality of the upper-case
forms. -/
theorem tolower_eq_iff (a b : Char) (hb : 65 ≤ b.toNat ∧ b.toNat ≤ 90) :
    tolower a = tolower b ↔ toupper a = b := by
  have h1 := toNat_tolower a
  have h2 := toNat_tolower b
  have h3 := toNat_toupper a
  rw [if_pos hb] at h2
  constructor
  · intro h
    apply Char_eq_of_toNat_eq
    have h4 : (tolower a).toNat = (tolower b).toNat := by rw [h]
    rw [h3]
    rw [h1, h2] at h4
    split at h4 <;> split <;> omega
  · intro h
    apply Char_eq_of_toNat_eq
    have h4 : (toupper a).toNat = b.toNat := by rw [h]
    rw [h1, h2]
    rw [h3] at h4
    split at h4 <;> split <;> omega

theorem strncasecmp_eq_zero_iff (n : Nat) (str d : List Char) (hlen : d.length = n)
    (hd : ∀ b ∈ d, 65 ≤ b.toNat ∧ b.toNat ≤ 90) :
    strncasecmp str d n = 0 ↔ (str.take n).map toupper = d := by
  induction n generalizing str d with
  | zero =>
    have : d = [] := List.length_eq_zero.mp hlen
    subst this
    simp [strncasecmp]
  | succ k ih =>
    cases d with
    | nil => simp at hlen
    | cons b d =>
      have hb := hd b (by simp)
      have hlow := toNat_tolower b
      rw [if_pos hb] at hlow
      cases str with
      | nil =>
        simp only [strncasecmp, List.take_nil, List.map_nil]
        constructor
        · intro h; omega
        · intro h; simp at h
      | cons a as =>
        have hrec := ih as d (by simpa using hlen) (fun x hx => hd x (by simp [hx]))
        simp only [strncasecmp, List.take_succ_cons, List.map_cons, List.cons.injEq]
        by_cases hc : tolower a = tolower b
        · rw [if_pos hc, hrec]
          constructor
          · intro h
            exact ⟨(tolower_eq_iff a b hb).mp hc, h⟩
          · intro h
            exact h.2
        · rw [if_neg hc]
          constructor
          · intro h
            exfalso
            apply hc
            apply Char_eq_of_toNat_eq
            omega
          · intro h
            exact absurd ((tolower_eq_iff a b hb).mpr h.1) hc

theorem days_upper : ∀ d ∈ days, d.length = 3 ∧ ∀ b ∈ d, 65 ≤ b.toNat ∧ b.toNat ≤ 90 := by
  decide

theorem DayFromString_loop_range (str : List Char) (ds : List (List Char)) (i : Int) :
    DayFromString.loop str ds i = -1 ∨
      (i ≤ DayFromString.loop str ds i ∧ DayFromString.loop str ds i < i + ds.length) := by
  induction ds generalizing i with
  | nil => left; rfl
  | cons d ds ih =>
    unfold DayFromString.loop
    split
    · right
      simp only [List.length_cons]
      constructor <;> omega
    · rcases ih (i + 1) with h | h
      · left; exact h
      · right
        simp only [List.length_cons]
        constructor <;> push_cast <;> omega

/-- The value of `DayFromString` is -1 or a weekday index 0..6. -/
theorem DayFromString_range (str : List Char) :
    DayFromString str = -1 ∨ (0 ≤ DayFromString str ∧ DayFromString str ≤ 6) := by
  rcases DayFromString_loop_range str days 0 with h | h
  · left; exact h
  · right
    have h7 : (days.length : Int) = 7 := rfl
    unfold DayFromString
    constructor <;> omega

/-- The index of the day with a given upper-case key, as a chain of comparisons. -/
theorem dayIndex_spec (t : List Char) :
    (∀ i : Nat, i < 7 →
      ((if t = ['S', 'U', 'N'] then (0 : Int)
        else if t = ['M', 'O', 'N'] then 1
        else if t = ['T', 'U', 'E'] then 2
        else if t = ['W', 'E', 'D'] then 3
        else if t = ['T', 'H', 'U'] then 4
        else if t = ['F', 'R', 'I'] then 5
        else if t = ['S', 'A', 'T'] then 6
        else -1) = (i : Int) ↔ days[i]? = some t)) ∧
    ((if t = ['S', 'U', 'N'] then (0 : Int)
        else if t = ['M', 'O', 'N'] then 1
        else if t = ['T', 'U', 'E'] then 2
        else if t = ['W', 'E', 'D'] then 3
        else if t = ['T', 'H', 'U'] then 4
        else if t = ['F', 'R', 'I'] then 5
        else if t = ['S', 'A', 'T'] then 6
        else -1) = -1 ↔ t ∉ days) := by
  by_cases h0 : t = ['S', 'U', 'N']
  · subst h0; decide
  by_cases h1 : t = ['M', 'O', 'N']
  · subst h1; decide
  by_cases h2 : t = ['T', 'U', 'E']
  · subst h2; decide
  by_cases h3 : t = ['W', 'E', 'D']
  · subst h3; decide
  by_cases h4 : t = ['T', 'H', 'U']
  · subst h4; decide
  by_cases h5 : t = ['F', 'R', 'I']
  · subst h5; decide
  by_cases h6 : t = ['S', 'A', 'T']
  · subst h6; decide
  rw [if_neg h0, if_neg h1, if_neg h2, if_neg h3, if_neg h4, if_neg h5, if_neg h6]
  have hmem : t ∉ days := by
    intro hm
    simp only [days, List.mem_cons, List.mem_singleton, List.not_mem_nil, or_false] at hm
    rcases hm with h | h | h | h | h | h | h
    · exact h0 h
    · exact h1 h
    · exact h2 h
    · exact h3 h
    · exact h4 h
    · exact h5 h
    · exact h6 h
  refine ⟨?_, by simp [hmem]⟩
  intro i hi
  constructor
  · intro h; omega
  · intro h
    exact absurd (List.getElem?_mem h) hmem

/-- C12: `DayFromString` is case-insensitive and only the first 3 characters count. For
every token it returns `i` (0 = Sunday, 1 = Monday, ..., 6 = Saturday) exactly when the
first three characters of the token equal, ignoring ASCII case, the `i`-th of SUN, MON,
TUE, WED, THU, FRI, SAT, and it returns -1 exactly when they equal none of the seven; in
particular it returns -1 for every token shorter than 3 characters. -/
theorem DayFromString_spec (token : List Char) :
    (∀ i : Nat, i < 7 → (DayFromString token = (i : Int) ↔ days[i]? = some (dayKey token))) ∧
    (DayFromString token = -1 ↔ dayKey token ∉ days) ∧
    (token.length < 3 → DayFromString token = -1) := by
  have hk : ∀ d ∈ days, (strncasecmp token d 3 = 0 ↔ dayKey token = d) := fun d hd =>
    strncasecmp_eq_zero_iff 3 token d (days_upper d hd).1 (days_upper d hd).2
  have h0 := hk ['S', 'U', 'N'] (by decide)
  have h1 := hk ['M', 'O', 'N'] (by decide)
  have h2 := hk ['T', 'U', 'E'] (by decide)
  have h3 := hk ['W', 'E', 'D'] (by decide)
  have h4 := hk ['T', 'H', 'U'] (by decide)
  have h5 := hk ['F', 'R', 'I'] (by decide)
  have h6 := hk ['S', 'A', 'T'] (by decide)
  have hshort : token.length < 3 → dayKey token ∉ days := by
    intro hlt hmem
    have hl := (days_upper _ hmem).1
    simp only [dayKey, List.length_map, List.length_take] at hl
    omega
  have hval : DayFromString token =
      if dayKey token = ['S', 'U', 'N'] then 0
      else if dayKey token = ['M', 'O', 'N'] then 1
      else if dayKey token = ['T', 'U', 'E'] then 2
      else if dayKey token = ['W', 'E', 'D'] then 3
      else if dayKey token = ['T', 'H', 'U'] then 4
      else if dayKey token = ['F', 'R', 'I'] then 5
      else if dayKey token = ['S', 'A', 'T'] then 6
      else -1 := by
    simp only [DayFromString, days, DayFromString.loop, h0, h1, h2, h3, h4, h5, h6]
    rfl
  have hspec := dayIndex_spec (dayKey token)
  rw [← hval] at hspec
  exact ⟨hspec.1, hspec.2, fun hlt => hspec.2.mpr (hshort hlt)⟩

/-- C12, on examples: `mOnday` is Monday, `sat` is Saturday, `MO` and `Mo nday` are not
days. -/
theorem DayFromString_spec_example :
    DayFromString "mOnday".toList = 1 ∧ DayFromString "sat".toList = 6 ∧
    DayFromString "MO".toList = -1 ∧ DayFromString "Mo nday".toList = -1 :=
  ⟨((DayFromString_spec "mOnday".toList).1 1 (by decide)).mpr (by decide),
   ((DayFromString_spec "sat".toList).1 6 (by decide)).mpr (by decide),
   (DayFromString_spec "MO".toList).2.2 (by decide),
   (DayFromString_spec "Mo nday".toList).2.1.mpr (by decide)⟩

/-! ## ParseConfig: the invariant of the schedule store -/

/-- C11: after `ParseConfig` on any input, `entry_count` is at most 64 (and, being a
count, at least 0) and every stored entry has its day in 0..6, its hour in 0..23 and its
minute in 0..59. -/
theorem ParseConfig_entries_in_range (host : Host) (sys : intf_sys_t) (path : List Char) :
    (ParseConfig host sys path).2.1.entry_count ≤ SCHED_MAX_ENTRIES ∧
    ∀ e ∈ (ParseConfig host sys path).2.1.entries,
      0 ≤ e.day ∧ e.day ≤ 6 ∧ 0 ≤ e.hour ∧ e.hour ≤ 23 ∧ 0 ≤ e.minute ∧ e.minute ≤ 59 := by
  cases hopen : host.fopen path with
  | none =>
    have hnil : (ParseConfig host sys path).2.1.entries = [] := by
      unfold ParseConfig; rw [hopen]
    unfold intf_sys_t.entry_count
    rw [hnil]
    simp
  | some content =>
    have hent := ParseConfig_entries host sys path content hopen
    unfold intf_sys_t.entry_count
    rw [hent]
    refine ⟨by rw [List.length_take]; exact Nat.min_le_left _ _, ?_⟩
    intro e he
    have he2 := List.mem_of_mem_take he
    obtain ⟨buf, _, hbuf⟩ := List.mem_filterMap.mp he2
    obtain ⟨c, p, _, _, _, hd, hh0, hh1, hm0, hm1, heq⟩ := (lineEntry_eq_some_iff buf e).mp hbuf
    subst heq
    have hr := DayFromString_range (sscanf (c :: p)).day_str
    refine ⟨hd, ?_, hh0, hh1, hm0, hm1⟩
    rcases hr with h | h
    · show DayFromString (sscanf (c :: p)).day_str ≤ 6
      omega
    · exact h.2

/-- C11, on the schedule of `exampleHost`: two entries, the first on Monday at 22:30. -/
theorem ParseConfig_entries_in_range_example :
    (ParseConfig exampleHost (initialSys true) configPath).2.1.entry_count
      ≤ SCHED_MAX_ENTRIES ∧
    (0 : Int) ≤ 1 ∧ (1 : Int) ≤ 6 ∧ (0 : Int) ≤ 22 ∧ (22 : Int) ≤ 23 ∧ (0 : Int) ≤ 30
      ∧ (30 : Int) ≤ 59 :=
  ⟨(ParseConfig_entries_in_range exampleHost (initialSys true) configPath).1,
   (ParseConfig_entries_in_range exampleHost (initialSys true) configPath).2
     ⟨1, 22, 30, "/x.m3u".toList⟩ (by decide)⟩

/-! ## ParseConfig: the stored path -/

theorem scanWord_suffix (width : Nat) (s w r : List Char) (h : scanWord width s = some (w, r)) :
    r <:+ s := by
  unfold scanWord at h
  simp only at h
  split at h
  · simp at h
  · simp only [Option.some.injEq, Prod.mk.injEq] at h
    rw [← h.2]
    exact (List.drop_suffix _ _).trans (List.dropWhile_suffix _)

theorem scanInt_suffix (s r : List Char) (v : Int) (h : scanInt s = some (v, r)) :
    r <:+ s := by
  unfold scanInt at h
  simp only at h
  split at h
  · simp at h
  · simp only [Option.some.injEq, Prod.mk.injEq] at h
    rw [← h.2]
    refine (List.drop_suffix _ _).trans ?_
    have hs : skipSpace s <:+ s := List.dropWhile_suffix _
    refine List.IsSuffix.trans ?_ hs
    split
    · rename_i r2 heq
      rw [heq]; exact List.suffix_cons _ _
    · rename_i r2 heq
      rw [heq]; exact List.suffix_cons _ _
    · exact List.suffix_refl _

theorem afterTime_suffix (p : List Char) : afterTime p <:+ p := by
  unfold afterTime
  cases h1 : scanWord 7 p with
  | none => exact List.nil_suffix
  | some r1 =>
    obtain ⟨d, s1⟩ := r1
    have hs1 := scanWord_suffix 7 p d s1 h1
    simp only
    cases h2 : scanInt (skipSpace s1) with
    | none => exact List.nil_suffix
    | some r2 =>
      obtain ⟨hour, s2⟩ := r2
      have hs2 := (scanInt_suffix _ s2 hour h2).trans
        ((List.dropWhile_suffix _ : skipSpace s1 <:+ s1).trans hs1)
      simp only
      split
      · rename_i s3
        cases h3 : scanInt s3 with
        | none => exact List.nil_suffix
        | some r3 =>
          obtain ⟨minute, s4⟩ := r3
          exact (scanInt_suffix _ s4 minute h3).trans ((List.suffix_cons _ _).trans hs2)
      · exact List.nil_suffix

/-- The `m3u_path` that `sscanf` fills when it matches four fields. -/
theorem sscanf_m3u_path (p : List Char) (h : (sscanf p).matched = 4) :
    (sscanf p).m3u_path
      = ((skipSpace (afterTime p)).takeWhile (fun c => c != '\n')).take 511 := by
  unfold sscanf at h ⊢
  unfold afterTime
  cases h1 : scanWord 7 p with
  | none => rw [h1] at h; simp at h
  | some r1 =>
    obtain ⟨d, s1⟩ := r1
    rw [h1] at h
    simp only at h ⊢
    cases h2 : scanInt (skipSpace s1) with
    | none => rw [h2] at h; simp at h
    | some r2 =>
      obtain ⟨hour, s2⟩ := r2
      rw [h2] at h
      simp only at h ⊢
      cases s2 with
      | nil => simp at h
      | cons c s3 =>
        by_cases hc : c = ':'
        · subst hc
          simp only at h ⊢
          cases h3 : scanInt s3 with
          | none => rw [h3] at h; simp at h
          | some r3 =>
            obtain ⟨minute, s4⟩ := r3
            rw [h3] at h
            simp only at h ⊢
            unfold scanSet at h ⊢
            simp only at h ⊢
            by_cases hw : ((skipSpace s4).takeWhile (fun c => c != '\n')).take 511 = []
            · rw [if_pos hw] at h; simp at h
            · rw [if_neg hw]
        · exfalso
          revert h
          split
          · rename_i heq
            simp only [List.cons.injEq] at heq
            exact absurd heq.1 hc
          · simp

theorem skipBlank_take_skipSpace (n : Nat) (x : List Char) :
    skipBlank ((skipSpace x).take n) = (skipSpace x).take n := by
  induction x with
  | nil => cases n <;> rfl
  | cons c x ih =>
    by_cases hc : isspace c = true
    · have : skipSpace (c :: x) = skipSpace x := by
        unfold skipSpace
        rw [List.dropWhile_cons_of_pos hc]
      rw [this]; exact ih
    · have : skipSpace (c :: x) = c :: x := by
        unfold skipSpace
        rw [List.dropWhile_cons_of_neg hc]
      rw [this]
      cases n with
      | zero => rfl
      | succ k =>
        have hb : ¬ isBlank c = true := by
          intro hb
          apply hc
          have : c = ' ' ∨ c = '\t' := by simpa [isBlank] using hb
          rcases this with h | h <;> subst h <;> decide
        unfold skipBlank
        rw [List.take_succ_cons, List.dropWhile_cons_of_neg hb]

/-! ## LoadM3U: URI lines and path lines -/

/-- What a firing tick does: the first matching entry fires. -/
theorem TimerCallback_fires (host : Host) (sys : intf_sys_t) (tm_now : tm)
    (pre post : List sched_entry) (e : sched_entry)
    (hentries : sys.entries = pre ++ e :: post)
    (hpre : ∀ x ∈ pre, entryMatches tm_now x = false)
    (he : entryMatches tm_now e = true)
    (hfresh : alreadyTriggered sys tm_now = false) :
    TimerCallback host sys tm_now = TimerCallback.fire host sys tm_now e := by
  unfold TimerCallback
  rw [hentries, TimerCallback_loop_skip host sys tm_now pre _ hpre,
    TimerCallback_loop_match host sys tm_now e post he, hfresh]
  simp

/-- C16: for every tick that finds a matching entry not already recorded in the trigger
state, the trigger state after the tick is the current (day, hour, minute), whatever the
host does with the playlist load (success or failure), the rest of the state is kept, and
a further tick in the same minute does nothing: it does not retry the load. -/
theorem TimerCallback_records_trigger (host host2 : Host) (sys : intf_sys_t) (tm_now : tm)
    (hmatch : ∃ e ∈ sys.entries, entryMatches tm_now e = true)
    (hfresh : alreadyTriggered sys tm_now = false) :
    (TimerCallback host sys tm_now).1 = triggeredAt sys tm_now ∧
    alreadyTriggered (TimerCallback host sys tm_now).1 tm_now = true ∧
    TimerCallback host2 (TimerCallback host sys tm_now).1 tm_now
      = (triggeredAt sys tm_now, []) := by
  obtain ⟨pre, e, post, h1, h2, h3⟩ := exists_first_match tm_now sys.entries hmatch
  have hfire := TimerCallback_fires host sys tm_now pre post e h1 h2 h3 hfresh
  have hstate : (TimerCallback host sys tm_now).1 = triggeredAt sys tm_now := by
    rw [hfire]; rfl
  have hrec : alreadyTriggered (triggeredAt sys tm_now) tm_now = true := by
    simp [alreadyTriggered, triggeredAt]
  rw [hstate]
  refine ⟨rfl, hrec, ?_⟩
  obtain ⟨e2, _, h4⟩ := TimerCallback_of_match host2 (triggeredAt sys tm_now) tm_now hmatch
  rw [h4, if_pos hrec]

/-- C16, on hosts where the load succeeds (`exampleHost`) and where it fails (the host
without files): the tick at Monday 22:30 records Monday 22:30 both times. -/
theorem TimerCallback_records_trigger_example :
    (LoadM3U exampleHost "/x.m3u".toList).1 = VLC_SUCCESS ∧
    (LoadM3U (hostWithFiles []) "/x.m3u".toList).1 = VLC_EGENERIC ∧
    (TimerCallback exampleHost exampleSys monday2230).1 = triggeredAt exampleSys monday2230 ∧
    (TimerCallback (hostWithFiles []) exampleSys monday2230).1
      = triggeredAt exampleSys monday2230 ∧
    TimerCallback exampleHost (TimerCallback (hostWithFiles []) exampleSys monday2230).1
      monday2230 = (triggeredAt exampleSys monday2230, []) :=
  ⟨by decide, by decide,
   (TimerCallback_records_trigger exampleHost exampleHost exampleSys monday2230
     (by decide) (by decide)).1,
   (TimerCallback_records_trigger (hostWithFiles []) exampleHost exampleSys monday2230
     (by decide) (by decide)).1,
   (TimerCallback_records_trigger (hostWithFiles []) exampleHost exampleSys monday2230
     (by decide) (by decide)).2.2⟩

theorem filter_of_isItemEvent (p : Event → Bool) (tr : List Event)
    (hp : ∀ ev, isItemEvent ev = true → p ev = false)
    (h : ∀ ev ∈ tr, isItemEvent ev = true) : tr.filter p = [] := by
  rw [List.filter_eq_nil_iff]
  intro ev hev
  rw [hp ev (h ev hev)]
  exact Bool.false_ne_true

theorem isSetBool_of_isItemEvent (ev : Event) (h : isItemEvent ev = true) :
    isSetBool ev = false := by
  cases ev <;> simp_all [isItemEvent, isSetBool]

/-- `LoadM3U` makes no fullscreen request. -/
theorem fullscreenRequests_LoadM3U (host : Host) (path : List Char) :
    fullscreenRequests (LoadM3U host path).2 = [] := by
  have hi := fun lines => filter_of_isItemEvent isSetBool _ isSetBool_of_isItemEvent
    (LoadM3U_items_events host lines)
  unfold fullscreenRequests LoadM3U
  cases host.fopen path with
  | none => rfl
  | some content =>
    simp only
    split
    · rfl
    · split
      · rw [List.filter_append, List.filter_append, hi]; rfl
      · rw [List.filter_append, List.filter_append, hi]; rfl

theorem fullscreenRequests_requestFullscreen (host : Host) :
    fullscreenRequests (requestFullscreen host) = requestFullscreen host := by
  unfold fullscreenRequests requestFullscreen
  split <;> rfl

/-- C18: on a firing tick, fullscreen is requested (the `fullscreen` variable of the
playlist set to true) if and only if the playlist load succeeded and the force-fullscreen
option is enabled; when the load fails or the option is off the tick makes no fullscreen
request at all. The absence of a current input or of a video output is not an error: the
request is then the variable of the playlist alone, and the variable of the video output
is set as well only when both exist. -/
theorem TimerCallback_fullscreen (host : Host) (sys : intf_sys_t) (tm_now : tm)
    (pre post : List sched_entry) (e : sched_entry)
    (hentries : sys.entries = pre ++ e :: post)
    (hpre : ∀ x ∈ pre, entryMatches tm_now x = false)
    (he : entryMatches tm_now e = true)
    (hfresh : alreadyTriggered sys tm_now = false) :
    (.var_SetBool .playlist "fullscreen" true ∈ (TimerCallback host sys tm_now).2 ↔
      ((LoadM3U host e.path).1 = VLC_SUCCESS ∧ sys.fullscreen = true)) ∧
    fullscreenRequests (TimerCallback host sys tm_now).2
      = (if (LoadM3U host e.path).1 = VLC_SUCCESS ∧ sys.fullscreen = true then
          .var_SetBool .playlist "fullscreen" true ::
            (if host.playlist_CurrentInput = true ∧ host.input_GetVout = true then
              [.var_SetBool .vout "fullscreen" true]
            else [])
        else []) := by
  have hfire := TimerCallback_fires host sys tm_now pre post e hentries hpre he hfresh
  have hreq : fullscreenRequests (TimerCallback host sys tm_now).2
      = (if (LoadM3U host e.path).1 = VLC_SUCCESS ∧ sys.fullscreen = true then
          requestFullscreen host else []) := by
    rw [hfire]
    unfold TimerCallback.fire
    show fullscreenRequests (_ :: (_ ++ _)) = _
    unfold fullscreenRequests
    rw [List.filter_cons_of_neg (by simp [isSetBool]), List.filter_append]
    have h1 := fullscreenRequests_LoadM3U host e.path
    unfold fullscreenRequests at h1
    rw [h1, List.nil_append]
    split
    · exact fullscreenRequests_requestFullscreen host
    · rfl
  have hform : requestFullscreen host
      = .var_SetBool .playlist "fullscreen" true ::
          (if host.playlist_CurrentInput = true ∧ host.input_GetVout = true then
            [.var_SetBool .vout "fullscreen" true]
          else []) := by
    unfold requestFullscreen
    cases host.playlist_CurrentInput <;> cases host.input_GetVout <;> rfl
  refine ⟨?_, by rw [hreq, hform]⟩
  have hmem : ∀ ev : Event, isSetBool ev = true →
      (ev ∈ (TimerCallback host sys tm_now).2 ↔
        ev ∈ fullscreenRequests (TimerCallback host sys tm_now).2) := by
    intro ev hev
    unfold fullscreenRequests
    rw [List.mem_filter]
    exact ⟨fun h => ⟨h, hev⟩, fun h => h.1⟩
  rw [hmem (.var_SetBool .playlist "fullscreen" true) rfl, hreq]
  constructor
  · intro h
    by_contra hc
    rw [if_neg hc] at h
    simp at h
  · intro h
    rw [if_pos h, hform]
    simp

/-- C18, on the scenario: with the option set, the tick at Monday 22:30 sets the
`fullscreen` variable of the playlist and of the video output on `exampleHost`, and of the
playlist alone on the host without a current input. -/
theorem TimerCallback_fullscreen_example :
    fullscreenRequests (TimerCallback exampleHost exampleSys monday2230).2
      = [.var_SetBool .playlist "fullscreen" true, .var_SetBool .vout "fullscreen" true] ∧
    fullscreenRequests (TimerCallback noInputHost exampleSys monday2230).2
      = [.var_SetBool .playlist "fullscreen" true] ∧
    (.var_SetBool .playlist "fullscreen" true
        ∈ (TimerCallback noInputHost exampleSys monday2230).2 ↔
      ((LoadM3U noInputHost "/x.m3u".toList).1 = VLC_SUCCESS ∧ exampleSys.fullscreen = true)) :=
  ⟨by decide, by decide,
   (TimerCallback_fullscreen noInputHost exampleSys monday2230 []
     [⟨1, 22, 30, "/y.m3u".toList⟩] ⟨1, 22, 30, "/x.m3u".toList⟩ (by decide) (by decide)
     (by decide) (by decide)).1⟩

/-! ## LoadM3U: the operations on the player -/

theorem playerOps_of_isItemEvent (tr : List Event) (h : ∀ ev ∈ tr, isItemEvent ev = true) :
    playerOps tr = (handedItems tr).map .playlist_AddInput := by
  induction tr with
  | nil => rfl
  | cons ev tr ih =>
    have h1 := h ev (by simp)
    have h2 := ih (fun x hx => h x (by simp [hx]))
    unfold playerOps at h2 ⊢
    cases ev <;> simp_all [isItemEvent, isPlayerOp, handedItems]

/-- C17: whenever `LoadM3U` succeeds, the operations it performed on the player are
exactly: stop the current playback, clear the queue, one `playlist_AddInput` for every
item constructed, in file order, then play, once. Play comes after all insertions and no
other operation on the player comes in between. -/
theorem LoadM3U_player_ops (host : Host) (path : List Char)
    (hsucc : (LoadM3U host path).1 = VLC_SUCCESS) :
    playerOps (LoadM3U host path).2
      = [.playlist_Stop, .playlist_Clear]
        ++ (handedItems (LoadM3U host path).2).map .playlist_AddInput
        ++ [.playlist_Play] ∧
    ∃ content, host.fopen path = some content ∧
      handedItems (LoadM3U host path).2
        = ((readLines SCHED_MAX_PATH content).filterMap usableLine).filterMap (itemOf host) := by
  have hne : VLC_EGENERIC ≠ VLC_SUCCESS := by decide
  cases hopen : host.fopen path with
  | none =>
    exfalso
    unfold LoadM3U at hsucc
    rw [hopen] at hsucc
    exact hne hsucc
  | some content =>
    refine ⟨?_, content, rfl, (LoadM3U_handed host path content hopen).1⟩
    have hi := playerOps_of_isItemEvent _
      (LoadM3U_items_events host ((readLines SCHED_MAX_PATH content).filterMap usableLine))
    unfold LoadM3U at hsucc ⊢
    rw [hopen] at hsucc ⊢
    simp only at hsucc ⊢
    split at hsucc
    · exact absurd hsucc hne
    · rename_i h0
      rw [if_neg h0]
      split at hsucc
      · rename_i hc
        rw [if_pos hc]
        unfold playerOps at hi ⊢
        rw [List.filter_append, List.filter_append, hi, handedItems_append, handedItems_append]
        simp [isPlayerOp, handedItems]
      · exact absurd hsucc hne

/-- C17, on `examplePlaylist`: stop, clear, two insertions in file order, play. -/
theorem LoadM3U_player_ops_example :
    playerOps (LoadM3U playlistHost playlistPath).2
      = [.playlist_Stop, .playlist_Clear,
         .playlist_AddInput ⟨"file:///music/a.mp3".toList⟩,
         .playlist_AddInput ⟨"http://host/b.ogg".toList⟩, .playlist_Play] ∧
    playerOps (LoadM3U playlistHost playlistPath).2
      = [.playlist_Stop, .playlist_Clear]
        ++ (handedItems (LoadM3U playlistHost playlistPath).2).map .playlist_AddInput
        ++ [.playlist_Play] :=
  ⟨by decide, (LoadM3U_player_ops playlistHost playlistPath (by decide)).1⟩

/-! ## LoadM3U: a playlist of comments -/

theorem usableLine_of_commentOrBlank (l : List Char) (h : commentOrBlank l = true) :
    usableLine l = none := by
  have hp := parseLine_of_commentOrBlank l h
  unfold parseLine at hp
  unfold usableLine
  cases hs : skipBlank (stripNewline (cstr l)) with
  | nil => rfl
  | cons c p =>
    rw [hs] at hp
    simp only at hp ⊢
    by_cases hc : c = '#'
    · rw [if_pos hc]
    · exfalso
      rw [if_neg hc] at hp
      split at hp
      · simp at hp
      · split at hp
        · simp at hp
        · split at hp <;> simp at hp

/-- C20, as stated, fails for a comment line that does not fit the buffer of 512 bytes:
the playlist `longCommentPlaylist` is one comment line, yet `LoadM3U` succeeds on it and
the firing tick stops, clears, inserts and plays. -/
theorem LoadM3U_long_comment_plays :
    (∀ l ∈ fileLines longCommentPlaylist, commentOrBlank l = true) ∧
    (LoadM3U longCommentHost playlistPath).1 = VLC_SUCCESS ∧
    playerOps (TimerCallback longCommentHost weeklySys tuesday0900).2
      = [.playlist_Stop, .playlist_Clear, .playlist_AddInput ⟨"file:///music/a.mp3".toList⟩,
         .playlist_Play] := by
  decide!

/-- C20 (amended): for every playlist file that exists and contains only comment lines and
blank lines of at most 511 characters each, `LoadM3U` returns the failure `VLC_EGENERIC`
after the warning that the file contains no entries, and a tick that fires an entry with
this playlist performs no operation on the player: no stop, clear, insert or play, and no
fullscreen request. -/
theorem LoadM3U_comments_only (host : Host) (path content : List Char)
    (hopen : host.fopen path = some content)
    (hall : ∀ l ∈ fileLines content, l.length ≤ 511 ∧ commentOrBlank l = true) :
    LoadM3U host path
      = (VLC_EGENERIC,
          [.fopen path, .msg .Warn "scheduler: M3U file '%s' contains no entries"]) ∧
    ∀ (sys : intf_sys_t) (tm_now : tm) (e : sched_entry), e.path = path →
      playerOps (TimerCallback.fire host sys tm_now e).2 = [] := by
  have hr : (readLines SCHED_MAX_PATH content).filterMap usableLine = [] := by
    rw [filterMap_readLines_of_fit SCHED_MAX_PATH (by decide) usableLine usableLine_nil
      (fun l _ => usableLine_append_newline l) content (fun l hl => (hall l hl).1),
      List.filterMap_eq_nil_iff]
    exact fun l hl => usableLine_of_commentOrBlank l (hall l hl).2
  have hload : LoadM3U host path
      = (VLC_EGENERIC,
          [.fopen path, .msg .Warn "scheduler: M3U file '%s' contains no entries"]) := by
    unfold LoadM3U
    rw [hopen]
    simp only
    rw [hr]
    rfl
  refine ⟨hload, ?_⟩
  intro sys tm_now e he
  unfold TimerCallback.fire
  rw [he, hload]
  have hne : ¬ (VLC_EGENERIC = VLC_SUCCESS ∧ sys.fullscreen = true) := by
    intro h
    exact absurd h.1 (by decide)
  simp only [if_neg hne]
  rfl

/-- C20 (amended), on the scenario: the playlist `/a.m3u` exists and contains only
comments; the load fails and the tick at Tuesday 09:00, which fires the entry, performs no
operation on the player. -/
theorem LoadM3U_comments_only_example :
    (∀ l ∈ fileLines commentsOnlyPlaylist, l.length ≤ 511 ∧ commentOrBlank l = true) ∧
    LoadM3U commentsOnlyHost playlistPath
      = (VLC_EGENERIC,
          [.fopen playlistPath, .msg .Warn "scheduler: M3U file '%s' contains no entries"]) ∧
    TimerCallback commentsOnlyHost weeklySys tuesday0900
      = TimerCallback.fire commentsOnlyHost weeklySys tuesday0900 ⟨2, 9, 0, playlistPath⟩ ∧
    playerOps (TimerCallback.fire commentsOnlyHost weeklySys tuesday0900
      ⟨2, 9, 0, playlistPath⟩).2 = [] :=
  ⟨by decide,
   (LoadM3U_comments_only commentsOnlyHost playlistPath commentsOnlyPlaylist (by decide)
     (by decide)).1,
   by decide,
   (LoadM3U_comments_only commentsOnlyHost playlistPath commentsOnlyPlaylist (by decide)
     (by decide)).2 weeklySys tuesday0900 ⟨2, 9, 0, playlistPath⟩ rfl⟩

/-! ## Open -/

theorem timerEvents_ParseConfig_loop (bufs : List (List Char)) (lineno : Nat)
    (entries : List sched_entry) (log : List Event) (hlog : timerEvents log = []) :
    timerEvents (ParseConfig.loop bufs lineno entries log).2 = [] := by
  induction bufs generalizing lineno entries log with
  | nil => exact hlog
  | cons buf rest ih =>
    have happ : ∀ ev : Event, isTimerEvent ev = false → timerEvents (log ++ [ev]) = [] := by
      intro ev hev
      unfold timerEvents at hlog ⊢
      rw [List.filter_append, hlog, List.filter_cons_of_neg (by simp [hev])]
      rfl
    unfold ParseConfig.loop
    cases parseLine buf with
    | skip => exact ih _ entries log hlog
    | malformed => exact ih _ entries _ (happ _ rfl)
    | unknown_day => exact ih _ entries _ (happ _ rfl)
    | invalid_time => exact ih _ entries _ (happ _ rfl)
    | data day hour minute m3u_path =>
      simp only
      split
      · exact happ _ rfl
      · exact ih _ _ _ (happ _ rfl)

/-- `ParseConfig` does not touch the timer. -/
theorem timerEvents_ParseConfig (host : Host) (sys : intf_sys_t) (path : List Char) :
    timerEvents (ParseConfig host sys path).2.2 = [] := by
  unfold ParseConfig
  cases host.fopen path with
  | none => rfl
  | some content =>
    have h := timerEvents_ParseConfig_loop (readLines 1024 content) 0 [] [.fopen path] rfl
    simp only
    unfold timerEvents at h ⊢
    split
    · rw [List.filter_append, h]; rfl
    · rw [List.filter_append, h]; rfl

/-- The result code of `ParseConfig` when the file cannot be opened. -/
theorem ParseConfig_code_closed (host : Host) (sys : intf_sys_t) (path : List Char)
    (hclosed : host.fopen path = none) : (ParseConfig host sys path).1 = VLC_EGENERIC := by
  unfold ParseConfig
  rw [hclosed]

/-- C19: `Open` returns an error result, leaves no state behind and creates and arms no
timer in each of these cases: the config path setting is absent or empty, the config file
cannot be opened, or the config parses to zero valid entries. The timer is armed only
after `ParseConfig` has succeeded: when `vlc_timer_schedule` is called, `ParseConfig`
returned `VLC_SUCCESS` and its events come before the timer calls. -/
theorem Open_failure (core : Core) (host : Host) :
    ((core.scheduler_config = none ∨ core.scheduler_config = some [] ∨
        ∃ p, core.scheduler_config = some p ∧
          (host.fopen p = none ∨
            (ParseConfig host ⟨core.scheduler_fullscreen, [], -1, -1, -1⟩ p).2.1.entry_count
              = 0)) →
      ((Open core host).1 = VLC_EGENERIC ∨ (Open core host).1 = VLC_ENOMEM) ∧
      (Open core host).2.1 = none ∧ timerEvents (Open core host).2.2 = []) ∧
    (∀ value interval, .vlc_timer_schedule value interval ∈ (Open core host).2.2 →
      ∃ p, core.scheduler_config = some p ∧
        (ParseConfig host ⟨core.scheduler_fullscreen, [], -1, -1, -1⟩ p).1 = VLC_SUCCESS ∧
        (Open core host).2.2
          = (ParseConfig host ⟨core.scheduler_fullscreen, [], -1, -1, -1⟩ p).2.2
            ++ [.vlc_timer_create, .vlc_timer_schedule 1 (VLC_TICK_FROM_SEC SCHED_POLL_SEC),
                .msg .Info "scheduler: started with %d entries, polling every %ds"]) := by
  have hne : VLC_EGENERIC ≠ VLC_SUCCESS := by decide
  constructor
  · intro hfail
    unfold Open
    cases hcfg : core.scheduler_config with
    | none => exact ⟨Or.inl rfl, rfl, rfl⟩
    | some config_path =>
      simp only
      by_cases hempty : config_path = []
      · rw [if_pos hempty]
        exact ⟨Or.inl rfl, rfl, rfl⟩
      · rw [if_neg hempty]
        by_cases hm : core.malloc = false
        · rw [if_pos hm]
          exact ⟨Or.inr rfl, rfl, rfl⟩
        · rw [if_neg hm]
          have hparse : (ParseConfig host ⟨core.scheduler_fullscreen, [], -1, -1, -1⟩
              config_path).1 ≠ VLC_SUCCESS := by
            rw [hcfg] at hfail
            rcases hfail with h | h | ⟨p, hp, h⟩
            · simp at h
            · simp at h; exact absurd h hempty
            · simp only [Option.some.injEq] at hp
              subst hp
              rcases h with h | h
              · rw [ParseConfig_code_closed host _ _ h]; exact hne
              · cases hopen : host.fopen config_path with
                | none => rw [ParseConfig_code_closed host _ _ hopen]; exact hne
                | some content =>
                  rw [ParseConfig_code host _ _ content hopen]
                  unfold intf_sys_t.entry_count at h
                  rw [if_pos h]; exact hne
          rw [if_pos hparse]
          refine ⟨Or.inl rfl, rfl, ?_⟩
          have ht := timerEvents_ParseConfig host ⟨core.scheduler_fullscreen, [], -1, -1, -1⟩
            config_path
          unfold timerEvents at ht ⊢
          rw [List.filter_append, ht]
          rfl
  · intro value interval hmem
    have hpc := fun p => timerEvents_ParseConfig host ⟨core.scheduler_fullscreen, [], -1, -1, -1⟩ p
    have hnot : ∀ p, Event.vlc_timer_schedule value interval
        ∉ (ParseConfig host ⟨core.scheduler_fullscreen, [], -1, -1, -1⟩ p).2.2 := by
      intro p hin
      have := hpc p
      unfold timerEvents at this
      rw [List.filter_eq_nil_iff] at this
      exact this _ hin rfl
    unfold Open at hmem ⊢
    cases hcfg : core.scheduler_config with
    | none => rw [hcfg] at hmem; simp at hmem
    | some config_path =>
      rw [hcfg] at hmem
      simp only at hmem ⊢
      by_cases hempty : config_path = []
      · rw [if_pos hempty] at hmem; simp at hmem
      · rw [if_neg hempty] at hmem ⊢
        by_cases hm : core.malloc = false
        · rw [if_pos hm] at hmem; simp at hmem
        · rw [if_neg hm] at hmem ⊢
          by_cases hparse : (ParseConfig host ⟨core.scheduler_fullscreen, [], -1, -1, -1⟩
              config_path).1 ≠ VLC_SUCCESS
          · rw [if_pos hparse] at hmem
            simp only [List.mem_append, List.mem_singleton] at hmem
            rcases hmem with h | h
            · exact absurd h (hnot _)
            · simp at h
          · rw [if_neg hparse] at hmem ⊢
            by_cases htimer : core.vlc_timer_create ≠ 0
            · rw [if_pos htimer] at hmem
              simp only [List.mem_append, List.mem_cons, List.mem_singleton] at hmem
              rcases hmem with h | h
              · exact absurd h (hnot _)
              · simp at h
            · rw [if_neg htimer]
              exact ⟨config_path, rfl, not_not.mp hparse, rfl⟩

/-- C19, on three hosts: no config path, a config path whose file does not exist, and the
file `commentsOnlyConfig` without a valid entry. `Open` fails each time without a call to
the timer, and on `exampleHost`, where it succeeds, the timer is armed. -/
theorem Open_failure_example :
    (((Open (coreWith none) exampleHost).1 = VLC_EGENERIC ∨
        (Open (coreWith none) exampleHost).1 = VLC_ENOMEM) ∧
      (Open (coreWith none) exampleHost).2.1 = none ∧
      timerEvents (Open (coreWith none) exampleHost).2.2 = []) ∧
    (((Open (coreWith (some configPath)) (hostWithFiles [])).1 = VLC_EGENERIC ∨
        (Open (coreWith (some configPath)) (hostWithFiles [])).1 = VLC_ENOMEM) ∧
      (Open (coreWith (some configPath)) (hostWithFiles [])).2.1 = none ∧
      timerEvents (Open (coreWith (some configPath)) (hostWithFiles [])).2.2 = []) ∧
    (((Open (coreWith (some configPath)) (configHost commentsOnlyConfig)).1 = VLC_EGENERIC ∨
        (Open (coreWith (some configPath)) (configHost commentsOnlyConfig)).1 = VLC_ENOMEM) ∧
      (Open (coreWith (some configPath)) (configHost commentsOnlyConfig)).2.1 = none ∧
      timerEvents (Open (coreWith (some configPath)) (configHost commentsOnlyConfig)).2.2 = []) ∧
    timerEvents (Open (coreWith (some configPath)) exampleHost).2.2
      = [.vlc_timer_create, .vlc_timer_schedule 1 30000000] :=
  ⟨(Open_failure (coreWith none) exampleHost).1 (Or.inl rfl),
   (Open_failure (coreWith (some configPath)) (hostWithFiles [])).1
     (Or.inr (Or.inr ⟨configPath, rfl, Or.inl (by decide)⟩)),
   (Open_failure (coreWith (some configPath)) (configHost commentsOnlyConfig)).1
     (Or.inr (Or.inr ⟨configPath, rfl, Or.inr (by decide)⟩)),
   by decide⟩

/-! ## The polling interval -/

/-- C21: the poll interval `SCHED_POLL_SEC` is strictly less than 60 seconds (and so is
the interval `Open` gives to the timer, in microseconds), and with ticks at
`t0 + n * SCHED_POLL_SEC` seconds, `n ≥ 0`, every wall-clock minute `[60k, 60k + 60)` that
begins at or after `t0` contains at least one tick. -/
theorem poll_interval_covers_minutes (t0 : ℚ) (k : ℤ) (hk : t0 ≤ 60 * (k : ℚ)) :
    SCHED_POLL_SEC < 60 ∧
    VLC_TICK_FROM_SEC SCHED_POLL_SEC < VLC_TICK_FROM_SEC 60 ∧
    ∃ n : ℕ, 60 * (k : ℚ) ≤ tickTime t0 n ∧ tickTime t0 n < 60 * (k : ℚ) + 60 := by
  refine ⟨by decide, by decide, ⌈(60 * (k : ℚ) - t0) / 30⌉₊, ?_, ?_⟩
  · have h1 : (60 * (k : ℚ) - t0) / 30 ≤ (⌈(60 * (k : ℚ) - t0) / 30⌉₊ : ℚ) := Nat.le_ceil _
    have h30 : ((SCHED_POLL_SEC : ℕ) : ℚ) = 30 := by norm_num [SCHED_POLL_SEC]
    unfold tickTime
    rw [h30]
    linarith
  · have h0 : (0 : ℚ) ≤ (60 * (k : ℚ) - t0) / 30 := by
      apply div_nonneg <;> linarith
    have h1 : (⌈(60 * (k : ℚ) - t0) / 30⌉₊ : ℚ) < (60 * (k : ℚ) - t0) / 30 + 1 :=
      Nat.ceil_lt_add_one h0
    have h30 : ((SCHED_POLL_SEC : ℕ) : ℚ) = 30 := by norm_num [SCHED_POLL_SEC]
    unfold tickTime
    rw [h30]
    linarith

/-- C21, on an example: first tick 12.5 seconds into a minute; the minute that begins 47.5
seconds later contains the tick number 2. -/
theorem poll_interval_covers_minutes_example :
    ((25 : ℚ) / 2 ≤ 60 * ((1 : ℤ) : ℚ)) ∧
    (60 * ((1 : ℤ) : ℚ) ≤ tickTime (25 / 2) 2 ∧ tickTime (25 / 2) 2 < 60 * ((1 : ℤ) : ℚ) + 60) ∧
    ∃ n : ℕ, 60 * ((1 : ℤ) : ℚ) ≤ tickTime (25 / 2) n ∧
      tickTime (25 / 2) n < 60 * ((1 : ℤ) : ℚ) + 60 :=
  ⟨by norm_num, by norm_num [tickTime, SCHED_POLL_SEC],
   (poll_interval_covers_minutes (25 / 2) 1 (by norm_num)).2.2⟩

/-! ## The trigger state over a run -/

theorem ParseConfig_keeps_trigger (host : Host) (sys : intf_sys_t) (path : List Char) :
    triggerTime (ParseConfig host sys path).2.1 = triggerTime sys := by
  unfold ParseConfig
  cases host.fopen path with
  | none => rfl
  | some content =>
    simp only
    split <;> rfl

/-- The state `Open` hands to the timer has the sentinel as its trigger state. -/
theorem Open_trigger_sentinel (core : Core) (host : Host) (sys0 : intf_sys_t)
    (hopen : (Open core host).2.1 = some sys0) : triggerTime sys0 = ⟨-1, -1, -1⟩ := by
  unfold Open at hopen
  cases hcfg : core.scheduler_config with
  | none => rw [hcfg] at hopen; simp at hopen
  | some config_path =>
    rw [hcfg] at hopen
    simp only at hopen
    split at hopen
    · simp at hopen
    · split at hopen
      · simp at hopen
      · split at hopen
        · simp at hopen
        · split at hopen
          · simp at hopen
          · simp only [Option.some.injEq] at hopen
            rw [← hopen, ParseConfig_keeps_trigger]
            rfl

/-- A tick keeps the schedule store and the validity of the trigger state. -/
theorem TimerCallback_keeps_valid (host : Host) (sys : intf_sys_t) (tm_now : tm)
    (hvalid : triggerValid sys = true) :
    triggerValid (TimerCallback host sys tm_now).1 = true ∧
    (TimerCallback host sys tm_now).1.entries = sys.entries := by
  by_cases hmatch : ∃ e ∈ sys.entries, entryMatches tm_now e = true
  · obtain ⟨pre, e, post, h1, h2, h3⟩ := exists_first_match tm_now sys.entries hmatch
    by_cases hfresh : alreadyTriggered sys tm_now = true
    · obtain ⟨e2, _, h4⟩ := TimerCallback_of_match host sys tm_now hmatch
      rw [h4, if_pos hfresh]
      exact ⟨hvalid, rfl⟩
    · have hfresh2 : alreadyTriggered sys tm_now = false := by simpa using hfresh
      rw [TimerCallback_fires host sys tm_now pre post e h1 h2 h3 hfresh2]
      refine ⟨?_, rfl⟩
      unfold triggerValid
      rw [Bool.or_eq_true]
      right
      rw [List.any_eq_true]
      refine ⟨e, ?_, h3⟩
      show e ∈ sys.entries
      rw [h1]; simp
  · have hno : ∀ e ∈ sys.entries, entryMatches tm_now e = false := by
      intro e he
      by_contra hc
      exact hmatch ⟨e, he, by simpa using hc⟩
    have hsame : TimerCallback host sys tm_now = (sys, []) := by
      unfold TimerCallback
      have h := TimerCallback_loop_skip host sys tm_now sys.entries [] hno
      rw [List.append_nil] at h
      rw [h]; rfl
    rw [hsame]
    exact ⟨hvalid, rfl⟩

theorem runTicks_keeps_valid (sys : intf_sys_t) (ticks : List (Host × tm))
    (hvalid : triggerValid sys = true) :
    triggerValid (runTicks sys ticks) = true ∧ (runTicks sys ticks).entries = sys.entries := by
  induction ticks generalizing sys with
  | nil => exact ⟨hvalid, rfl⟩
  | cons t ts ih =>
    have h := TimerCallback_keeps_valid t.1 sys t.2 hvalid
    have h2 := ih (TimerCallback t.1 sys t.2).1 h.1
    exact ⟨h2.1, h2.2.trans h.2⟩

/-- C22: in every state reachable from the state `Open` hands to the timer (trigger state
(-1, -1, -1)) by any sequence of ticks at any times and on any hosts, the trigger state is
either the sentinel (-1, -1, -1) or the (day, hour, minute) of some entry of the schedule
store, and the schedule store is the one `Open` parsed: a tick never records a time for
which no entry exists. -/
theorem reachable_trigger_valid (core : Core) (host : Host) (sys0 : intf_sys_t)
    (hopen : (Open core host).2.1 = some sys0) (ticks : List (Host × tm)) :
    triggerTime sys0 = ⟨-1, -1, -1⟩ ∧
    triggerValid (runTicks sys0 ticks) = true ∧
    (runTicks sys0 ticks).entries = sys0.entries := by
  have hs := Open_trigger_sentinel core host sys0 hopen
  refine ⟨hs, ?_⟩
  apply runTicks_keeps_valid
  unfold triggerValid
  rw [Bool.or_eq_true]
  left
  unfold triggerTime at hs
  simp only [tm.mk.injEq] at hs
  simp [alreadyTriggered, hs.1, hs.2.1, hs.2.2]

/-- C22, on the scenario: after `Open` on `exampleHost`, ticks at Wednesday 10:00, Monday
22:30 and Wednesday 10:00 leave the trigger state at Monday 22:30, the time of an
entry. -/
theorem reachable_trigger_valid_example :
    (Open (coreWith (some configPath)) exampleHost).2.1 = some (initialSysOf exampleHost) ∧
    triggerTime (runTicks (initialSysOf exampleHost)
      [(exampleHost, wednesday1000), (exampleHost, monday2230), (exampleHost, wednesday1000)])
      = monday2230 ∧
    triggerValid (runTicks (initialSysOf exampleHost)
      [(exampleHost, wednesday1000), (exampleHost, monday2230), (exampleHost, wednesday1000)])
      = true :=
  ⟨by decide, by decide,
   (reachable_trigger_valid (coreWith (some configPath)) exampleHost (initialSysOf exampleHost)
     (by decide)
     [(exampleHost, wednesday1000), (exampleHost, monday2230), (exampleHost, wednesday1000)]).2.1⟩

/-! ## ParseConfig: the invariant of the stored path -/

/-- The `m3u_path` that `sscanf` fills when it matches four fields is not empty. -/
theorem sscanf_m3u_path_ne_nil (p : List Char) (h : (sscanf p).matched = 4) :
    (sscanf p).m3u_path ≠ [] := by
  unfold sscanf at h ⊢
  cases h1 : scanWord 7 p with
  | none => rw [h1] at h; simp at h
  | some r1 =>
    obtain ⟨d, s1⟩ := r1
    rw [h1] at h
    simp only at h ⊢
    cases h2 : scanInt (skipSpace s1) with
    | none => rw [h2] at h; simp at h
    | some r2 =>
      obtain ⟨hour, s2⟩ := r2
      rw [h2] at h
      simp only at h ⊢
      cases s2 with
      | nil => simp at h
      | cons c s3 =>
        by_cases hc : c = ':'
        · subst hc
          simp only at h ⊢
          cases h3 : scanInt s3 with
          | none => rw [h3] at h; simp at h
          | some r3 =>
            obtain ⟨minute, s4⟩ := r3
            rw [h3] at h
            simp only at h ⊢
            unfold scanSet at h ⊢
            simp only at h ⊢
            by_cases hw : ((skipSpace s4).takeWhile (fun c => c != '\n')).take 511 = []
            · rw [if_pos hw] at h; simp at h
            · rw [if_neg hw]
              exact hw
        · exfalso
          revert h
          split
          · rename_i heq
            simp only [List.cons.injEq] at heq
            exact absurd heq.1 hc
          · simp

/-- A line with a day and a time and only white space after them matches three fields. -/
theorem sscanf_matched_three (p : List Char) (ht : hasDayAndTime p = true)
    (hws : ∀ ch ∈ afterTime p, isspace ch = true) : (sscanf p).matched = 3 := by
  unfold hasDayAndTime at ht
  unfold afterTime at hws
  unfold sscanf
  cases h1 : scanWord 7 p with
  | none => rw [h1] at ht; simp at ht
  | some r1 =>
    obtain ⟨d, s1⟩ := r1
    rw [h1] at ht hws
    simp only at ht hws ⊢
    cases h2 : scanInt (skipSpace s1) with
    | none => rw [h2] at ht; simp at ht
    | some r2 =>
      obtain ⟨hour, s2⟩ := r2
      rw [h2] at ht hws
      simp only at ht hws ⊢
      cases s2 with
      | nil => simp at ht
      | cons c s3 =>
        by_cases hc : c = ':'
        · subst hc
          simp only at ht hws ⊢
          cases h3 : scanInt s3 with
          | none => rw [h3] at ht; simp at ht
          | some r3 =>
            obtain ⟨minute, s4⟩ := r3
            rw [h3] at hws
            simp only at hws ⊢
            have hskip : skipSpace s4 = [] := by
              unfold skipSpace
              rw [List.dropWhile_eq_nil_iff]
              exact hws
            unfold scanSet
            rw [hskip]
            rfl
        · exfalso
          revert ht
          split
          · rename_i heq
            simp only [List.cons.injEq] at heq
            exact absurd heq.1 hc
          · simp

theorem isBlank_eq_false_iff (ch : Char) : isBlank ch = false ↔ ch ≠ ' ' ∧ ch ≠ '\t' := by
  simp [isBlank]

theorem not_isBlank_of_not_isspace (c : Char) (h : isspace c = false) : isBlank c = false := by
  cases hb : isBlank c with
  | false => rfl
  | true =>
    have : c = ' ' ∨ c = '\t' := by simpa [isBlank] using hb
    rcases this with h1 | h1 <;> subst h1 <;> simp [isspace] at h

/-- Trimming the trailing blanks of a string that starts with a non-blank keeps its first
character and leaves a last character that is not a blank. -/
theorem trimTrailing_cons (c : Char) (u : List Char) (hc : isBlank c = false) :
    ∃ v, trimTrailing (c :: u) = c :: v ∧ v.length ≤ u.length ∧
      ∀ ch, (c :: v).getLast? = some ch → isBlank ch = false := by
  have hdef : trimTrailing (c :: u) = List.rdropWhile isBlank (c :: u) := rfl
  have hne : List.rdropWhile isBlank (c :: u) ≠ [] := by
    intro h
    rw [List.rdropWhile_eq_nil_iff] at h
    have := h c (by simp)
    rw [hc] at this
    exact Bool.false_ne_true this
  have hpre : List.rdropWhile isBlank (c :: u) <+: c :: u := List.rdropWhile_prefix isBlank (c :: u)
  have hlast := List.rdropWhile_last_not isBlank (c :: u) hne
  cases hr : List.rdropWhile isBlank (c :: u) with
  | nil => exact absurd hr hne
  | cons c2 v =>
    rw [hr] at hpre
    obtain ⟨t, ht⟩ := hpre
    simp only [List.cons_append, List.cons.injEq] at ht
    obtain ⟨h1, h2⟩ := ht
    subst h1
    refine ⟨v, by rw [hdef, hr], ?_, ?_⟩
    · rw [← h2]; simp
    · intro ch hch
      have hl : (List.rdropWhile isBlank (c2 :: u)).getLast hne = ch := by
        have h3 : (List.rdropWhile isBlank (c2 :: u)).getLast? = some ch := by rw [hr]; exact hch
        rw [List.getLast?_eq_getLast _ hne] at h3
        exact Option.some.inj h3
      rw [hl] at hlast
      simpa using hlast

/-- The path stored from a non-empty `m3u_path` that starts after skipped white space. -/
theorem storePath_invariant (x : List Char)
    (hne : ((skipSpace x).takeWhile (fun c => c != '\n')).take 511 ≠ []) :
    ∃ c v, storePath (((skipSpace x).takeWhile (fun c => c != '\n')).take 511) = c :: v ∧
      v.length ≤ 510 ∧ isBlank c = false ∧
      ∀ ch, (c :: v).getLast? = some ch → isBlank ch = false := by
  cases hs : skipSpace x with
  | nil => rw [hs] at hne; simp at hne
  | cons c t =>
    have hsp : isspace c = false := by
      have h := List.head_dropWhile_not isspace x (by
        intro h0
        unfold skipSpace at hs
        rw [h0] at hs
        simp at hs)
      unfold skipSpace at hs
      simp only [hs, List.head_cons] at h
      exact h
    have hb := not_isBlank_of_not_isspace c hsp
    rw [hs] at hne
    by_cases hq : (c != '\n') = true
    · rw [List.takeWhile_cons_of_pos (p := fun c => c != '\n') hq] at hne ⊢
      rw [List.take_succ_cons]
      unfold storePath skipBlank
      rw [List.dropWhile_cons_of_neg (by simp [hb])]
      have h511 : SCHED_MAX_PATH - 1 = 511 := rfl
      rw [h511, List.take_succ_cons]
      obtain ⟨v, hv1, hv2, hv3⟩ := trimTrailing_cons c
        (List.take 510 (List.take 510 (List.takeWhile (fun c => c != '\n') t))) hb
      refine ⟨c, v, hv1, ?_, hb, hv3⟩
      have : (List.take 510 (List.take 510 (List.takeWhile (fun c => c != '\n') t))).length
          ≤ 510 := by
        rw [List.length_take]; exact Nat.min_le_left _ _
      omega
    · rw [List.takeWhile_cons_of_neg (p := fun c => c != '\n') hq] at hne
      simp at hne

/-- C23: every entry accepted by `ParseConfig` has a non-empty path of at most 511
characters whose first and last characters are neither a space nor a tab; and a data line
with a day and a time but no path, or only white space after the time, is rejected as
malformed, not stored with an empty path. -/
theorem ParseConfig_path_invariant (host : Host) (sys : intf_sys_t) (path : List Char) :
    (∀ e ∈ (ParseConfig host sys path).2.1.entries,
      e.path ≠ [] ∧ e.path.length ≤ 511 ∧
      (∀ ch, e.path.head? = some ch → ch ≠ ' ' ∧ ch ≠ '\t') ∧
      (∀ ch, e.path.getLast? = some ch → ch ≠ ' ' ∧ ch ≠ '\t')) ∧
    (∀ line c p, dataLine line = c :: p → c ≠ '#' → hasDayAndTime (c :: p) = true →
      (∀ ch ∈ afterTime (c :: p), isspace ch = true) →
      parseLine line = .malformed ∧ lineEntry line = none) := by
  constructor
  · intro e he
    have hbuf : ∃ buf, lineEntry buf = some e := by
      cases hopen : host.fopen path with
      | none =>
        have hnil : (ParseConfig host sys path).2.1.entries = [] := by
          unfold ParseConfig; rw [hopen]
        rw [hnil] at he
        simp at he
      | some content =>
        rw [ParseConfig_entries host sys path content hopen] at he
        obtain ⟨buf, _, hb⟩ := List.mem_filterMap.mp (List.mem_of_mem_take he)
        exact ⟨buf, hb⟩
    obtain ⟨buf, hb⟩ := hbuf
    obtain ⟨c, p, _, _, hm, _, _, _, _, _, heq⟩ := (lineEntry_eq_some_iff buf e).mp hb
    have hpath : e.path = storePath (sscanf (c :: p)).m3u_path := by rw [heq]
    have hne := sscanf_m3u_path_ne_nil (c :: p) hm
    rw [sscanf_m3u_path (c :: p) hm] at hne hpath
    obtain ⟨c2, v, hv1, hv2, hv3, hv4⟩ := storePath_invariant _ hne
    rw [hpath, hv1]
    refine ⟨by simp, by simp only [List.length_cons]; omega, ?_, ?_⟩
    · intro ch hch
      simp only [List.head?_cons, Option.some.injEq] at hch
      subst hch
      exact (isBlank_eq_false_iff _).mp hv3
    · intro ch hch
      exact (isBlank_eq_false_iff _).mp (hv4 ch hch)
  · intro line c p hline hc ht hws
    have hm := sscanf_matched_three (c :: p) ht hws
    have hparse : parseLine line = .malformed := by
      have hline2 : skipBlank (stripNewline (cstr line)) = c :: p := hline
      unfold parseLine
      rw [hline2]
      simp only
      rw [if_neg hc, if_pos (by rw [hm]; decide)]
    refine ⟨hparse, ?_⟩
    unfold lineEntry
    rw [hparse]

/-- C23, on the schedule of `exampleHost` and on the line `WED 10:00` followed by blanks:
the stored path `/x.m3u` is not empty and the line without a path is malformed. -/
theorem ParseConfig_path_invariant_example :
    (("/x.m3u".toList ≠ [] ∧ "/x.m3u".toList.length ≤ 511 ∧
      (∀ ch, "/x.m3u".toList.head? = some ch → ch ≠ ' ' ∧ ch ≠ '\t') ∧
      (∀ ch, "/x.m3u".toList.getLast? = some ch → ch ≠ ' ' ∧ ch ≠ '\t'))) ∧
    (parseLine "WED 10:00  \t\n".toList = .malformed ∧
      lineEntry "WED 10:00  \t\n".toList = none) :=
  ⟨(ParseConfig_path_invariant exampleHost (initialSys true) configPath).1
     ⟨1, 22, 30, "/x.m3u".toList⟩ (by decide),
   (ParseConfig_path_invariant exampleHost (initialSys true) configPath).2
     "WED 10:00  \t\n".toList 'W' "ED 10:00  \t".toList (by decide) (by decide) (by decide)
     (by decide)⟩

/-! ## The scanner and the fields of a line -/

theorem foldl_digits (ds : List Char) (acc : Nat) :
    ds.foldl (fun acc c => 10 * acc + (c.toNat - '0'.toNat)) acc
      = acc * 10 ^ ds.length + decimalValue ds := by
  induction ds generalizing acc with
  | nil => simp [decimalValue]
  | cons c cs ih =>
    rw [List.foldl_cons, ih, decimalValue, List.length_cons, pow_succ]
    ring

theorem digitsValue_eq (ds : List Char) : digitsValue ds = decimalValue ds := by
  unfold digitsValue
  rw [foldl_digits]
  simp

theorem drop_length_takeWhile (q : Char → Bool) (l : List Char) :
    l.drop (l.takeWhile q).length = l.dropWhile q := by
  induction l with
  | nil => rfl
  | cons c l ih =>
    by_cases hc : q c = true
    · rw [List.takeWhile_cons_of_pos hc, List.dropWhile_cons_of_pos hc]
      simpa using ih
    · rw [List.takeWhile_cons_of_neg hc, List.dropWhile_cons_of_neg hc]
      rfl

theorem storeInt_of_fits (v : Int) (h1 : -(2 ^ 31) ≤ v) (h2 : v < 2 ^ 31) : storeInt v = v := by
  unfold storeInt
  have e63 : (2 : Int) ^ 63 = 9223372036854775808 := by norm_num
  have e32 : (2 : Int) ^ 32 = 4294967296 := by norm_num
  have e31 : (2 : Int) ^ 31 = 2147483648 := by norm_num
  rw [e31] at h1 h2
  simp only [e63, e32, e31]
  have hmin : min v (9223372036854775808 - 1) = v := by
    apply min_eq_left; omega
  have hmax : max (-9223372036854775808) v = v := by
    apply max_eq_right; omega
  rw [hmin, hmax]
  split <;> omega

theorem specInteger_of_digit (s : List Char) (c : Char) (r : List Char)
    (h : s.dropWhile isspace = c :: r) (hm : c ≠ '-') (hp : c ≠ '+') :
    specInteger s =
      if (c :: r).takeWhile isdigit = [] then none
      else some ((decimalValue ((c :: r).takeWhile isdigit) : Int), (c :: r).dropWhile isdigit) := by
  unfold specInteger
  rw [h]
  split
  · rename_i heq; simp only [List.cons.injEq] at heq; exact absurd heq.1 hm
  · rename_i heq; simp only [List.cons.injEq] at heq; exact absurd heq.1 hp
  · rfl

/-- `%d` reads a decimal integer and stores it as an `int`. -/
theorem scanInt_eq (s : List Char) :
    scanInt s = (specInteger s).map (fun v => (storeInt v.1, v.2)) := by
  cases ht : s.dropWhile isspace with
  | nil =>
    unfold scanInt specInteger skipSpace
    rw [ht]
    simp
  | cons c r =>
    by_cases hm : c = '-'
    · subst hm
      unfold scanInt specInteger skipSpace
      rw [ht]
      simp only [digitsValue_eq, drop_length_takeWhile]
      split <;> simp
    · by_cases hp : c = '+'
      · subst hp
        unfold scanInt specInteger skipSpace
        rw [ht]
        simp only [digitsValue_eq, drop_length_takeWhile]
        split <;> simp
      · rw [specInteger_of_digit s c r ht hm hp]
        unfold scanInt skipSpace
        rw [ht]
        have h1 : (match c :: r with | '-' :: _ => true | _ => false) = false := by
          split
          · rename_i heq; simp only [List.cons.injEq] at heq; exact absurd heq.1 hm
          · rfl
        have h2 : (match c :: r with | '-' :: r => r | '+' :: r => r | r => r) = c :: r := by
          split
          · rename_i heq; simp only [List.cons.injEq] at heq; exact absurd heq.1 hm
          · rename_i heq; simp only [List.cons.injEq] at heq; exact absurd heq.1 hp
          · rfl
        simp only [h1, h2, digitsValue_eq, drop_length_takeWhile]
        split <;> simp

theorem specInteger_skipSpace (s : List Char) : specInteger (skipSpace s) = specInteger s := by
  unfold specInteger skipSpace
  rw [List.dropWhile_idempotent]

theorem specInteger_suffix (s r : List Char) (v : Int) (h : specInteger s = some (v, r)) :
    r <:+ s := by
  apply scanInt_suffix s r (storeInt v)
  rw [scanInt_eq, h]
  rfl

theorem skipSpace_head (p : List Char) (c : Char) (q : List Char)
    (h : skipSpace p = c :: q) : isspace c = false := by
  have h2 := List.head_dropWhile_not isspace p (by unfold skipSpace at h; rw [h]; simp)
  unfold skipSpace at h
  simpa [h] using h2

theorem firstWord_ne_nil (p : List Char) (h : skipSpace p ≠ []) :
    firstWord (skipSpace p) ≠ [] := by
  cases ht : skipSpace p with
  | nil => exact absurd ht h
  | cons c q =>
    have hc := skipSpace_head p c q ht
    unfold firstWord
    rw [List.takeWhile_cons_of_pos (by simp [hc])]
    simp

theorem afterFirstWord_suffix (t : List Char) : afterFirstWord t <:+ t :=
  List.dropWhile_suffix _

/-- `%7s` on a text whose first word has at most 7 characters reads the word. -/
theorem scanWord_of_fits (p : List Char) (hW : (firstWord (skipSpace p)).length ≤ 7) :
    scanWord 7 p =
      if firstWord (skipSpace p) = [] then none
      else some (firstWord (skipSpace p), afterFirstWord (skipSpace p)) := by
  unfold scanWord
  have h1 : ((skipSpace p).takeWhile (fun c => !isspace c)).take 7 = firstWord (skipSpace p) := by
    unfold firstWord at hW ⊢
    exact List.take_of_length_le hW
  simp only [h1]
  split
  · rfl
  · unfold firstWord afterFirstWord
    rw [drop_length_takeWhile]

/-- `%7s` reads at most the first 7 characters of the first word. -/
theorem scanWord_word (p w r : List Char) (h : scanWord 7 p = some (w, r)) :
    w = (firstWord (skipSpace p)).take 7 := by
  unfold scanWord at h
  simp only at h
  split at h
  · simp at h
  · simp only [Option.some.injEq, Prod.mk.injEq] at h
    rw [← h.1]
    rfl

theorem sscanf_day_str (p : List Char) (h : (sscanf p).matched = 4) :
    (sscanf p).day_str = (firstWord (skipSpace p)).take 7 := by
  unfold sscanf at h ⊢
  cases h1 : scanWord 7 p with
  | none => rw [h1] at h; simp at h
  | some r1 =>
    obtain ⟨d, s1⟩ := r1
    have hd := scanWord_word p d s1 h1
    simp only
    clear h
    repeat' split
    all_goals exact hd

/-- `sscanf` on a text that tokenizes into the four fields, with a first word of at most 7
characters: it matches four, reads the word, the hour and the minute, and the text after
the minute without its leading white space, up to 511 characters. -/
theorem sscanf_of_textFields (p : List Char) (hW : (firstWord (skipSpace p)).length ≤ 7)
    (hnl : '\n' ∉ p) (w : List Char) (hour minute : Int) (rest : List Char)
    (hf : textFields (skipSpace p) = some (w, hour, minute, rest)) :
    sscanf p = ⟨4, w, storeInt hour, storeInt minute, (rest.dropWhile isspace).take 511⟩ := by
  unfold textFields at hf
  cases ht : specTime (afterFirstWord (skipSpace p)) with
  | none => rw [ht] at hf; simp at hf
  | some tm3 =>
    obtain ⟨h0, m0, r0⟩ := tm3
    rw [ht] at hf
    simp only at hf
    by_cases hr : r0.dropWhile isspace = []
    · rw [if_pos hr] at hf; simp at hf
    · rw [if_neg hr] at hf
      simp only [Option.some.injEq, Prod.mk.injEq] at hf
      obtain ⟨hw, hh, hm, hrest⟩ := hf
      subst hh hm hrest
      unfold specTime at ht
      cases hi : specInteger (afterFirstWord (skipSpace p)) with
      | none => rw [hi] at ht; simp at ht
      | some v1 =>
        obtain ⟨h1, s2⟩ := v1
        rw [hi] at ht
        cases s2 with
        | nil => simp at ht
        | cons c s3 =>
          by_cases hc : c = ':'
          · subst hc
            simp only at ht
            cases hj : specInteger s3 with
            | none => rw [hj] at ht; simp at ht
            | some v2 =>
              obtain ⟨m1, r1⟩ := v2
              rw [hj] at ht
              simp only [Option.some.injEq, Prod.mk.injEq] at ht
              obtain ⟨hh, hm, hrest⟩ := ht
              subst hh hm hrest
              have hne : skipSpace p ≠ [] := by
                intro h0
                rw [h0] at hi
                simp [afterFirstWord, specInteger] at hi
              have hwne := firstWord_ne_nil p hne
              have hsuf : r1 <:+ p :=
                (specInteger_suffix s3 r1 m1 hj).trans ((List.suffix_cons _ _).trans
                  ((specInteger_suffix _ _ h1 hi).trans ((afterFirstWord_suffix _).trans
                    (List.dropWhile_suffix _))))
              have hnl2 : ∀ x ∈ skipSpace r1, (x != '\n') = true := by
                intro x hx
                have : x ≠ '\n' := fun hx2 =>
                  hnl (hsuf.subset ((List.dropWhile_suffix _).subset (hx2 ▸ hx)))
                simpa using this
              unfold sscanf
              rw [scanWord_of_fits p hW, if_neg hwne]
              simp only
              rw [scanInt_eq, specInteger_skipSpace, hi]
              simp only [Option.map_some']
              rw [scanInt_eq, hj]
              simp only [Option.map_some']
              unfold scanSet
              simp only
              rw [List.takeWhile_eq_self_iff.mpr hnl2]
              have hne2 : (skipSpace r1).take 511 ≠ [] := by
                intro h0
                apply hr
                cases hs : skipSpace r1 with
                | nil => exact hs
                | cons a b => rw [hs] at h0; simp at h0
              rw [if_neg hne2, hw]
              rfl
          · exfalso
            revert ht
            split
            · rename_i heq
              simp only [Option.some.injEq, Prod.mk.injEq, List.cons.injEq] at heq
              exact absurd heq.2.1 hc
            · simp

/-- `sscanf` on a text that does not tokenize into the four fields, with a first word of
at most 7 characters: it matches fewer than four. -/
theorem sscanf_of_textFields_none (p : List Char)
    (hW : (firstWord (skipSpace p)).length ≤ 7)
    (hf : textFields (skipSpace p) = none) : (sscanf p).matched ≠ 4 := by
  unfold sscanf
  rw [scanWord_of_fits p hW]
  by_cases hw : firstWord (skipSpace p) = []
  · rw [if_pos hw]
    simp
  · rw [if_neg hw]
    simp only
    rw [scanInt_eq, specInteger_skipSpace]
    cases hi : specInteger (afterFirstWord (skipSpace p)) with
    | none => simp
    | some v1 =>
      obtain ⟨h1, s2⟩ := v1
      simp only [Option.map_some']
      split
      · rename_i s3
        rw [scanInt_eq]
        cases hj : specInteger s3 with
        | none => simp
        | some v2 =>
          obtain ⟨m1, r1⟩ := v2
          simp only [Option.map_some']
          have hr : r1.dropWhile isspace = [] := by
            by_contra hne
            unfold textFields specTime at hf
            rw [hi] at hf
            simp only at hf
            rw [hj] at hf
            simp only at hf
            rw [if_neg hne] at hf
            simp at hf
          unfold scanSet skipSpace
          rw [hr]
          simp
      · simp

/-- The value of `DayFromString`, through the day a word names. -/
theorem DayFromString_eq (token : List Char) :
    DayFromString token = (specDay token).getD (-1) := by
  have hk : ∀ d ∈ days, (strncasecmp token d 3 = 0 ↔ dayKey token = d) := fun d hd =>
    strncasecmp_eq_zero_iff 3 token d (days_upper d hd).1 (days_upper d hd).2
  have h0 := hk ['S', 'U', 'N'] (by decide)
  have h1 := hk ['M', 'O', 'N'] (by decide)
  have h2 := hk ['T', 'U', 'E'] (by decide)
  have h3 := hk ['W', 'E', 'D'] (by decide)
  have h4 := hk ['T', 'H', 'U'] (by decide)
  have h5 := hk ['F', 'R', 'I'] (by decide)
  have h6 := hk ['S', 'A', 'T'] (by decide)
  have hval : DayFromString token =
      if dayKey token = ['S', 'U', 'N'] then 0
      else if dayKey token = ['M', 'O', 'N'] then 1
      else if dayKey token = ['T', 'U', 'E'] then 2
      else if dayKey token = ['W', 'E', 'D'] then 3
      else if dayKey token = ['T', 'H', 'U'] then 4
      else if dayKey token = ['F', 'R', 'I'] then 5
      else if dayKey token = ['S', 'A', 'T'] then 6
      else -1 := by
    simp only [DayFromString, days, DayFromString.loop, h0, h1, h2, h3, h4, h5, h6]
    rfl
  rw [hval]
  unfold specDay
  generalize dayKey token = k
  by_cases e0 : k = ['S', 'U', 'N']
  · subst e0; decide
  by_cases e1 : k = ['M', 'O', 'N']
  · subst e1; decide
  by_cases e2 : k = ['T', 'U', 'E']
  · subst e2; decide
  by_cases e3 : k = ['W', 'E', 'D']
  · subst e3; decide
  by_cases e4 : k = ['T', 'H', 'U']
  · subst e4; decide
  by_cases e5 : k = ['F', 'R', 'I']
  · subst e5; decide
  by_cases e6 : k = ['S', 'A', 'T']
  · subst e6; decide
  rw [if_neg e0, if_neg e1, if_neg e2, if_neg e3, if_neg e4, if_neg e5, if_neg e6]
  have hmem : k ∉ days := by
    intro hm
    simp only [days, List.mem_cons, List.mem_singleton, List.not_mem_nil, or_false] at hm
    rcases hm with h | h | h | h | h | h | h
    · exact e0 h
    · exact e1 h
    · exact e2 h
    · exact e3 h
    · exact e4 h
    · exact e5 h
    · exact e6 h
  rw [if_neg hmem]
  rfl

theorem specDay_nonneg (token : List Char) (d : Int) (h : specDay token = some d) : 0 ≤ d := by
  unfold specDay at h
  split at h
  · simp only [Option.some.injEq] at h
    rw [← h]
    exact Int.natCast_nonneg _
  · simp at h

theorem DayFromString_nonneg_iff (token : List Char) :
    0 ≤ DayFromString token ↔ (specDay token).isSome = true := by
  rw [DayFromString_eq]
  cases h : specDay token with
  | none => simp
  | some d => simpa using specDay_nonneg token d h

theorem dayKey_take (token : List Char) : dayKey (token.take 7) = dayKey token := by
  unfold dayKey
  rw [List.take_take]
  rfl

theorem specDay_take (token : List Char) : specDay (token.take 7) = specDay token := by
  unfold specDay
  rw [dayKey_take]

theorem dayKey_length (token : List Char) (h : dayKey token ∈ days) : 3 ≤ token.length := by
  have hl := (days_upper _ h).1
  simp only [dayKey, List.length_map, List.length_take] at hl
  omega

theorem specDay_append (a b : List Char) (h : (specDay a).isSome = true) :
    specDay (a ++ b) = specDay a := by
  have hmem : dayKey a ∈ days := by
    unfold specDay at h
    split at h
    · assumption
    · simp at h
  have hl := dayKey_length a hmem
  have hk : dayKey (a ++ b) = dayKey a := by
    unfold dayKey
    rw [List.take_append_of_le_length hl]
  unfold specDay
  rw [hk]

theorem scanWord_skipSpace (p : List Char) : scanWord 7 (skipSpace p) = scanWord 7 p := by
  unfold scanWord skipSpace
  rw [List.dropWhile_idempotent]

theorem sscanf_skipSpace (p : List Char) : sscanf (skipSpace p) = sscanf p := by
  unfold sscanf
  rw [scanWord_skipSpace]

theorem isspace_of_isBlank (c : Char) (h : isBlank c = true) : isspace c = true := by
  have : c = ' ' ∨ c = '\t' := by simpa [isBlank] using h
  rcases this with h | h <;> subst h <;> decide

theorem skipSpace_skipBlank (s : List Char) : skipSpace (skipBlank s) = skipSpace s := by
  induction s with
  | nil => rfl
  | cons c s ih =>
    by_cases hb : isBlank c = true
    · have hs := isspace_of_isBlank c hb
      unfold skipSpace skipBlank at ih ⊢
      rw [List.dropWhile_cons_of_pos hb, List.dropWhile_cons_of_pos hs]
      exact ih
    · unfold skipBlank
      rw [List.dropWhile_cons_of_neg hb]

theorem storePath_scanned (r : List Char) :
    storePath ((r.dropWhile isspace).take 511) = specStoredPath r := by
  unfold storePath specStoredPath
  have h := skipBlank_take_skipSpace 511 r
  unfold skipSpace at h
  rw [h]
  have h511 : SCHED_MAX_PATH - 1 = 511 := rfl
  rw [h511, List.take_take, Nat.min_self]
  rfl

theorem specDay_hash (w : List Char) : specDay ('#' :: w) = none := by
  unfold specDay
  rw [if_neg]
  intro hm
  have hu := (days_upper _ hm).2
  have h1 : toupper '#' ∈ dayKey ('#' :: w) := by
    unfold dayKey
    simp
  have h2 := hu _ h1
  revert h2
  decide

/-- The entry `ParseConfig` stores for a buffer, through the text it scans. -/
theorem lineEntry_eq_some_iff_text (buf : List Char) (e : sched_entry) :
    lineEntry buf = some e ↔
      (sscanf (skipSpace (stripNewline (cstr buf)))).matched = 4 ∧
      0 ≤ DayFromString (sscanf (skipSpace (stripNewline (cstr buf)))).day_str ∧
      0 ≤ (sscanf (skipSpace (stripNewline (cstr buf)))).hour ∧
      (sscanf (skipSpace (stripNewline (cstr buf)))).hour ≤ 23 ∧
      0 ≤ (sscanf (skipSpace (stripNewline (cstr buf)))).minute ∧
      (sscanf (skipSpace (stripNewline (cstr buf)))).minute ≤ 59 ∧
      e = ⟨DayFromString (sscanf (skipSpace (stripNewline (cstr buf)))).day_str,
            (sscanf (skipSpace (stripNewline (cstr buf)))).hour,
            (sscanf (skipSpace (stripNewline (cstr buf)))).minute,
            storePath (sscanf (skipSpace (stripNewline (cstr buf)))).m3u_path⟩ := by
  have hs : ∀ c p, skipBlank (stripNewline (cstr buf)) = c :: p →
      sscanf (skipSpace (stripNewline (cstr buf))) = sscanf (c :: p) := by
    intro c p hcp
    rw [← skipSpace_skipBlank, hcp, sscanf_skipSpace]
  rw [lineEntry_eq_some_iff]
  constructor
  · rintro ⟨c, p, hcp, _, h2, h3, h4, h5, h6, h7, he⟩
    rw [hs c p hcp]
    exact ⟨h2, h3, h4, h5, h6, h7, he⟩
  · rintro ⟨h2, h3, h4, h5, h6, h7, he⟩
    cases hcp : skipBlank (stripNewline (cstr buf)) with
    | nil =>
      exfalso
      rw [← skipSpace_skipBlank, hcp] at h2
      revert h2
      decide
    | cons c p =>
      rw [hs c p hcp] at h2 h3 h4 h5 h6 h7 he
      refine ⟨c, p, rfl, ?_, h2, h3, h4, h5, h6, h7, he⟩
      intro hc
      subst hc
      have hd := sscanf_day_str _ h2
      have hsk : skipSpace ('#' :: p) = '#' :: p := by
        unfold skipSpace
        rw [List.dropWhile_cons_of_neg (by decide)]
      rw [hsk] at hd
      have hfw : firstWord ('#' :: p) = '#' :: firstWord p := by
        unfold firstWord
        rw [List.takeWhile_cons_of_pos (by decide)]
      rw [hd, hfw, DayFromString_nonneg_iff] at h3
      rw [show List.take 7 ('#' :: firstWord p) = '#' :: List.take 6 (firstWord p) from rfl,
        specDay_hash] at h3
      simp at h3

theorem stripNewline_no_newline (s : List Char) : '\n' ∉ stripNewline s := by
  intro h
  unfold stripNewline at h
  have h2 := (List.takeWhile_sublist _).subset h
  have h3 := List.mem_takeWhile_imp h2
  simp at h3

theorem textFields_word (t w : List Char) (hour minute : Int) (rest : List Char)
    (h : textFields t = some (w, hour, minute, rest)) : w = firstWord t := by
  unfold textFields at h
  split at h
  · simp at h
  · split at h
    · simp at h
    · simp only [Option.some.injEq, Prod.mk.injEq] at h
      exact h.1.symm

theorem textFields_rest (t w : List Char) (hour minute : Int) (rest : List Char)
    (h : textFields t = some (w, hour, minute, rest)) :
    specTime (afterFirstWord t) = some (hour, minute, rest) ∧ rest.dropWhile isspace ≠ [] := by
  unfold textFields at h
  split at h
  · simp at h
  · rename_i h0 m0 r0 heq
    split at h
    · simp at h
    · rename_i hne
      simp only [Option.some.injEq, Prod.mk.injEq] at h
      obtain ⟨_, hh, hm, hr⟩ := h
      subst hh hm hr
      exact ⟨heq, hne⟩

/-- What an accepted buffer holds: its first word names a day and, when that word has at
most 7 characters, the text scanned tokenizes into the four fields, of which the entry
holds the day, the hour and the minute as stored in an `int`, and the path field. -/
theorem lineEntry_fields (buf : List Char) (e : sched_entry) (h : lineEntry buf = some e) :
    (specDay (firstWord (skipSpace (stripNewline (cstr buf))))).isSome = true ∧
    ((firstWord (skipSpace (stripNewline (cstr buf)))).length ≤ 7 →
      ∃ hour minute rest,
        textFields (skipSpace (stripNewline (cstr buf)))
          = some (firstWord (skipSpace (stripNewline (cstr buf))), hour, minute, rest) ∧
        e = ⟨DayFromString (firstWord (skipSpace (stripNewline (cstr buf)))),
              storeInt hour, storeInt minute, specStoredPath rest⟩ ∧
        0 ≤ storeInt hour ∧ storeInt hour ≤ 23 ∧ 0 ≤ storeInt minute ∧ storeInt minute ≤ 59) := by
  obtain ⟨h2, h3, h4, h5, h6, h7, he⟩ := (lineEntry_eq_some_iff_text buf e).mp h
  rw [sscanf_skipSpace] at h2 h3 h4 h5 h6 h7 he
  have hd := sscanf_day_str _ h2
  constructor
  · rw [hd, DayFromString_nonneg_iff, specDay_take] at h3
    exact h3
  · intro hW
    cases hf : textFields (skipSpace (stripNewline (cstr buf))) with
    | none => exact absurd h2 (sscanf_of_textFields_none _ hW hf)
    | some f =>
      obtain ⟨w, hour, minute, rest⟩ := f
      have hw := textFields_word _ _ _ _ _ hf
      have hs := sscanf_of_textFields _ hW (stripNewline_no_newline _) w hour minute rest hf
      rw [hs] at h3 h4 h5 h6 h7 he
      simp only at h3 h4 h5 h6 h7 he
      subst hw
      refine ⟨hour, minute, rest, rfl, ?_, h4, h5, h6, h7⟩
      rw [he, storePath_scanned]

/-- A buffer whose text tokenizes into the four fields, with a first word of at most 7
characters that names a day and an hour and a minute that are in range as stored in an
`int`, is accepted. -/
theorem lineEntry_of_fields (buf w : List Char) (hour minute : Int) (rest : List Char)
    (hf : textFields (skipSpace (stripNewline (cstr buf))) = some (w, hour, minute, rest))
    (hW : (firstWord (skipSpace (stripNewline (cstr buf)))).length ≤ 7)
    (hd : (specDay w).isSome = true)
    (h4 : 0 ≤ storeInt hour) (h5 : storeInt hour ≤ 23)
    (h6 : 0 ≤ storeInt minute) (h7 : storeInt minute ≤ 59) :
    lineEntry buf
      = some ⟨DayFromString w, storeInt hour, storeInt minute, specStoredPath rest⟩ := by
  have hs := sscanf_of_textFields _ hW (stripNewline_no_newline _) w hour minute rest hf
  rw [lineEntry_eq_some_iff_text, sscanf_skipSpace, hs]
  simp only
  refine ⟨trivial, (DayFromString_nonneg_iff w).mpr hd, h4, h5, h6, h7, ?_⟩
  rw [storePath_scanned]

/-! ## The line and the text `ParseConfig` scans -/

theorem dropCR_cons_cons (c c2 : Char) (cs : List Char) :
    dropCR (c :: c2 :: cs) = c :: dropCR (c2 :: cs) := rfl

theorem stripNewline_cstr_cons (c : Char) (l : List Char) (h0 : c ≠ Char.ofNat 0)
    (hn : c ≠ '\n') (hr : c ≠ '\r') :
    stripNewline (cstr (c :: l)) = c :: stripNewline (cstr l) := by
  unfold stripNewline cstr
  rw [List.takeWhile_cons_of_pos (by simpa using h0),
    List.takeWhile_cons_of_pos (by simpa using hn),
    List.takeWhile_cons_of_pos (by simpa using hr)]

theorem stripNewline_cstr_nul (l : List Char) :
    stripNewline (cstr (Char.ofNat 0 :: l)) = [] := by
  unfold stripNewline cstr
  rw [List.takeWhile_cons_of_neg (by decide)]
  rfl

theorem stripNewline_cstr_cr (l : List Char) : stripNewline (cstr ('\r' :: l)) = [] := by
  unfold stripNewline cstr
  rw [List.takeWhile_cons_of_pos (by decide), List.takeWhile_cons_of_pos (by decide),
    List.takeWhile_cons_of_neg (by decide)]

/-- The text `ParseConfig` scans in a line is the beginning of the line. -/
theorem dropCR_eq_append (l : List Char) (hnl : '\n' ∉ l) :
    ∃ x, dropCR l = stripNewline (cstr l) ++ x := by
  induction l with
  | nil => exact ⟨[], rfl⟩
  | cons c l ih =>
    by_cases h0 : c = Char.ofNat 0
    · subst h0
      exact ⟨_, by rw [stripNewline_cstr_nul]; rfl⟩
    · by_cases hr : c = '\r'
      · subst hr
        exact ⟨_, by rw [stripNewline_cstr_cr]; rfl⟩
      · have hn : c ≠ '\n' := fun h => hnl (by simp [h])
        rw [stripNewline_cstr_cons c l h0 hn hr]
        cases l with
        | nil => exact ⟨[], by simp [dropCR, hr, stripNewline, cstr]⟩
        | cons c2 cs =>
          obtain ⟨x, hx⟩ := ih (fun h => hnl (by simp [h]))
          exact ⟨x, by rw [dropCR_cons_cons, hx]; rfl⟩

/-- In a line without NUL whose only carriage return, if any, ends it, the text
`ParseConfig` scans is the line without that carriage return. -/
theorem stripNewline_cstr_eq_dropCR (l : List Char) (hnl : '\n' ∉ l)
    (hnul : Char.ofNat 0 ∉ l) (hcr : '\r' ∉ dropCR l) :
    stripNewline (cstr l) = dropCR l := by
  induction l with
  | nil => rfl
  | cons c l ih =>
    have h0 : c ≠ Char.ofNat 0 := fun h => hnul (by simp [h])
    have hn : c ≠ '\n' := fun h => hnl (by simp [h])
    cases l with
    | nil =>
      by_cases hr : c = '\r'
      · subst hr; rfl
      · rw [stripNewline_cstr_cons c [] h0 hn hr]
        simp [dropCR, hr, stripNewline, cstr]
    | cons c2 cs =>
      rw [dropCR_cons_cons] at hcr ⊢
      have hr : c ≠ '\r' := fun h => hcr (by simp [h])
      rw [stripNewline_cstr_cons c _ h0 hn hr,
        ih (fun h => hnl (by simp [h])) (fun h => hnul (by simp [h]))
          (fun h => hcr (by simp [h]))]

/-! ## Fields of a text that goes on -/

theorem takeWhile_append_of_dropWhile_ne_nil (q : Char → Bool) (b x : List Char)
    (h : b.dropWhile q ≠ []) :
    (b ++ x).takeWhile q = b.takeWhile q ∧ (b ++ x).dropWhile q = b.dropWhile q ++ x := by
  induction b with
  | nil => simp at h
  | cons c b ih =>
    by_cases hc : q c = true
    · rw [List.dropWhile_cons_of_pos hc] at h
      rw [List.cons_append, List.takeWhile_cons_of_pos hc, List.dropWhile_cons_of_pos hc,
        List.takeWhile_cons_of_pos hc, List.dropWhile_cons_of_pos hc, (ih h).1, (ih h).2]
      exact ⟨rfl, rfl⟩
    · rw [List.cons_append, List.takeWhile_cons_of_neg hc, List.dropWhile_cons_of_neg hc,
        List.takeWhile_cons_of_neg hc, List.dropWhile_cons_of_neg hc]
      exact ⟨rfl, rfl⟩

theorem specInteger_append (a x : List Char) (v : Int) (r : List Char)
    (h : specInteger a = some (v, r)) (hr : r ≠ []) :
    specInteger (a ++ x) = some (v, r ++ x) := by
  have hne : a.dropWhile isspace ≠ [] := by
    intro h0
    unfold specInteger at h
    rw [h0] at h
    simp at h
  have hd := (takeWhile_append_of_dropWhile_ne_nil isspace a x hne).2
  cases hb : a.dropWhile isspace with
  | nil => exact absurd hb hne
  | cons c b =>
    rw [hb] at hd
    have key : ∀ b2 : List Char, b2.takeWhile isdigit ≠ [] → b2.dropWhile isdigit = r →
        (b2 ++ x).takeWhile isdigit = b2.takeWhile isdigit ∧
        (b2 ++ x).dropWhile isdigit = r ++ x := by
      intro b2 _ h2
      have := takeWhile_append_of_dropWhile_ne_nil isdigit b2 x (by rw [h2]; exact hr)
      rw [h2] at this
      exact this
    by_cases hm : c = '-'
    · subst hm
      unfold specInteger at h ⊢
      rw [hb] at h
      rw [hd]
      simp only [List.cons_append] at h ⊢
      split at h
      · simp at h
      · rename_i hds
        simp only [Option.some.injEq, Prod.mk.injEq] at h
        obtain ⟨k1, k2⟩ := key b hds h.2
        rw [k1, k2, if_neg hds, h.1]
    · by_cases hp : c = '+'
      · subst hp
        unfold specInteger at h ⊢
        rw [hb] at h
        rw [hd]
        simp only [List.cons_append] at h ⊢
        split at h
        · simp at h
        · rename_i hds
          simp only [Option.some.injEq, Prod.mk.injEq] at h
          obtain ⟨k1, k2⟩ := key b hds h.2
          rw [k1, k2, if_neg hds, h.1]
      · rw [specInteger_of_digit a c b hb hm hp] at h
        rw [specInteger_of_digit (a ++ x) c (b ++ x) hd hm hp]
        split at h
        · simp at h
        · rename_i hds
          simp only [Option.some.injEq, Prod.mk.injEq] at h
          obtain ⟨k1, k2⟩ := key (c :: b) hds h.2
          rw [← List.cons_append, k1, k2, if_neg hds, h.1]

theorem specTime_append (a x : List Char) (hour minute : Int) (r : List Char)
    (h : specTime a = some (hour, minute, r)) (hr : r ≠ []) :
    specTime (a ++ x) = some (hour, minute, r ++ x) := by
  unfold specTime at h
  cases hi : specInteger a with
  | none => rw [hi] at h; simp at h
  | some v1 =>
    obtain ⟨h1, s2⟩ := v1
    rw [hi] at h
    cases s2 with
    | nil => simp at h
    | cons c s3 =>
      by_cases hc : c = ':'
      · subst hc
        simp only at h
        cases hj : specInteger s3 with
        | none => rw [hj] at h; simp at h
        | some v2 =>
          obtain ⟨m1, r1⟩ := v2
          rw [hj] at h
          simp only [Option.some.injEq, Prod.mk.injEq] at h
          obtain ⟨hh, hm, hrest⟩ := h
          subst hh hm hrest
          unfold specTime
          rw [specInteger_append a x h1 (':' :: s3) hi (by simp), List.cons_append]
          simp only
          rw [specInteger_append s3 x m1 r1 hj hr]
      · exfalso
        revert h
        split
        · rename_i heq
          simp only [Option.some.injEq, Prod.mk.injEq, List.cons.injEq] at heq
          exact absurd heq.2.1 hc
        · simp

theorem specTime_nil : specTime [] = none := by decide

/-- The fields of a text stay its fields when the text goes on: only the text after the
minute grows. -/
theorem textFields_append (t x w : List Char) (hour minute : Int) (r : List Char)
    (h : textFields t = some (w, hour, minute, r)) :
    textFields (t ++ x) = some (w, hour, minute, r ++ x) := by
  have hw := textFields_word t w hour minute r h
  obtain ⟨ht, hr⟩ := textFields_rest t w hour minute r h
  have hr2 : r ≠ [] := by
    intro h0; apply hr; rw [h0]; rfl
  have hne : afterFirstWord t ≠ [] := by
    intro h0
    rw [h0, specTime_nil] at ht
    simp at ht
  obtain ⟨k1, k2⟩ := takeWhile_append_of_dropWhile_ne_nil (fun c => !isspace c) t x hne
  have hr3 : (r ++ x).dropWhile isspace ≠ [] := by
    rw [(takeWhile_append_of_dropWhile_ne_nil isspace r x hr).2]
    simp [hr]
  unfold textFields
  unfold afterFirstWord at ht ⊢
  unfold firstWord at hw ⊢
  rw [k2, specTime_append _ x hour minute r ht hr2]
  simp only
  rw [if_neg hr3, k1, hw]

/-! ## Accepted lines and well-formed lines -/

theorem takeWhile_append_extends (q : Char → Bool) (t x : List Char) :
    ∃ y, (t ++ x).takeWhile q = t.takeWhile q ++ y := by
  induction t with
  | nil => exact ⟨x.takeWhile q, rfl⟩
  | cons c t ih =>
    by_cases hc : q c = true
    · obtain ⟨y, hy⟩ := ih
      exact ⟨y, by rw [List.cons_append, List.takeWhile_cons_of_pos hc,
        List.takeWhile_cons_of_pos hc, hy]; rfl⟩
    · exact ⟨[], by rw [List.cons_append, List.takeWhile_cons_of_neg hc,
        List.takeWhile_cons_of_neg hc]; rfl⟩

theorem specDay_nil : specDay [] = none := by decide

theorem specSkipped_eq_false (l : List Char) (h : (specDay (firstWord (specText l))).isSome = true) :
    specSkipped l = false := by
  unfold specSkipped
  cases ht : specText l with
  | nil => rw [ht] at h; simp [firstWord, specDay_nil] at h
  | cons c t =>
    simp only
    by_cases hc : c = '#'
    · subst hc
      rw [ht] at h
      have hfw : firstWord ('#' :: t) = '#' :: firstWord t := by
        unfold firstWord
        rw [List.takeWhile_cons_of_pos (by decide)]
      rw [hfw, specDay_hash] at h
      simp at h
    · simpa using hc

theorem storeInt_of_numbersFit (l : List Char) (hour minute : Int) (rest : List Char)
    (ht : specTime (afterFirstWord (specText l)) = some (hour, minute, rest))
    (hnum : numbersFit l = true) : storeInt hour = hour ∧ storeInt minute = minute := by
  unfold numbersFit at hnum
  rw [ht] at hnum
  simp only [decide_eq_true_eq] at hnum
  exact ⟨storeInt_of_fits hour hnum.1 hnum.2.1, storeInt_of_fits minute hnum.2.2.1 hnum.2.2.2⟩

/-- An accepted line is well-formed, when its day word fits `day_str` and its hour and
minute fit an `int`: the text `ParseConfig` scans, which is the beginning of the line,
tokenizes into the four fields, the line tokenizes into the same day, hour and minute, and
the entry holds them. -/
theorem lineEntry_spec (l : List Char) (e : sched_entry) (hnl : '\n' ∉ l)
    (h : lineEntry l = some e) (hday : dayWordFits l = true) (hnum : numbersFit l = true) :
    ∃ x hour minute rest, dropCR l = stripNewline (cstr l) ++ x ∧
      specFields l = some (firstWord (specText l), hour, minute, rest ++ x) ∧
      e = ⟨DayFromString (firstWord (specText l)), hour, minute, specStoredPath rest⟩ ∧
      wellFormed l = true := by
  obtain ⟨hsome, hfields⟩ := lineEntry_fields l e h
  obtain ⟨x, hx⟩ := dropCR_eq_append l hnl
  have htne : skipSpace (stripNewline (cstr l)) ≠ [] := by
    intro h0
    rw [h0] at hsome
    simp [firstWord, specDay_nil] at hsome
  have hst : specText l = skipSpace (stripNewline (cstr l)) ++ x := by
    unfold specText
    rw [hx]
    exact (takeWhile_append_of_dropWhile_ne_nil isspace _ x htne).2
  obtain ⟨y, hy⟩ := takeWhile_append_extends (fun c => !isspace c)
    (skipSpace (stripNewline (cstr l))) x
  have hfw : firstWord (specText l) = firstWord (skipSpace (stripNewline (cstr l))) ++ y := by
    rw [hst]
    exact hy
  have hsome2 : (specDay (firstWord (specText l))).isSome = true := by
    rw [hfw, specDay_append _ _ hsome]
    exact hsome
  have hW : (firstWord (skipSpace (stripNewline (cstr l)))).length ≤ 7 := by
    unfold dayWordFits at hday
    rw [Bool.or_eq_true] at hday
    rcases hday with hd | hd
    · rw [Option.isNone_iff_eq_none] at hd
      rw [hd] at hsome2
      simp at hsome2
    · rw [decide_eq_true_eq, hfw, List.length_append] at hd
      omega
  obtain ⟨hour, minute, rest, hf, he, r1, r2, r3, r4⟩ := hfields hW
  have hf2 := textFields_append _ x _ hour minute rest hf
  rw [← hst] at hf2
  have hw := textFields_word _ _ _ _ _ hf2
  have hspec : specFields l = some (firstWord (specText l), hour, minute, rest ++ x) := by
    unfold specFields
    rw [hf2, ← hw]
  obtain ⟨hs1, hs2⟩ := storeInt_of_numbersFit l hour minute (rest ++ x)
    (textFields_rest _ _ _ _ _ hf2).1 hnum
  rw [hs1] at r1 r2 he
  rw [hs2] at r3 r4 he
  refine ⟨x, hour, minute, rest, hx, hspec, ?_, ?_⟩
  · rw [he, ← hw]
  · unfold wellFormed
    rw [specSkipped_eq_false l hsome2, hspec]
    simp [hsome2, r1, r2, r3, r4]

/-- A well-formed line is accepted, with the entry the specification gives it, when the
line holds no NUL, its only carriage return, if any, ends it, its day word fits `day_str`
and its hour and minute fit an `int`. -/
theorem lineEntry_eq_specEntry (l : List Char) (hnl : '\n' ∉ l) (hnul : Char.ofNat 0 ∉ l)
    (hcr : '\r' ∉ dropCR l) (hday : dayWordFits l = true) (hnum : numbersFit l = true) :
    lineEntry l = specEntry l := by
  have hstrip := stripNewline_cstr_eq_dropCR l hnl hnul hcr
  have hst : skipSpace (stripNewline (cstr l)) = specText l := by
    rw [hstrip]; rfl
  cases hl : lineEntry l with
  | some e =>
    obtain ⟨x, hour, minute, rest, hx, hspec, he, hwf⟩ := lineEntry_spec l e hnl hl hday hnum
    have hx0 : x = [] := by
      rw [hstrip] at hx
      exact List.self_eq_append_right.mp hx
    subst hx0
    rw [List.append_nil] at hspec
    unfold specEntry
    rw [if_pos hwf, hspec]
    simp only
    unfold wellFormed at hwf
    rw [hspec] at hwf
    simp only [Bool.and_eq_true] at hwf
    obtain ⟨d, hd⟩ := Option.isSome_iff_exists.mp hwf.2.1.1
    rw [hd, he, DayFromString_eq, hd]
    rfl
  | none =>
    unfold specEntry
    by_cases hwf : wellFormed l = true
    · exfalso
      unfold wellFormed at hwf
      cases hspec : specFields l with
      | none => rw [hspec] at hwf; simp at hwf
      | some f =>
        obtain ⟨w, hour, minute, rest⟩ := f
        rw [hspec] at hwf
        simp only [Bool.and_eq_true, decide_eq_true_eq] at hwf
        obtain ⟨_, ⟨hd, hr1⟩, hr2⟩ := hwf
        unfold specFields at hspec
        have hw := textFields_word _ _ _ _ _ hspec
        have hW : (firstWord (specText l)).length ≤ 7 := by
          unfold dayWordFits at hday
          rw [Bool.or_eq_true] at hday
          rcases hday with hd2 | hd2
          · rw [Option.isNone_iff_eq_none, ← hw] at hd2
            rw [hd2] at hd
            simp at hd
          · simpa using hd2
        obtain ⟨hs1, hs2⟩ := storeInt_of_numbersFit l hour minute rest
          (textFields_rest _ _ _ _ _ hspec).1 hnum
        rw [← hst] at hspec hW
        have := lineEntry_of_fields l w hour minute rest hspec hW hd
          (by rw [hs1]; exact hr1.1) (by rw [hs1]; exact hr1.2)
          (by rw [hs2]; exact hr2.1) (by rw [hs2]; exact hr2.2)
        rw [hl] at this
        simp at this
    · rw [if_neg hwf]

/-! ## ParseConfig: the schedule of a file -/

theorem specEntry_isSome (l : List Char) : (specEntry l).isSome = wellFormed l := by
  unfold specEntry
  by_cases hwf : wellFormed l = true
  · rw [if_pos hwf, hwf]
    unfold wellFormed at hwf
    cases hspec : specFields l with
    | none => rw [hspec] at hwf; simp at hwf
    | some f =>
      obtain ⟨w, hour, minute, rest⟩ := f
      rw [hspec] at hwf
      simp only [Bool.and_eq_true] at hwf
      obtain ⟨d, hd⟩ := Option.isSome_iff_exists.mp hwf.2.1.1
      simp [hd]
  · rw [if_neg hwf]
    simpa using hwf

theorem length_filterMap_specEntry (ls : List (List Char)) :
    (ls.filterMap specEntry).length = (ls.filter wellFormed).length := by
  induction ls with
  | nil => rfl
  | cons l ls ih =>
    have h := specEntry_isSome l
    cases hs : specEntry l with
    | none =>
      rw [hs] at h
      rw [List.filterMap_cons_none hs, List.filter_cons_of_neg (by simp [← h]), ih]
    | some e =>
      rw [hs] at h
      rw [List.filterMap_cons_some hs, List.filter_cons_of_pos (by simp [← h]),
        List.length_cons, List.length_cons, ih]

/-- C1, as stated, fails on five files of one line each. `longCommentFile` is a comment of
more than 1023 characters: no line is well-formed, yet the entry `MON 10:00 /x.m3u` is
stored, read from the second buffer of the line. In `overflowConfig` the hour 4294967306
is out of range, yet the line is stored with the hour 10. In `innerCRConfig` and
`innerNULConfig` the line is well-formed, with a carriage return or a NUL before the path,
and nothing is stored: the line is scanned up to that character. In `longDayConfig` the
line is well-formed, its day being THURSDAY, and nothing is stored: `%7s` reads seven
characters of the day. -/
theorem ParseConfig_entries_not_spec :
    ((wellFormedLines longCommentFile).length = 0 ∧
      (ParseConfig (configHost longCommentFile) (initialSys false) configPath).2.1.entries
        = [⟨1, 10, 0, "/x.m3u".toList⟩]) ∧
    ((wellFormedLines overflowConfig).length = 0 ∧
      (ParseConfig (configHost overflowConfig) (initialSys false) configPath).2.1.entries
        = [⟨1, 10, 0, "/x.m3u".toList⟩]) ∧
    ((wellFormedLines innerCRConfig).length = 1 ∧
      (ParseConfig (configHost innerCRConfig) (initialSys false) configPath).2.1.entries
        = []) ∧
    ((wellFormedLines innerNULConfig).length = 1 ∧
      (ParseConfig (configHost innerNULConfig) (initialSys false) configPath).2.1.entries
        = []) ∧
    ((wellFormedLines longDayConfig).length = 1 ∧
      (ParseConfig (configHost longDayConfig) (initialSys false) configPath).2.1.entries
        = []) := by
  decide!

/-- C1 (amended): for every config file whose lines each have at most 1023 characters, hold
no NUL and no carriage return other than one that ends the line, have a day word of at most
7 characters when their first word names a day, and have an hour and a minute that fit an
`int`, the entries `ParseConfig` stores are exactly the entries of the well-formed data
lines of the file (not blank, not starting with `#`, tokenizing into day, hour, minute and
path, with a recognized day, an hour in 0..23 and a minute in 0..59), in file order, cut
after the first 64, and `entry_count` is the minimum of 64 and the number of well-formed
lines. -/
theorem ParseConfig_entries_eq_spec (host : Host) (sys : intf_sys_t)
    (path content : List Char) (hopen : host.fopen path = some content)
    (hlines : ∀ l ∈ fileLines content, l.length ≤ 1023 ∧ Char.ofNat 0 ∉ l ∧ '\r' ∉ dropCR l
      ∧ dayWordFits l = true ∧ numbersFit l = true) :
    (ParseConfig host sys path).2.1.entries = specEntries content ∧
    (ParseConfig host sys path).2.1.entry_count
      = min SCHED_MAX_ENTRIES (wellFormedLines content).length := by
  have h := ParseConfig_entries host sys path content hopen
  rw [filterMap_readLines_of_fit 1024 (by omega) lineEntry lineEntry_nil
    (fun l _ => lineEntry_append_newline l) content (fun l hl => (hlines l hl).1)] at h
  have hcongr : (fileLines content).filterMap lineEntry
      = (fileLines content).filterMap specEntry := by
    apply List.filterMap_congr
    intro l hl
    obtain ⟨_, h2, h3, h4, h5⟩ := hlines l hl
    exact lineEntry_eq_specEntry l (fileLines_no_newline content l hl) h2 h3 h4 h5
  rw [hcongr] at h
  refine ⟨h, ?_⟩
  unfold intf_sys_t.entry_count wellFormedLines
  rw [h, List.length_take, length_filterMap_specEntry]

/-- C1 (amended), on `exampleConfig`: three of its eight lines are well-formed. -/
theorem ParseConfig_entries_eq_spec_example :
    (∀ l ∈ fileLines exampleConfig, l.length ≤ 1023 ∧ Char.ofNat 0 ∉ l ∧ '\r' ∉ dropCR l
      ∧ dayWordFits l = true ∧ numbersFit l = true) ∧
    (ParseConfig (configHost exampleConfig) (initialSys false) configPath).2.1.entries
      = specEntries exampleConfig ∧
    specEntries exampleConfig
      = [⟨1, 22, 30, "/x.m3u".toList⟩, ⟨1, 22, 30, "/y.m3u".toList⟩,
         ⟨5, 7, 5, "/my lists/a b.m3u".toList⟩] ∧
    (ParseConfig (configHost exampleConfig) (initialSys false) configPath).2.1.entry_count
      = min SCHED_MAX_ENTRIES (wellFormedLines exampleConfig).length :=
  ⟨by decide,
   (ParseConfig_entries_eq_spec (configHost exampleConfig) (initialSys false) configPath
     exampleConfig (by decide) (by decide)).1,
   by decide,
   (ParseConfig_entries_eq_spec (configHost exampleConfig) (initialSys false) configPath
     exampleConfig (by decide) (by decide)).2⟩

/-! ## ParseConfig: malformed lines -/

theorem specMalformed_of_wellFormed (l : List Char) (h : wellFormed l = true) :
    specMalformed l = false := by
  unfold wellFormed at h
  unfold specMalformed
  cases hspec : specFields l with
  | none => rw [hspec] at h; simp at h
  | some f =>
    obtain ⟨w, hour, minute, rest⟩ := f
    rw [hspec] at h
    simp only [Bool.and_eq_true, decide_eq_true_eq] at h
    obtain ⟨_, ⟨hd, h1, h2⟩, h3, h4⟩ := h
    obtain ⟨d, hd2⟩ := Option.isSome_iff_exists.mp hd
    have e1 : decide (hour < 0 ∨ 23 < hour) = false := by
      rw [decide_eq_false_iff_not]; omega
    have e2 : decide (minute < 0 ∨ 59 < minute) = false := by
      rw [decide_eq_false_iff_not]; omega
    simp [hd2, e1, e2]

/-- A malformed line gives no entry, when its day word fits `day_str` and its hour and
minute fit an `int`. -/
theorem lineEntry_of_specMalformed (bad : List Char) (hnl : '\n' ∉ bad)
    (hbad : specMalformed bad = true) (hday : dayWordFits bad = true)
    (hnum : numbersFit bad = true) : lineEntry bad = none := by
  cases hl : lineEntry bad with
  | none => rfl
  | some e =>
    obtain ⟨_, _, _, _, _, _, _, hwf⟩ := lineEntry_spec bad e hnl hl hday hnum
    rw [specMalformed_of_wellFormed bad hwf] at hbad
    simp at hbad

/-- C10, as stated, fails for three malformed lines inserted after the line of
`oneLineConfig`. `longBadLine` has more than 1023 characters, and its tail is read as the
entry `MON 10:00 /x.m3u`. `overflowLine` has the hour 4294967306, out of range, and is
stored with the hour 10. `gluedLine` has no time after its first word `MONDAYS1:2`, and is
stored as Monday 1:02: `%7s` reads seven characters of the word. -/
theorem ParseConfig_malformed_line_changes_entries :
    (ParseConfig (configHost oneLineConfig) (initialSys false) configPath).2.1.entries
      = [⟨2, 9, 0, "/a.m3u".toList⟩] ∧
    (specMalformed longBadLine = true ∧
      fileLines (oneLineConfig ++ longBadLine ++ ['\n'])
        = fileLines oneLineConfig ++ [longBadLine] ∧
      (ParseConfig (configHost (oneLineConfig ++ longBadLine ++ ['\n'])) (initialSys false)
          configPath).2.1.entries
        = [⟨2, 9, 0, "/a.m3u".toList⟩, ⟨1, 10, 0, "/x.m3u".toList⟩]) ∧
    (specMalformed overflowLine = true ∧
      fileLines (oneLineConfig ++ overflowLine ++ ['\n'])
        = fileLines oneLineConfig ++ [overflowLine] ∧
      (ParseConfig (configHost (oneLineConfig ++ overflowLine ++ ['\n'])) (initialSys false)
          configPath).2.1.entries
        = [⟨2, 9, 0, "/a.m3u".toList⟩, ⟨1, 10, 0, "/x.m3u".toList⟩]) ∧
    (specMalformed gluedLine = true ∧
      fileLines (oneLineConfig ++ gluedLine ++ ['\n'])
        = fileLines oneLineConfig ++ [gluedLine] ∧
      (ParseConfig (configHost (oneLineConfig ++ gluedLine ++ ['\n'])) (initialSys false)
          configPath).2.1.entries
        = [⟨2, 9, 0, "/a.m3u".toList⟩, ⟨1, 1, 2, "/x.m3u".toList⟩]) := by
  decide!

/-- C10 (amended): a malformed line (wrong token count, unrecognized day, hour or minute
out of range) of at most 1023 characters, whose first word has at most 7 characters when it
names a day and whose hour and minute, when it has them, fit an `int`, never affects the
rest of the file. For every config file and every such line inserted between any two of
its lines, before the first or after the last, `ParseConfig` stores the same entries, in
the same order and with the same count, and returns the same code, as for the file without
that line; the lines after it are parsed as before. -/
theorem ParseConfig_malformed_line_inserted (host host2 : Host) (sys : intf_sys_t)
    (path content content2 : List Char) (pre post : List (List Char)) (bad : List Char)
    (hopen : host.fopen path = some content) (hopen2 : host2.fopen path = some content2)
    (hlines : fileLines content = pre ++ post)
    (hlines2 : fileLines content2 = pre ++ bad :: post)
    (hbad : specMalformed bad = true) (hlen : bad.length ≤ 1023)
    (hday : dayWordFits bad = true) (hnum : numbersFit bad = true) :
    (ParseConfig host2 sys path).2.1.entries = (ParseConfig host sys path).2.1.entries ∧
    (ParseConfig host2 sys path).2.1.entry_count = (ParseConfig host sys path).2.1.entry_count ∧
    (ParseConfig host2 sys path).1 = (ParseConfig host sys path).1 := by
  have hno : '\n' ∉ bad := fileLines_no_newline content2 bad (by rw [hlines2]; simp)
  have hnone : (readLines 1024 bad).filterMap lineEntry = [] := by
    rw [filterMap_readLines_fit 1024 (by omega) lineEntry lineEntry_nil bad hno hlen,
      lineEntry_of_specMalformed bad hno hbad hday hnum]
    rfl
  have hent : (ParseConfig host2 sys path).2.1.entries
      = (ParseConfig host sys path).2.1.entries := by
    rw [ParseConfig_entries host sys path content hopen,
      ParseConfig_entries host2 sys path content2 hopen2,
      filterMap_lineEntry_readLines content, filterMap_lineEntry_readLines content2,
      hlines, hlines2, List.flatMap_append, List.flatMap_append, List.flatMap_cons,
      hnone, List.nil_append]
  refine ⟨hent, ?_, ?_⟩
  · unfold intf_sys_t.entry_count
    rw [hent]
  · rw [ParseConfig_code host sys path content hopen,
      ParseConfig_code host2 sys path content2 hopen2, hent]

/-- C10 (amended), on `exampleConfig`: its fifth line `XXX 10:00 /z.m3u` is malformed, and
the file stores the same entries with it and without it. -/
theorem ParseConfig_malformed_line_inserted_example :
    fileLines exampleConfig
      = (fileLines exampleConfigWithoutBadLine).take 4 ++ "XXX 10:00 /z.m3u".toList
          :: (fileLines exampleConfigWithoutBadLine).drop 4 ∧
    specMalformed "XXX 10:00 /z.m3u".toList = true ∧
    (ParseConfig (configHost exampleConfig) (initialSys false) configPath).2.1.entries
      = (ParseConfig (configHost exampleConfigWithoutBadLine) (initialSys false)
          configPath).2.1.entries ∧
    (ParseConfig (configHost exampleConfig) (initialSys false) configPath).2.1.entry_count
      = (ParseConfig (configHost exampleConfigWithoutBadLine) (initialSys false)
          configPath).2.1.entry_count ∧
    (ParseConfig (configHost exampleConfig) (initialSys false) configPath).1
      = (ParseConfig (configHost exampleConfigWithoutBadLine) (initialSys false)
          configPath).1 :=
  ⟨by decide, by decide,
   ParseConfig_malformed_line_inserted (configHost exampleConfigWithoutBadLine)
     (configHost exampleConfig) (initialSys false) configPath exampleConfigWithoutBadLine
     exampleConfig ((fileLines exampleConfigWithoutBadLine).take 4)
     ((fileLines exampleConfigWithoutBadLine).drop 4) "XXX 10:00 /z.m3u".toList
     (by decide) (by decide) (by decide) (by decide) (by decide) (by decide) (by decide)
     (by decide)⟩

/-! ## ParseConfig: the stored path of a line -/

/-- C13, as stated, fails on six accepted lines. The path of `longPathLine` has 512
characters and is stored cut to 511. The path of `trailingVTLine` ends in a vertical tab,
which is white space and is stored with the path. The paths of `innerCRLine` and
`innerNULLine` hold a carriage return and a NUL, and are stored up to that character. On
`gluedTimeLine` the time token is `22:15` and the path `/x.m3u`, and what is stored is
`22:15 /x.m3u`, after the time 10:30 read from the end of the first word. The path of
`longIndentedLine`, a line of 1110 characters, has 500 characters, of which the 413 that
fit the first buffer are stored. -/
theorem lineEntry_path_not_spec :
    ((specLinePath longPathLine).map List.length = some 512 ∧
      (storedPath longPathLine).map List.length = some 511) ∧
    (specLinePath trailingVTLine = some "/x.m3u".toList ∧
      storedPath trailingVTLine = some ("/x.m3u".toList ++ [Char.ofNat 11])) ∧
    (specLinePath innerCRLine = some "/my\rlists.m3u".toList ∧
      storedPath innerCRLine = some "/my".toList) ∧
    (specLinePath innerNULLine = some ("/a".toList ++ [Char.ofNat 0] ++ "b.m3u".toList) ∧
      storedPath innerNULLine = some "/a".toList) ∧
    (specLinePath gluedTimeLine = some "/x.m3u".toList ∧
      storedPath gluedTimeLine = some "22:15 /x.m3u".toList) ∧
    (specLinePath longIndentedLine = some (List.replicate 500 'a') ∧
      fileLines (longIndentedLine ++ ['\n']) = [longIndentedLine] ∧
      (ParseConfig (configHost (longIndentedLine ++ ['\n'])) (initialSys false)
          configPath).2.1.entries
        = [⟨1, 22, 30, List.replicate 413 'a'⟩]) := by
  decide!

/-- C13 (amended): for every accepted config line of at most 1023 characters that holds no
NUL and no carriage return other than one that ends it, and whose first word has at most 7
characters, the stored path is what follows the time token up to the end of the line, with
leading white space removed, cut to its first 511 characters, and trailing spaces and tabs
removed; white space inside the path is kept. So when what follows the time token, leading
white space removed, has at most 511 characters, the stored path is all of it but its
trailing spaces and tabs. The line is accepted: `ParseConfig` stores its entry `e` for a
file made of the line. -/
theorem lineEntry_path (line : List Char) (e : sched_entry) (h : lineEntry line = some e)
    (hlen : line.length ≤ 1023) (hnl : '\n' ∉ line) (hnul : Char.ofNat 0 ∉ line)
    (hcr : '\r' ∉ dropCR line) (hword : (firstWord (specText line)).length ≤ 7) :
    (∀ (host : Host) (sys : intf_sys_t) (path content : List Char),
      host.fopen path = some content → fileLines content = [line] →
      (ParseConfig host sys path).2.1.entries = [e]) ∧
    ∃ word hour minute rest, specFields line = some (word, hour, minute, rest) ∧
      e.path = ((rest.dropWhile isspace).take 511).rdropWhile isBlank ∧
      ((rest.dropWhile isspace).length ≤ 511 →
        e.path = (rest.dropWhile isspace).rdropWhile isBlank) := by
  constructor
  · intro host sys path content hopen hlines
    rw [ParseConfig_entries host sys path content hopen,
      filterMap_readLines_of_fit 1024 (by omega) lineEntry lineEntry_nil
        (fun l _ => lineEntry_append_newline l) content
        (fun l hl => by rw [hlines, List.mem_singleton] at hl; rw [hl]; exact hlen),
      hlines, List.filterMap_cons_some h]
    rfl
  · have hstrip := stripNewline_cstr_eq_dropCR line hnl hnul hcr
    have hst : skipSpace (stripNewline (cstr line)) = specText line := by
      rw [hstrip]; rfl
    have hf := (lineEntry_fields line e h).2
    rw [hst] at hf
    obtain ⟨hour, minute, rest, hfields, he, _⟩ := hf hword
    have hp : e.path = ((rest.dropWhile isspace).take 511).rdropWhile isBlank := by
      rw [he]; rfl
    refine ⟨_, hour, minute, rest, hfields, hp, fun hfit => ?_⟩
    rw [hp, List.take_of_length_le hfit]

/-- C13 (amended), on the example: the line `MON 22:30   /my lists/a b.m3u  ` stores the
path `/my lists/a b.m3u`, which is what follows its time token without the white space
before and after it. -/
theorem lineEntry_path_example :
    lineEntry "MON 22:30   /my lists/a b.m3u  ".toList
      = some ⟨1, 22, 30, "/my lists/a b.m3u".toList⟩ ∧
    (ParseConfig (configHost "MON 22:30   /my lists/a b.m3u  \n".toList) (initialSys false)
        configPath).2.1.entries
      = [⟨1, 22, 30, "/my lists/a b.m3u".toList⟩] ∧
    specFields "MON 22:30   /my lists/a b.m3u  ".toList
      = some ("MON".toList, 22, 30, "   /my lists/a b.m3u  ".toList) ∧
    ∃ word hour minute rest,
      specFields "MON 22:30   /my lists/a b.m3u  ".toList = some (word, hour, minute, rest) ∧
      "/my lists/a b.m3u".toList = ((rest.dropWhile isspace).take 511).rdropWhile isBlank ∧
      ((rest.dropWhile isspace).length ≤ 511 →
        "/my lists/a b.m3u".toList = (rest.dropWhile isspace).rdropWhile isBlank) :=
  ⟨by decide,
   (lineEntry_path "MON 22:30   /my lists/a b.m3u  ".toList
     ⟨1, 22, 30, "/my lists/a b.m3u".toList⟩ (by decide) (by decide) (by decide) (by decide)
     (by decide) (by decide)).1 (configHost "MON 22:30   /my lists/a b.m3u  \n".toList)
     (initialSys false) configPath "MON 22:30   /my lists/a b.m3u  \n".toList (by decide)
     (by decide),
   by decide,
   (lineEntry_path "MON 22:30   /my lists/a b.m3u  ".toList
     ⟨1, 22, 30, "/my lists/a b.m3u".toList⟩ (by decide) (by decide) (by decide) (by decide)
     (by decide) (by decide)).2⟩

/-! ## ParseConfig: lines skipped silently -/

theorem parseLine_cons_cr (l : List Char) : parseLine ('\r' :: l) = .skip := by
  unfold parseLine
  rw [stripNewline_cstr_cr]
  rfl

theorem parseLine_of_silentLine (l : List Char) (h : silentLine l = true) :
    parseLine l = .skip := by
  induction l with
  | nil => decide
  | cons c l ih =>
    by_cases hr : c = '\r'
    · subst hr; exact parseLine_cons_cr l
    · by_cases hb : isBlank c = true
      · rw [parseLine_cons_blank c l hb]
        apply ih
        have hq : spaceTabOrCR c = true := by
          unfold isBlank at hb
          unfold spaceTabOrCR
          simp [hb]
        unfold silentLine at h ⊢
        rwa [List.dropWhile_cons_of_pos hq] at h
      · have hq : ¬ spaceTabOrCR c = true := by
          unfold isBlank at hb
          unfold spaceTabOrCR
          simp only [Bool.or_eq_true, beq_iff_eq] at hb ⊢
          tauto
        unfold silentLine at h
        rw [List.dropWhile_cons_of_neg hq] at h
        have : c = '#' := by simpa using h
        subst this
        exact parseLine_cons_hash l

theorem lineOutcome_nil : lineOutcome [] = none := by decide

theorem lineOutcome_append_newline (l : List Char) :
    lineOutcome (l ++ ['\n']) = lineOutcome l := by
  unfold lineOutcome
  rw [parseLine_append_newline]

theorem lineOutcome_eq_none_iff (b : List Char) : lineOutcome b = none ↔ parseLine b = .skip := by
  unfold lineOutcome
  cases parseLine b <;> simp

theorem parseLine_of_lineOutcome (b : List Char) (r : LineResult)
    (h : lineOutcome b = some r) : parseLine b = r := by
  unfold lineOutcome at h
  cases hp : parseLine b <;> rw [hp] at h <;> simp at h <;> exact h

/-- The loop of `ParseConfig` passes over a buffer it skips: the buffer is counted, and
nothing is stored and nothing logged. -/
theorem ParseConfig_loop_skip (buf : List Char) (rest : List (List Char)) (lineno : Nat)
    (entries : List sched_entry) (log : List Event) (h : parseLine buf = .skip) :
    ParseConfig.loop (buf :: rest) lineno entries log
      = ParseConfig.loop rest (lineno + 1) entries log := by
  rw [ParseConfig.loop, h]

theorem ParseConfig_loop_all_skipped (bufs : List (List Char))
    (h : bufs.filterMap lineOutcome = []) (lineno : Nat) (entries : List sched_entry)
    (log : List Event) : ParseConfig.loop bufs lineno entries log = (entries, log) := by
  induction bufs generalizing lineno with
  | nil => rfl
  | cons b bs ih =>
    cases hb : lineOutcome b with
    | none =>
      rw [List.filterMap_cons_none hb] at h
      rw [ParseConfig_loop_skip b bs lineno entries log ((lineOutcome_eq_none_iff b).mp hb)]
      exact ih h (lineno + 1)
    | some r =>
      rw [List.filterMap_cons_some hb] at h
      simp at h

theorem map_eraseLine_append (log log2 : List Event) (ev ev2 : Event)
    (h : log.map eraseLine = log2.map eraseLine) (hev : eraseLine ev = eraseLine ev2) :
    (log ++ [ev]).map eraseLine = (log2 ++ [ev2]).map eraseLine := by
  rw [List.map_append, List.map_append, h, List.map_singleton, List.map_singleton, hev]

/-- One iteration of the loop on two buffers with the same outcome, in two runs that
agree so far on the entries and, line numbers aside, on the messages: if the runs agree
after the buffers left, they agree from here. -/
theorem ParseConfig_loop_step (b b2 : List Char) (bs bs2 : List (List Char))
    (hb : parseLine b = parseLine b2)
    (ih : ∀ (n n2 : Nat) (entries : List sched_entry) (log log2 : List Event),
      log.map eraseLine = log2.map eraseLine →
      (ParseConfig.loop bs n entries log).1 = (ParseConfig.loop bs2 n2 entries log2).1 ∧
      (ParseConfig.loop bs n entries log).2.map eraseLine
        = (ParseConfig.loop bs2 n2 entries log2).2.map eraseLine)
    (n n2 : Nat) (entries : List sched_entry) (log log2 : List Event)
    (hlog : log.map eraseLine = log2.map eraseLine) :
    (ParseConfig.loop (b :: bs) n entries log).1
      = (ParseConfig.loop (b2 :: bs2) n2 entries log2).1 ∧
    (ParseConfig.loop (b :: bs) n entries log).2.map eraseLine
      = (ParseConfig.loop (b2 :: bs2) n2 entries log2).2.map eraseLine := by
  rw [ParseConfig.loop, ParseConfig.loop, ← hb]
  cases parseLine b with
  | skip => exact ih _ _ entries log log2 hlog
  | malformed => exact ih _ _ entries _ _ (map_eraseLine_append _ _ _ _ hlog rfl)
  | unknown_day => exact ih _ _ entries _ _ (map_eraseLine_append _ _ _ _ hlog rfl)
  | invalid_time => exact ih _ _ entries _ _ (map_eraseLine_append _ _ _ _ hlog rfl)
  | data day hour minute m3u_path =>
    simp only
    split
    · exact ⟨rfl, map_eraseLine_append _ _ _ _ hlog rfl⟩
    · exact ih _ _ _ _ _ (map_eraseLine_append _ _ _ _ hlog rfl)

/-- The loop of `ParseConfig` depends only on the outcomes of the buffers it does not
skip, as far as the entries and, line numbers aside, the messages go. -/
theorem ParseConfig_loop_outcomes (bufs bufs2 : List (List Char))
    (h : bufs.filterMap lineOutcome = bufs2.filterMap lineOutcome) :
    ∀ (n n2 : Nat) (entries : List sched_entry) (log log2 : List Event),
      log.map eraseLine = log2.map eraseLine →
      (ParseConfig.loop bufs n entries log).1 = (ParseConfig.loop bufs2 n2 entries log2).1 ∧
      (ParseConfig.loop bufs n entries log).2.map eraseLine
        = (ParseConfig.loop bufs2 n2 entries log2).2.map eraseLine := by
  induction bufs generalizing bufs2 with
  | nil =>
    intro n n2 entries log log2 hlog
    rw [ParseConfig_loop_all_skipped bufs2 h.symm n2 entries log2]
    exact ⟨rfl, hlog⟩
  | cons b bs ihb =>
    cases hb : lineOutcome b with
    | none =>
      rw [List.filterMap_cons_none hb] at h
      intro n n2 entries log log2 hlog
      rw [ParseConfig_loop_skip b bs n entries log ((lineOutcome_eq_none_iff b).mp hb)]
      exact ihb bufs2 h (n + 1) n2 entries log log2 hlog
    | some r =>
      rw [List.filterMap_cons_some hb] at h
      induction bufs2 with
      | nil => simp at h
      | cons b2 bs2 ih2 =>
        cases hb2 : lineOutcome b2 with
        | none =>
          rw [List.filterMap_cons_none hb2] at h
          intro n n2 entries log log2 hlog
          rw [ParseConfig_loop_skip b2 bs2 n2 entries log2
            ((lineOutcome_eq_none_iff b2).mp hb2)]
          exact ih2 h n (n2 + 1) entries log log2 hlog
        | some r2 =>
          rw [List.filterMap_cons_some hb2] at h
          simp only [List.cons.injEq] at h
          have hp : parseLine b = parseLine b2 := by
            rw [parseLine_of_lineOutcome b r hb, parseLine_of_lineOutcome b2 r2 hb2, h.1]
          exact ParseConfig_loop_step b b2 bs bs2 hp (ihb bs2 h.2)

/-- The outcomes of the buffers of a file are those of its lines. -/
theorem filterMap_lineOutcome_readLines (content : List Char) :
    (readLines 1024 content).filterMap lineOutcome =
      (fileLines content).flatMap (fun l => (readLines 1024 l).filterMap lineOutcome) :=
  filterMap_readLines 1024 (by omega) lineOutcome lineOutcome_nil
    (fun l _ => lineOutcome_append_newline l) content

theorem specSkipped_cons_space (c : Char) (l : List Char) (hc : isspace c = true)
    (h : specSkipped l = true) : specSkipped (c :: l) = true := by
  cases l with
  | nil =>
    unfold specSkipped specText
    by_cases hr : c = '\r'
    · subst hr; rfl
    · simp [dropCR, hr, List.dropWhile_cons_of_pos hc]
  | cons c2 cs =>
    unfold specSkipped specText at h ⊢
    rw [dropCR_cons_cons, List.dropWhile_cons_of_pos hc]
    exact h

theorem specSkipped_cons_hash (l : List Char) : specSkipped ('#' :: l) = true := by
  cases l with
  | nil => rfl
  | cons c2 cs =>
    unfold specSkipped specText
    rw [dropCR_cons_cons, List.dropWhile_cons_of_neg (by decide)]
    rfl

/-- A line that `silentLine` describes is one the specification skips. -/
theorem specSkipped_of_silentLine (l : List Char) (h : silentLine l = true) :
    specSkipped l = true := by
  induction l with
  | nil => rfl
  | cons c l ih =>
    by_cases hq : spaceTabOrCR c = true
    · have hc : isspace c = true := by
        have : c = ' ' ∨ c = '\t' ∨ c = '\r' := by
          simpa [spaceTabOrCR, or_assoc] using hq
        rcases this with h1 | h1 | h1 <;> subst h1 <;> decide
      apply specSkipped_cons_space c l hc
      apply ih
      unfold silentLine at h ⊢
      rwa [List.dropWhile_cons_of_pos hq] at h
    · unfold silentLine at h
      rw [List.dropWhile_cons_of_neg hq] at h
      have : c = '#' := by simpa using h
      subst this
      exact specSkipped_cons_hash l

/-- C14, as stated, fails for a comment line that does not fit the buffer of 1024 bytes
and for lines that start with a form feed or a vertical tab. The comment line
`longCommentLine` (`#`, 1022 spaces, `see the manual`) added after the line of
`oneLineConfig` is read in two buffers, and `ParseConfig` logs a warning for the second.
The four lines added in `oneLineConfigWithFeeds` are a form feed, a vertical tab, and the
comment `# note` after a form feed and after a vertical tab: each is empty after trimming
or has `#` as its first character that is not white space, and `ParseConfig` logs a
warning for each. -/
theorem ParseConfig_comment_line_warns :
    (ParseConfig (configHost oneLineConfig) (initialSys false) configPath).2.2
      = [.fopen configPath,
         .msg .Dbg "scheduler: entry %d: day=%d time=%02d:%02d path=%s",
         .msg .Info "scheduler: loaded %d schedule entries"] ∧
    (specSkipped longCommentLine = true ∧
      fileLines oneLineConfigWithLongComment = fileLines oneLineConfig ++ [longCommentLine] ∧
      (ParseConfig (configHost oneLineConfigWithLongComment) (initialSys false)
          configPath).2.2
        = [.fopen configPath,
           .msg .Dbg "scheduler: entry %d: day=%d time=%02d:%02d path=%s",
           .msgLine .Warn "scheduler: skipping malformed line %d" 3,
           .msg .Info "scheduler: loaded %d schedule entries"]) ∧
    (fileLines oneLineConfigWithFeeds
        = fileLines oneLineConfig ++ [[Char.ofNat 12], [Char.ofNat 11],
            Char.ofNat 12 :: "# note".toList, Char.ofNat 11 :: "# note".toList] ∧
      specSkipped [Char.ofNat 12] = true ∧ specSkipped [Char.ofNat 11] = true ∧
      specSkipped (Char.ofNat 12 :: "# note".toList) = true ∧
      specSkipped (Char.ofNat 11 :: "# note".toList) = true ∧
      (ParseConfig (configHost oneLineConfigWithFeeds) (initialSys false) configPath).2.2
        = [.fopen configPath,
           .msg .Dbg "scheduler: entry %d: day=%d time=%02d:%02d path=%s",
           .msgLine .Warn "scheduler: skipping malformed line %d" 2,
           .msgLine .Warn "scheduler: skipping malformed line %d" 3,
           .msgLine .Warn "scheduler: skipping malformed line %d" 4,
           .msgLine .Warn "scheduler: skipping malformed line %d" 5,
           .msg .Info "scheduler: loaded %d schedule entries"]) := by
  decide!

/-- C14 (amended): every config line of at most 1023 characters that is empty after
trimming or whose first character that is not white space is `#`, where the white space
before it is made of spaces, tabs and carriage returns, is skipped silently, whatever
follows the `#`. Such a line is one of those the claim speaks of. The iteration that reads
it counts the line, stores nothing and logs nothing. So with the line inserted at any
position of a file, `ParseConfig` returns the same code, stores the same entries and logs
the same messages, apart from the line numbers they carry, as for the file without the
line. -/
theorem ParseConfig_comment_line_inserted (host host2 : Host) (sys : intf_sys_t)
    (path content content2 : List Char) (pre post : List (List Char)) (line : List Char)
    (hopen : host.fopen path = some content) (hopen2 : host2.fopen path = some content2)
    (hlines : fileLines content = pre ++ post)
    (hlines2 : fileLines content2 = pre ++ line :: post)
    (hskip : silentLine line = true) (hlen : line.length ≤ 1023) :
    specSkipped line = true ∧
    (∀ (rest : List (List Char)) (lineno : Nat) (entries : List sched_entry)
        (log : List Event),
      ParseConfig.loop (line :: rest) lineno entries log
        = ParseConfig.loop rest (lineno + 1) entries log ∧
      ParseConfig.loop ((line ++ ['\n']) :: rest) lineno entries log
        = ParseConfig.loop rest (lineno + 1) entries log) ∧
    (ParseConfig host2 sys path).1 = (ParseConfig host sys path).1 ∧
    (ParseConfig host2 sys path).2.1 = (ParseConfig host sys path).2.1 ∧
    (ParseConfig host2 sys path).2.2.map eraseLine
      = (ParseConfig host sys path).2.2.map eraseLine := by
  have hp := parseLine_of_silentLine line hskip
  refine ⟨specSkipped_of_silentLine line hskip, ?_⟩
  constructor
  · intro rest lineno entries log
    exact ⟨ParseConfig_loop_skip line rest lineno entries log hp,
      ParseConfig_loop_skip _ rest lineno entries log
        (by rw [parseLine_append_newline]; exact hp)⟩
  · have hno : '\n' ∉ line := fileLines_no_newline content2 line (by rw [hlines2]; simp)
    have hline : (readLines 1024 line).filterMap lineOutcome = [] := by
      rw [filterMap_readLines_fit 1024 (by omega) lineOutcome lineOutcome_nil line hno hlen,
        (lineOutcome_eq_none_iff line).mpr hp]
      rfl
    have hout : (readLines 1024 content2).filterMap lineOutcome
        = (readLines 1024 content).filterMap lineOutcome := by
      rw [filterMap_lineOutcome_readLines content, filterMap_lineOutcome_readLines content2,
        hlines, hlines2, List.flatMap_append, List.flatMap_append, List.flatMap_cons, hline,
        List.nil_append]
    obtain ⟨h1, h2⟩ := ParseConfig_loop_outcomes _ _ hout 0 0 [] [.fopen path] [.fopen path]
      rfl
    unfold ParseConfig
    rw [hopen, hopen2]
    simp only
    rw [h1]
    split
    · refine ⟨rfl, rfl, ?_⟩
      rw [List.map_append, List.map_append, h2]
    · refine ⟨rfl, rfl, ?_⟩
      rw [List.map_append, List.map_append, h2]

/-- C14 (amended), on `exampleConfig`: its first line `# weekly schedule` (with a carriage
return) is a comment. The file gives the same code and the same entries with it and
without it, and the same messages, whose line numbers are one higher with it. -/
theorem ParseConfig_comment_line_inserted_example :
    fileLines exampleConfig
      = [] ++ "# weekly schedule\r".toList :: fileLines exampleConfigWithoutComment ∧
    silentLine "# weekly schedule\r".toList = true ∧
    (ParseConfig (configHost exampleConfig) (initialSys false) configPath).1
      = (ParseConfig (configHost exampleConfigWithoutComment) (initialSys false) configPath).1 ∧
    (ParseConfig (configHost exampleConfig) (initialSys false) configPath).2.1
      = (ParseConfig (configHost exampleConfigWithoutComment) (initialSys false)
          configPath).2.1 ∧
    (ParseConfig (configHost exampleConfig) (initialSys false) configPath).2.2.map eraseLine
      = (ParseConfig (configHost exampleConfigWithoutComment) (initialSys false)
          configPath).2.2.map eraseLine ∧
    (ParseConfig (configHost exampleConfigWithoutComment) (initialSys false) configPath).2.2
      = [.fopen configPath,
         .msg .Dbg "scheduler: entry %d: day=%d time=%02d:%02d path=%s",
         .msg .Dbg "scheduler: entry %d: day=%d time=%02d:%02d path=%s",
         .msgLine .Warn "scheduler: unknown day '%s' on line %d" 4,
         .msgLine .Warn "scheduler: invalid time %d:%02d on line %d" 5,
         .msgLine .Warn "scheduler: skipping malformed line %d" 6,
         .msg .Dbg "scheduler: entry %d: day=%d time=%02d:%02d path=%s",
         .msg .Info "scheduler: loaded %d schedule entries"] ∧
    (ParseConfig (configHost exampleConfig) (initialSys false) configPath).2.2
      = [.fopen configPath,
         .msg .Dbg "scheduler: entry %d: day=%d time=%02d:%02d path=%s",
         .msg .Dbg "scheduler: entry %d: day=%d time=%02d:%02d path=%s",
         .msgLine .Warn "scheduler: unknown day '%s' on line %d" 5,
         .msgLine .Warn "scheduler: invalid time %d:%02d on line %d" 6,
         .msgLine .Warn "scheduler: skipping malformed line %d" 7,
         .msg .Dbg "scheduler: entry %d: day=%d time=%02d:%02d path=%s",
         .msg .Info "scheduler: loaded %d schedule entries"] :=
  ⟨by decide, by decide,
   (ParseConfig_comment_line_inserted (configHost exampleConfigWithoutComment)
     (configHost exampleConfig) (initialSys false) configPath exampleConfigWithoutComment
     exampleConfig [] (fileLines exampleConfigWithoutComment) "# weekly schedule\r".toList
     (by decide) (by decide) (by decide) (by decide) (by decide) (by decide)).2.2.1,
   (ParseConfig_comment_line_inserted (configHost exampleConfigWithoutComment)
     (configHost exampleConfig) (initialSys false) configPath exampleConfigWithoutComment
     exampleConfig [] (fileLines exampleConfigWithoutComment) "# weekly schedule\r".toList
     (by decide) (by decide) (by decide) (by decide) (by decide) (by decide)).2.2.2.1,
   (ParseConfig_comment_line_inserted (configHost exampleConfigWithoutComment)
     (configHost exampleConfig) (initialSys false) configPath exampleConfigWithoutComment
     exampleConfig [] (fileLines exampleConfigWithoutComment) "# weekly schedule\r".toList
     (by decide) (by decide) (by decide) (by decide) (by decide) (by decide)).2.2.2.2,
   by decide, by decide⟩

end VLScheduler
